import Mathlib

/-! # YSoX: the sample codec and the stream session of `ysox.c`

A shallow embedding of the write-path sample conversion (`write_samples`), of
the read and seek operations (`read_samples`, `seek_to`, `ysox_eval`), of
`Y_sox_close` and of `Y_sox_open_write` of the Yorick interface to libSoX,
with the properties of the specification stated and proved over it.

Conventions of the embedding:

* C `long` is a 64-bit and `sox_sample_t` a 32-bit two's-complement integer;
  values are `Int`, and every place where the C code can leave the range of
  the type goes through `wrapSigned` (reduction modulo `2^w`).
* The platform is LP64 with IEEE 754 arithmetic: `char` has 8, `short` 16,
  `int` 32 and `long` 64 bits, `float` is binary32 and `double` binary64.
* The counters `offset` and `clips` are incremented without wrap-around: they
  count samples, and no array holds `2^63` of them.
* `y_error` does not return: an operation that raises it stops there, and the
  outcome records the error, the session as it was left and the backend calls
  issued so far.
* The backend (libSoX) is external: what it answers to a call is an argument
  of the operation that makes the call.
-/

namespace YSoX

/-! ## Machine integers -/

/-- The value of the `w`-bit two's-complement integer with the same low `w`
bits as `x`. -/
def wrapSigned (w : Nat) (x : Int) : Int :=
  if x % 2 ^ w < 2 ^ (w - 1) then x % 2 ^ w else x % 2 ^ w - 2 ^ w

/-- The low `w` bits of `x`, as a natural number (the bit pattern of a `w`-bit
integer). -/
def bitsOf (w : Nat) (x : Int) : Nat :=
  (x % 2 ^ w).toNat

/-- Product of two `long` values, as a `long`. -/
def mulLong (a b : Int) : Int :=
  wrapSigned 64 (a * b)

/-- Quotient of two `long` values, rounded toward zero as C does. -/
def divLong (a b : Int) : Int :=
  Int.tdiv a b

/-! ## Constants and macros of `sox.h` -/

/-- Modelled from the spec: `SOX_SAMPLE_PRECISION` of `sox.h`, which is not
among the sources; canonical samples are signed 32-bit values. -/
def SOX_SAMPLE_PRECISION : Nat := 32

/-- Modelled from the spec: `SOX_SAMPLE_MAX` of `sox.h`, the largest canonical
sample, `2^31 - 1`. -/
def SOX_SAMPLE_MAX : Int := 2 ^ 31 - 1

/-- Modelled from the spec: `SOX_SAMPLE_MIN` of `sox.h`, the smallest canonical
sample, `-2^31`. -/
def SOX_SAMPLE_MIN : Int := -(2 ^ 31)

/-- Modelled from the spec: the macro `SOX_UNSIGNED_TO_SAMPLE(bits, d)` of
`sox.h`, which is not among the sources: flip bit `bits - 1` of `d` (the sign
bit mask of a `bits`-bit integer), then shift the result to the top of a
32-bit sample. `d` is the operand after the integer promotions (an `int`); the
exclusive or acts on its 32-bit pattern and the left shift keeps the low 32
bits. -/
def SOX_UNSIGNED_TO_SAMPLE (bits : Nat) (d : Int) : Int :=
  wrapSigned 32 ((((bitsOf 32 d) ^^^ (2 ^ (bits - 1))) <<< (32 - bits) : Nat) : Int)

/-! ## Integer conversions of `write_samples` -/

/-- Element `x` of a `char` array read through `const uint8_t*`. -/
def readUInt8 (x : Int) : Int := x % 2 ^ 8

/-- Element `x` of a `short` array read through `const int16_t*`. -/
def readInt16 (x : Int) : Int := wrapSigned 16 x

/-- Element `x` of a `long` array read through `const int64_t*`. -/
def readInt64 (x : Int) : Int := wrapSigned 64 x

/-- Body of the 8-bit loop: `tmp[i] = SOX_UNSIGNED_TO_SAMPLE(8, inp[i])`. -/
def encode8 (x : Int) : Int :=
  SOX_UNSIGNED_TO_SAMPLE 8 (readUInt8 x)

/-- Body of the 16-bit loop: `tmp[i] = SOX_UNSIGNED_TO_SAMPLE(16, inp[i])`. -/
def encode16 (x : Int) : Int :=
  SOX_UNSIGNED_TO_SAMPLE 16 (readInt16 x)

/-- Body of the 64-bit loop: `tmp[i] = (sox_sample_t)(inp[i] >> 32)`. -/
def encode64 (x : Int) : Int :=
  wrapSigned 32 ((readInt64 x) >>> (32 : Nat))

/-! ## Floating point: IEEE 754 binary64

A C `double` is an IEEE 754 binary64 value and arithmetic on it rounds to
nearest, ties to even. A finite value is represented by the rational number
it denotes (the sign of a zero is not kept: nothing below depends on it). -/

/-- A value of C type `double`. -/
inductive Double where
  | finite (q : ℚ)
  | posInf
  | negInf
  | nan
  deriving DecidableEq

/-- The finite binary64 values: `m * 2^e` with a 53-bit significand and an
exponent between the smallest subnormal and the largest normal one. -/
def isBinary64 (q : ℚ) : Prop :=
  ∃ m e : ℤ, |m| < 2 ^ 53 ∧ -1074 ≤ e ∧ e ≤ 971 ∧ q = m * 2 ^ e

/-- The finite binary32 values (C `float`): `m * 2^e` with a 24-bit
significand. Conversion of a `float` to `double` is exact. -/
def isBinary32 (q : ℚ) : Prop :=
  ∃ m e : ℤ, |m| < 2 ^ 24 ∧ -149 ≤ e ∧ e ≤ 104 ∧ q = m * 2 ^ e

/-- Nearest integer, a tie going to the even one. -/
def roundHalfEven (x : ℚ) : ℤ :=
  if x - ⌊x⌋ < 1 / 2 then ⌊x⌋
  else if 1 / 2 < x - ⌊x⌋ then ⌊x⌋ + 1
  else if ⌊x⌋ % 2 = 0 then ⌊x⌋ else ⌊x⌋ + 1

/-- Exponent of the unit in the last place of the binary64 format at `x`:
52 below the exponent of `x`, and never below the subnormal exponent. -/
def ulpExponent (x : ℚ) : ℤ :=
  max (Int.log 2 |x| - 52) (-1074)

/-- Rounding of a rational to the binary64 grid (unbounded above). -/
def roundBinary64 (x : ℚ) : ℚ :=
  roundHalfEven (x / 2 ^ ulpExponent x) * 2 ^ ulpExponent x

namespace Double

/-- The `double` nearest to the rational `x`; a result beyond the largest
finite value overflows to an infinity. -/
def ofRat (x : ℚ) : Double :=
  if 2 ^ 1024 ≤ roundBinary64 x then posInf
  else if roundBinary64 x ≤ -(2 ^ 1024) then negInf
  else finite (roundBinary64 x)

/-- Conversion of an integer to `double`, as in `(double)SOX_SAMPLE_MAX`. -/
def ofInt (n : Int) : Double := ofRat n

/-- Unary minus. -/
def neg : Double → Double
  | finite q => finite (-q)
  | posInf => negInf
  | negInf => posInf
  | nan => nan

/-- Addition `a + b`. -/
def add : Double → Double → Double
  | finite a, finite b => ofRat (a + b)
  | nan, _ => nan
  | _, nan => nan
  | posInf, negInf => nan
  | negInf, posInf => nan
  | posInf, _ => posInf
  | _, posInf => posInf
  | negInf, _ => negInf
  | _, negInf => negInf

/-- Subtraction `a - b`. -/
def sub (a b : Double) : Double := add a (neg b)

/-- The infinity of the sign of `s`, or NaN when `s` is zero. -/
def infOfSign (s : ℚ) : Double :=
  if 0 < s then posInf else if s < 0 then negInf else nan

/-- Sign of a non-NaN value, as a rational. -/
def sign : Double → ℚ
  | finite q => if 0 < q then 1 else if q < 0 then -1 else 0
  | posInf => 1
  | negInf => -1
  | nan => 0

/-- Multiplication `a * b`. -/
def mul : Double → Double → Double
  | finite a, finite b => ofRat (a * b)
  | nan, _ => nan
  | _, nan => nan
  | a, b => infOfSign (sign a * sign b)

/-- Division `a / b`. -/
def div : Double → Double → Double
  | nan, _ => nan
  | _, nan => nan
  | finite a, finite b => if b = 0 then infOfSign a else ofRat (a / b)
  | finite _, _ => finite 0
  | a, finite b => if b < 0 then neg a else a
  | _, _ => nan

/-- The C library function `floor`. -/
def floor : Double → Double
  | finite q => finite ⌊q⌋
  | d => d

/-- Comparison `a < b`; false when either operand is a NaN. -/
def lt : Double → Double → Bool
  | finite a, finite b => decide (a < b)
  | finite _, posInf => true
  | negInf, finite _ => true
  | negInf, posInf => true
  | _, _ => false

/-- Comparison `a >= b`; false when either operand is a NaN. -/
def ge : Double → Double → Bool
  | finite a, finite b => decide (b ≤ a)
  | posInf, finite _ => true
  | finite _, negInf => true
  | posInf, posInf => true
  | posInf, negInf => true
  | negInf, negInf => true
  | _, _ => false

/-- The integer part of `q`, rounding toward zero. -/
def truncate (q : ℚ) : Int :=
  if 0 ≤ q then ⌊q⌋ else ⌈q⌉

/-- The conversion `(sox_sample_t)d`: the value of `d` without its fractional
part when that fits a 32-bit sample. C leaves every other case undefined; the
model then yields `SOX_SAMPLE_MIN`, which is what the x86-64 conversion
instruction delivers. -/
def toSample : Double → Int
  | finite q =>
    if SOX_SAMPLE_MIN ≤ truncate q ∧ truncate q ≤ SOX_SAMPLE_MAX then truncate q
    else SOX_SAMPLE_MIN
  | _ => SOX_SAMPLE_MIN

end Double

/-! ## Floating-point conversion of `write_samples` -/

/-- The constant `mult = 1.0 + (double)SOX_SAMPLE_MAX`. -/
def mult : Double := Double.add (Double.finite 1) (Double.ofInt SOX_SAMPLE_MAX)

/-- The constant `bias = 0.5`. -/
def bias : Double := Double.finite (1 / 2)

/-- The constant `cmin = -1.0 - bias/mult`. -/
def cmin : Double := Double.sub (Double.finite (-1)) (Double.div bias mult)

/-- The constant `cmax = 1.0 - bias/mult`. -/
def cmax : Double := Double.sub (Double.finite 1) (Double.div bias mult)

/-- Body of the floating-point loops (the `float` loop first widens the
element to `double`, which changes nothing): the sample stored in `tmp[i]`
and the increment of `clips`. -/
def encodeFloat (value : Double) : Int × Nat :=
  if Double.lt value cmin then (SOX_SAMPLE_MIN, 1)
  else if Double.ge value cmax then (SOX_SAMPLE_MAX, 1)
  else (Double.toSample (Double.floor (Double.add (Double.mul mult value) bias)), 0)

/-- The floating-point loop over the whole array: the converted buffer and
the final value of the local counter `clips`, which starts at zero. -/
def encodeFloats : List Double → List Int × Nat
  | [] => ([], 0)
  | value :: rest =>
    ((encodeFloat value).1 :: (encodeFloats rest).1, (encodeFloat value).2 + (encodeFloats rest).2)

/-! ## The stream session -/

/-- The fields of libSoX's `sox_format_t` that `ysox.c` reads or updates. -/
structure sox_format_t where
  /-- Field `mode`: the character `r` for an input, `w` for an output stream. -/
  mode : Char
  /-- Field `signal.channels` (an `unsigned`). -/
  channels : Nat
  /-- Field `signal.length` (a `sox_uint64_t`): total number of samples, all
  channels together; zero when unknown. -/
  length : Nat
  /-- Field `clips` (a `sox_uint64_t`): the running count of clipped samples. -/
  clips : Nat
  deriving DecidableEq

/-- The structure `struct _ysox`: the backend handle (`NULL` once closed) and
the current offset in frames. -/
structure ysox_t where
  format : Option sox_format_t
  offset : Int
  deriving DecidableEq

/-- The errors raised through `y_error` and its variants, one per message. -/
inductive YError where
  /-- Message "sound stream not open for reading". -/
  | notOpenForReading
  /-- Message "offset must be nonnegative". -/
  | offsetNegative
  /-- Message "integer overflow". -/
  | integerOverflow
  /-- Message "sox_seek failed (...)". -/
  | seekFailed
  /-- Message "sound stream not open for writing". -/
  | notOpenForWriting
  /-- Message "invalid audio data type". -/
  | invalidDataType
  /-- Message "expecting CHANNELS-by-SAMPLES audio data". -/
  | badShape
  /-- Message "unsupported integer type for conversion to SoX audio samples". -/
  | unsupportedInteger
  /-- Message "write error (... samples written)". -/
  | writeError
  /-- Message "invalid number of samples". -/
  | invalidNumberOfSamples
  /-- Message "unexpected negative count (...)". -/
  | negativeCount
  /-- Message "missing or bad argument". -/
  | badArgument
  /-- Message "input/output of audio stream has been closed". -/
  | streamClosed
  /-- Messages "unexpected matrix multiply marker", "unexpected '-' marker" and
  "unexpected rubber band marker". -/
  | unexpectedMarker
  /-- Message "subsampling or reversing not yet implemented". -/
  | unsupportedStride
  /-- Message "invalid range". -/
  | invalidRange
  /-- Message "unexpected type of argument". -/
  | unexpectedType
  /-- Message "unexpected input/output mode". -/
  | unexpectedMode
  /-- An error of the interpreter itself: an argument that is not of the type
  a `yget...` function fetches. -/
  | hostTypeError
  deriving DecidableEq

/-- A call made to the backend. -/
inductive BackendCall where
  /-- The call `sox_seek(format, offset, SOX_SEEK_SET)`. -/
  | seek (offset : Int)
  /-- The call `sox_write(format, buf, len)`. -/
  | write (buf : List Int) (len : Int)
  /-- The call `sox_read(format, buf, len)`. -/
  | read (len : Int)
  /-- The call `sox_close(format)`. -/
  | close
  deriving DecidableEq

/-- What an operation leaves behind: the session, the backend calls it made,
in order, and the error it raised, if any. -/
structure Outcome where
  obj : ysox_t
  calls : List BackendCall
  error : Option YError
  deriving DecidableEq

/-- The function `seek_to(obj, offset)`. `seekOk` tells whether the backend
answers `SOX_SUCCESS` to the `sox_seek` call, if one is made. The division
`length/channels` is only reached with `channels` nonzero when `length` is a
valid `long`; a zero divisor is undefined in C and is not modelled. -/
def seek_to (obj : ysox_t) (offset : Int) (seekOk : Bool) : Outcome :=
  match obj.format with
  | none => ⟨obj, [], some .notOpenForReading⟩
  | some ft =>
    if ft.mode ≠ 'r' then ⟨obj, [], some .notOpenForReading⟩
    else
      let channels := wrapSigned 64 ft.channels
      let length := wrapSigned 64 ft.length
      if offset < 0 then ⟨obj, [], some .offsetNegative⟩
      else if mulLong offset channels < 0 then ⟨obj, [], some .integerOverflow⟩
      else
        let offset1 := if mulLong offset channels > length then divLong length channels else offset
        if obj.offset ≠ offset1 then
          if seekOk then
            ⟨{ obj with offset := offset1 }, [.seek (mulLong offset1 channels)], none⟩
          else ⟨obj, [.seek (mulLong offset1 channels)], some .seekFailed⟩
        else ⟨obj, [], none⟩

/-- The elements of a Yorick array, by element type. -/
inductive YData where
  /-- Type `Y_CHAR`. -/
  | chars (inp : List Int)
  /-- Type `Y_SHORT`. -/
  | shorts (inp : List Int)
  /-- Type `Y_INT`: 32-bit integers, which are canonical samples already. -/
  | ints (inp : List Int)
  /-- Type `Y_LONG`. -/
  | longs (inp : List Int)
  /-- Type `Y_FLOAT`; each element is given by its value. -/
  | floats (inp : List Double)
  /-- Type `Y_DOUBLE`. -/
  | doubles (inp : List Double)
  /-- Any other type (complex, string, pointer, ...). -/
  | other (ntot : Nat)

/-- A Yorick array as `ygeta_any` returns it: the rank `dims[0]`, the first
dimension `dims[1]` and the elements. -/
structure YArray where
  rank : Int
  dim1 : Int
  data : YData

/-- The number of elements `ntot`. -/
def YData.ntot : YData → Int
  | .chars inp => inp.length
  | .shorts inp => inp.length
  | .ints inp => inp.length
  | .longs inp => inp.length
  | .floats inp => inp.length
  | .doubles inp => inp.length
  | .other n => n

/-- The element size `nbits` that the `switch` on the type sets (LP64: a
`long` has 64 bits); zero stands for a type the `switch` rejects. -/
def YData.nbits : YData → Nat
  | .chars _ => 8
  | .shorts _ => 16
  | .ints _ => 32
  | .longs _ => 64
  | .floats _ => 32
  | .doubles _ => 64
  | .other _ => 0

/-- The flag `integer` that the `switch` on the type sets. -/
def YData.integer : YData → Bool
  | .floats _ => false
  | .doubles _ => false
  | _ => true

/-- The conversion block of `write_samples`: the buffer `tmp` and the final
value of the local counter `clips`; `none` where the block raises
"unsupported integer type". -/
def convertSamples : YData → Option (List Int × Nat)
  | .chars inp => some (inp.map encode8, 0)
  | .shorts inp => some (inp.map encode16, 0)
  | .longs inp => some (inp.map encode64, 0)
  | .floats inp => some (encodeFloats inp)
  | .doubles inp => some (encodeFloats inp)
  | _ => none

/-- The array itself seen as a buffer of `sox_sample_t`, for data that needs
no conversion. -/
def rawSamples : YData → List Int
  | .ints inp => inp.map (wrapSigned 32)
  | _ => []

/-- The shape test of `write_samples`,
`(dims[0] == 1 || dims[0] == 2) && dims[1] == channels` or
`channels == 1 && dims[0] <= 1`: a one- or two-dimensional array whose first
dimension is the number of channels or, for a mono stream, a scalar or a flat
array. -/
def shapeAccepted (ft : sox_format_t) (arr : YArray) : Prop :=
  ((arr.rank = 1 ∨ arr.rank = 2) ∧ arr.dim1 = wrapSigned 64 ft.channels)
    ∨ (wrapSigned 64 ft.channels = 1 ∧ arr.rank ≤ 1)

instance (ft : sox_format_t) (arr : YArray) : Decidable (shapeAccepted ft arr) := by
  unfold shapeAccepted
  infer_instance

/-- The end of `write_samples`: the call to `sox_write`, whose answer is `n`,
and the update of the offset. -/
def finishWrite (ft : sox_format_t) (offset : Int) (buf : List Int) (ntot n : Int) : Outcome :=
  ⟨{ format := some ft,
     offset := offset + (if n > 0 then divLong n (wrapSigned 64 ft.channels) else 0) },
   [.write buf ntot], if n ≠ ntot then some .writeError else none⟩

/-- The function `write_samples(obj, iarg)`, `arr` being the array at stack
position `iarg` and `n` the answer of the backend to `sox_write`. The test on
`SOX_SAMPLE_PRECISION` and `sizeof(sox_sample_t)` compares constants and
always passes. -/
def write_samples (obj : ysox_t) (arr : YArray) (n : Int) : Outcome :=
  match obj.format with
  | none => ⟨obj, [], some .notOpenForWriting⟩
  | some ft =>
    if ft.mode ≠ 'w' then ⟨obj, [], some .notOpenForWriting⟩
    else if arr.data.nbits = 0 then ⟨obj, [], some .invalidDataType⟩
    else if ¬shapeAccepted ft arr then ⟨obj, [], some .badShape⟩
    else if ¬arr.data.integer ∨ arr.data.nbits ≠ SOX_SAMPLE_PRECISION then
      match convertSamples arr.data with
      | none => ⟨obj, [], some .unsupportedInteger⟩
      | some (tmp, clips) =>
        finishWrite { ft with clips := ft.clips + clips } obj.offset tmp arr.data.ntot n
    else finishWrite ft obj.offset (rawSamples arr.data) arr.data.ntot n

/-! ## Reading -/

/-- What a read leaves on top of the interpreter stack: nil, or an array of
`channels` by `frames` samples. -/
inductive YValue where
  | nil
  | samples (channels frames : Int) (data : List Int)
  deriving DecidableEq

/-- What a read leaves behind: the session, the backend calls made, the error
raised, if any, whether the warning "number of samples is not a multiple of
the number of channels" was issued, and the value on top of the stack (nil
when an error was raised). -/
structure ReadOutcome where
  obj : ysox_t
  calls : List BackendCall
  error : Option YError
  warning : Bool
  value : YValue
  deriving DecidableEq

/-- The number of frames a read returned: the second dimension of the array
it left, zero for nil. -/
def ReadOutcome.frames (r : ReadOutcome) : Int :=
  match r.value with
  | .nil => 0
  | .samples _ frames _ => frames

/-- The function `read_samples(obj, samples)`. `n` is the answer of the
backend to `sox_read` and `buf` the buffer `push_samples(channels, samples)`
made, of `channels*samples` samples, as `sox_read` left it: its first `n`
samples are the ones delivered. -/
def read_samples (obj : ysox_t) (samples : Int) (n : Int) (buf : List Int) : ReadOutcome :=
  match obj.format with
  | none => ⟨obj, [], some .notOpenForReading, false, .nil⟩
  | some ft =>
    if ft.mode ≠ 'r' then ⟨obj, [], some .notOpenForReading, false, .nil⟩
    else
      let channels := wrapSigned 64 ft.channels
      if samples ≤ 0 then
        if samples < 0 then ⟨obj, [], some .invalidNumberOfSamples, false, .nil⟩
        else ⟨obj, [], none, false, .nil⟩
      else
        let np := if n > 0 then divLong n channels else 0
        let obj1 : ysox_t := { obj with offset := obj.offset + np }
        let calls := [BackendCall.read (mulLong channels samples)]
        if n < 0 then ⟨obj1, calls, some .negativeCount, false, .nil⟩
        else
          let warning := decide (Int.tmod n channels ≠ 0)
          if np < samples then
            if np = 0 then ⟨obj1, calls, none, warning, .nil⟩
            else ⟨obj1, calls, none, warning,
              .samples channels np (buf.take (channels * np).toNat)⟩
          else ⟨obj1, calls, none, warning, .samples channels samples buf⟩

/-- The function `Y_sox_close`, called with its one argument. -/
def Y_sox_close (obj : ysox_t) : Outcome :=
  match obj.format with
  | some _ => ⟨⟨none, 0⟩, [.close], none⟩
  | none => ⟨obj, [], none⟩

/-- What `yget_range` tells of a range: one of the markers, or a range
`min:max:step` with a flag for each bound that was left out. -/
inductive RangeKind where
  /-- Flag `Y_MMMARK`. -/
  | mmmark
  /-- Flag `Y_PSEUDO`. -/
  | pseudo
  /-- Flag `Y_RUBBER`. -/
  | rubber
  /-- Flag `Y_RUBBER1`. -/
  | rubber1
  /-- Flag `Y_NULLER`. -/
  | nuller
  /-- A range `min:max:step`; `minDflt` is the bit `Y_MIN_DFLT` and `maxDflt`
  the bit `Y_MAX_DFLT`. -/
  | minmax (minDflt maxDflt : Bool)
  deriving DecidableEq

/-- The argument of a stream used as a function. -/
inductive YArg where
  /-- A numeric array, scalars (rank 0) included. -/
  | array (arr : YArray)
  /-- Type `Y_VOID`. -/
  | void
  /-- Type `Y_RANGE`, with the values `mms[0]`, `mms[1]`, `mms[2]`. -/
  | range (kind : RangeKind) (min max step : Int)
  /-- Anything else. -/
  | other

/-- The test `rank == 0` and type `Y_CHAR`, `Y_SHORT`, `Y_INT` or `Y_LONG`,
with the value `ygets_l` fetches. -/
def scalarIndex : YArg → Option Int
  | .array ⟨0, _, .chars [x]⟩ => some (readUInt8 x)
  | .array ⟨0, _, .shorts [x]⟩ => some (readInt16 x)
  | .array ⟨0, _, .ints [x]⟩ => some (wrapSigned 32 x)
  | .array ⟨0, _, .longs [x]⟩ => some (readInt64 x)
  | _ => none

/-- Sum of two `long` values, as a `long`. -/
def addLong (a b : Int) : Int :=
  wrapSigned 64 (a + b)

/-- Difference of two `long` values, as a `long`. -/
def subLong (a b : Int) : Int :=
  wrapSigned 64 (a - b)

/-- What the argument of a read selects: an error, nil, or `samples` frames
from the frame `offset`. -/
inductive Selection where
  | error (e : YError)
  | nil
  | frames (offset samples : Int)
  deriving DecidableEq

/-- The first part of the read branch of `ysox_eval`: from the current offset
of the session, the number of frames `ntot` and the argument, the values of
the local variables `offset` and `samples`. -/
def selectFrames (current ntot : Int) (arg : YArg) : Selection :=
  match scalarIndex arg with
  | some i =>
    .frames (subLong (if i ≤ 0 then addLong i ntot else i) 1) 1
  | none =>
    match arg with
    | .void => .frames current (subLong ntot current)
    | .range .mmmark _ _ _ => .error .unexpectedMarker
    | .range .pseudo _ _ _ => .error .unexpectedMarker
    | .range .rubber _ _ _ => .error .unexpectedMarker
    | .range .nuller _ _ _ => .nil
    | .range .rubber1 _ _ _ => .frames 0 ntot
    | .range (.minmax minDflt maxDflt) min max step =>
      let imin := if minDflt then addLong current 1 else min
      let imax := if maxDflt then ntot else max
      if step ≠ 1 then .error .unsupportedStride
      else
        let imin1 := if imin ≤ 0 then addLong imin ntot else imin
        let imax1 := if imax ≤ 0 then addLong imax ntot else imax
        if imin1 > imax1 ∨ imin1 ≤ 0 ∨ imax1 > ntot then .error .invalidRange
        else .frames (subLong imin1 1) (addLong (subLong imax1 imin1) 1)
    | _ => .error .unexpectedType

/-- The function `ysox_eval(addr, argc)`: a stream used as a function of the
argument `arg`. The answers of the backend are `seekOk` to `sox_seek`, and `n`
with the buffer `buf` to `sox_read` or `n` to `sox_write`. In the write branch
the array that `write_samples` leaves on the stack, the argument or its
conversion, is not modelled: the value of the outcome is nil there. -/
def ysox_eval (obj : ysox_t) (argc : Int) (arg : YArg) (seekOk : Bool) (n : Int)
    (buf : List Int) : ReadOutcome :=
  if argc ≠ 1 then ⟨obj, [], some .badArgument, false, .nil⟩
  else
    match obj.format with
    | none => ⟨obj, [], some .streamClosed, false, .nil⟩
    | some ft =>
      if ft.mode = 'r' then
        match selectFrames obj.offset (wrapSigned 64 ((ft.length / ft.channels : Nat) : Int)) arg with
        | .error e => ⟨obj, [], some e, false, .nil⟩
        | .nil => ⟨obj, [], none, false, .nil⟩
        | .frames offset samples =>
          if offset ≠ obj.offset then
            match (seek_to obj offset seekOk).error with
            | some e => ⟨(seek_to obj offset seekOk).obj, (seek_to obj offset seekOk).calls,
                some e, false, .nil⟩
            | none =>
              { read_samples (seek_to obj offset seekOk).obj samples n buf with
                calls := (seek_to obj offset seekOk).calls
                  ++ (read_samples (seek_to obj offset seekOk).obj samples n buf).calls }
          else read_samples obj samples n buf
      else if ft.mode = 'w' then
        match arg with
        | .array arr =>
          ⟨(write_samples obj arr n).obj, (write_samples obj arr n).calls,
            (write_samples obj arr n).error, false, .nil⟩
        | _ => ⟨obj, [], some .hostTypeError, false, .nil⟩
      else ⟨obj, [], some .unexpectedMode, false, .nil⟩

/-! ## Notions of the specification -/

/-- From the specification: the inverse of the unsigned integer conversion,
"flip the sign bit of the canonical sample, then take its top `bits` bits";
the result is the `bits`-bit pattern recovered. -/
def decodeUnsigned (bits : Nat) (s : Int) : Nat :=
  ((bitsOf 32 s) ^^^ 2 ^ 31) >>> (32 - bits)

/-- The `clip_count` of a session: the field `clips` of its handle, as long as
the session is open. -/
def clipCount (obj : ysox_t) : Option Nat :=
  obj.format.map fun ft => ft.clips

/-- A floating-point value that the write path clips: one that compares below
`cmin` or at or above `cmax`. -/
def clipped (value : Double) : Bool :=
  Double.lt value cmin || Double.ge value cmax

/-- The offset invariant of the specification for a session whose handle is
`ft`: `0 <= current_offset <= L div channel_count`. -/
def offsetInRange (ft : sox_format_t) (offset : Int) : Prop :=
  0 ≤ offset ∧ offset ≤ (ft.length : Int) / (ft.channels : Int)

/-- A Yorick array is laid out along its dimensions: a scalar (rank 0) holds
one element, and the number of elements of an array of rank one or more is a
multiple of its first dimension, which is at least 1. -/
def YArray.wellFormed (arr : YArray) : Prop :=
  0 ≤ arr.rank ∧ (arr.rank = 0 → arr.data.ntot = 1) ∧
    (1 ≤ arr.rank → 1 ≤ arr.dim1 ∧ arr.dim1 ∣ arr.data.ntot)

instance (arr : YArray) : Decidable arr.wellFormed := by
  unfold YArray.wellFormed
  infer_instance

/-- The canonical values of an array of a supported element type, one per
element and in the order of the elements. -/
def canonicalValues : YData → List Int
  | .chars inp => inp.map encode8
  | .shorts inp => inp.map encode16
  | .ints inp => inp.map (wrapSigned 32)
  | .longs inp => inp.map encode64
  | .floats inp => inp.map fun v => (encodeFloat v).1
  | .doubles inp => inp.map fun v => (encodeFloat v).1
  | .other _ => []

/-- From the specification: the errors of the class `InvalidArgument`, "bad
caller input: negative counts, malformed ranges, wrong buffer shape,
unsupported native type", with the negative or overflowing seek target and the
malformed argument of a stream used as a function. -/
def YError.isInvalidArgument : YError → Bool
  | .invalidNumberOfSamples => true
  | .offsetNegative => true
  | .integerOverflow => true
  | .unsupportedStride => true
  | .invalidRange => true
  | .unexpectedMarker => true
  | .unexpectedType => true
  | .badArgument => true
  | .invalidDataType => true
  | .badShape => true
  | .unsupportedInteger => true
  | _ => false

/-- The number of frames `ntot` of a stream: its length divided by its number
of channels. -/
def frameCount (ft : sox_format_t) : Int :=
  ((ft.length / ft.channels : Nat) : Int)

/-- From the specification: a bound of a range-addressed read once resolved,
"increased by `ntot` when it is `<= 0`". -/
def resolveBound (ntot bound : Int) : Int :=
  if bound ≤ 0 then bound + ntot else bound

/-- From the specification: the resolved lower bound of a range-addressed
read, "`current_offset + 1` when `lo` is omitted and `lo` otherwise, increased
by `ntot` when it is `<= 0`". -/
def rangeLow (ft : sox_format_t) (current : Int) (omitted : Bool) (lo : Int) : Int :=
  resolveBound (frameCount ft) (if omitted then current + 1 else lo)

/-- From the specification: the resolved upper bound of a range-addressed
read, "`ntot` when `hi` is omitted and `hi` otherwise, increased by `ntot`
when it is `<= 0`". -/
def rangeHigh (ft : sox_format_t) (omitted : Bool) (hi : Int) : Int :=
  resolveBound (frameCount ft) (if omitted then frameCount ft else hi)

/-! ## A backend holding a finite stream -/

/-- From the specification: "a backend holding exactly `frame_count` whole
frames (a read returns min(requested, remaining) frames, a seek repositions
it)": the samples it holds, all channels interleaved, and its position,
counted in samples. -/
structure Backend where
  samples : List Int
  pos : Nat
  deriving DecidableEq

/-- The samples the backend delivers to `sox_read(format, buf, len)`: the next
`len` of them, or all that remain; `len` is received as a `size_t`. -/
def Backend.read (b : Backend) (len : Int) : List Int :=
  (b.samples.drop b.pos).take (bitsOf 64 len)

/-- The read of `samples` frames by a session over the backend `b`: the
function `read_samples` with the answers of `b`, the part of the buffer that
the backend does not fill holding zeros, and the backend after the call. -/
def readFrom (obj : ysox_t) (b : Backend) (samples : Int) : ReadOutcome × Backend :=
  let len : Int :=
    match obj.format with
    | some ft => mulLong (wrapSigned 64 ft.channels) samples
    | none => 0
  let r := read_samples obj samples (b.read len).length
    (b.read len ++ List.replicate (bitsOf 64 len - (b.read len).length) 0)
  (r, if r.calls = [] then b else { b with pos := b.pos + (b.read len).length })

/-- The seek to the frame `target` by a session over the backend `b`, which
accepts a reposition to any sample offset from 0 to its length: the function
`seek_to` with the answer of `b`, and the backend after the call. -/
def seekOn (obj : ysox_t) (b : Backend) (target : Int) : Outcome × Backend :=
  match (seek_to obj target true).calls with
  | [.seek offset] =>
    if 0 ≤ offset ∧ offset ≤ b.samples.length then
      (seek_to obj target true, { b with pos := offset.toNat })
    else (seek_to obj target false, b)
  | _ => (seek_to obj target true, b)

/-! ## Opening a stream for writing -/

/-- Modelled from the spec: the macro `SOX_DEFAULT_RATE` of `sox.h`. -/
def SOX_DEFAULT_RATE : Double := .finite 48000

/-- Modelled from the spec: the macro `SOX_DEFAULT_PRECISION` of `sox.h`. -/
def SOX_DEFAULT_PRECISION : Int := 16

/-- Modelled from the spec: the macro `SOX_DEFAULT_CHANNELS` of `sox.h`. -/
def SOX_DEFAULT_CHANNELS : Int := 2

/-- Modelled from the spec: the macro `SOX_DEFAULT_ENCODING` of `sox.h`, the
value of `SOX_ENCODING_SIGN2`. -/
def SOX_DEFAULT_ENCODING : Int := 1

/-- Modelled from the spec: the macro `SOX_UNSPEC` of `sox.h`. -/
def SOX_UNSPEC : Int := 0

/-- Modelled from the spec: the macro `SOX_UNKNOWN_LEN` of `sox.h`, the value
`(sox_uint64_t)(-1)`. -/
def SOX_UNKNOWN_LEN : Int := 2 ^ 64 - 1

/-- Comparison `a <= b`; false when either operand is a NaN. -/
def Double.le : Double → Double → Bool
  | .finite a, .finite b => decide (a ≤ b)
  | .finite _, .posInf => true
  | .negInf, .finite _ => true
  | .negInf, .negInf => true
  | .negInf, .posInf => true
  | .posInf, .posInf => true
  | _, _ => false

/-- The structure `sox_signalinfo_t` of libSoX: the rate, the number of
channels and the precision (both `unsigned`), the length (a `sox_uint64_t`)
and the pointer `mult`, `none` for `NULL`. -/
structure sox_signalinfo_t where
  rate : Double
  channels : Int
  precision : Int
  length : Int
  mult : Option Double
  deriving DecidableEq

/-- The fields of the structure `sox_encodinginfo_t` of libSoX that
`Y_sox_open_write` sets by name; the others are left as
`sox_init_encodinginfo` sets them, or are those of the template. -/
structure sox_encodinginfo_t where
  encoding : Int
  bits_per_sample : Int
  compression : Double
  deriving DecidableEq

/-- The fields of the `sox_format_t` of a template stream that
`Y_sox_open_write` copies. -/
structure TemplateFormat where
  signal : sox_signalinfo_t
  encoding : sox_encodinginfo_t
  filetype : Option String
  deriving DecidableEq

/-- The value of an argument of a built-in function, as far as the fetching
functions of the interpreter tell values apart: a scalar of integer type, a
real scalar, a scalar string (`none` for the null string), a stream object
with its handle (`none` once closed), or anything else. -/
inductive YVal where
  | long (v : Int)
  | double (v : Double)
  | string (s : Option String)
  | stream (format : Option TemplateFormat)
  | other
  deriving DecidableEq

/-- An argument of a call: positional, or a keyword given by the index of its
name in the table of global symbols, which is what `yarg_key` returns for it;
the indexes of that table are nonnegative, and `yarg_key` returns -1 for a
positional argument. -/
inductive OpenArg where
  | positional (value : YVal)
  | keyword (index : Int) (value : YVal)
  deriving DecidableEq

/-- The nine `static long ..._index` variables of `Y_sox_open_write`. -/
structure KeywordIndexes where
  bits_per_sample : Int
  channels : Int
  compression : Int
  encoding : Int
  filetype : Int
  overwrite : Int
  precision : Int
  rate : Int
  template : Int
  deriving DecidableEq

/-- The errors raised by `Y_sox_open_write`, one per message. -/
inductive OpenError where
  /-- Message "input/output of template stream has been closed". -/
  | templateClosed
  /-- Message "too many arguments". -/
  | tooManyArguments
  /-- Message "illegal bits per sample". -/
  | illegalBitsPerSample
  /-- Message "illegal number of channels". -/
  | illegalChannels
  /-- Message "illegal compression". -/
  | illegalCompression
  /-- Message "illegal encoding". -/
  | illegalEncoding
  /-- Message "illegal precision". -/
  | illegalPrecision
  /-- Message "illegal rate". -/
  | illegalRate
  /-- Message "unsupported keyword". -/
  | unsupportedKeyword
  /-- Message "path argument is missing". -/
  | pathMissing
  /-- Message "failed to open audio file". -/
  | failedToOpen
  /-- An error of the interpreter itself: an argument that is not of the type
  a `yget...` function fetches. -/
  | hostTypeError
  deriving DecidableEq

/-- The local and static variables of `Y_sox_open_write`. -/
structure OpenLocals where
  signal : sox_signalinfo_t
  encodinginfo : sox_encodinginfo_t
  rate : Double
  compression : Double
  path : Option String
  filetype : Option String
  bits_per_sample : Int
  precision : Int
  channels : Int
  encoding : Int
  overwrite : Bool
  statics : KeywordIndexes
  deriving DecidableEq

/-- The macro `INIT` applied to the nine static indexes: an index that is
still -1 is looked up in the table of global symbols, whose answers are
`globals`. -/
def initIndexes (statics globals : KeywordIndexes) : KeywordIndexes :=
  ⟨if statics.bits_per_sample = -1 then globals.bits_per_sample else statics.bits_per_sample,
   if statics.channels = -1 then globals.channels else statics.channels,
   if statics.compression = -1 then globals.compression else statics.compression,
   if statics.encoding = -1 then globals.encoding else statics.encoding,
   if statics.filetype = -1 then globals.filetype else statics.filetype,
   if statics.overwrite = -1 then globals.overwrite else statics.overwrite,
   if statics.precision = -1 then globals.precision else statics.precision,
   if statics.rate = -1 then globals.rate else statics.rate,
   if statics.template = -1 then globals.template else statics.template⟩

/-- The function `ygets_d` of the interpreter: a scalar of integer or real
type as a `double`. -/
def ygets_d : YVal → Option Double
  | .long v => some (Double.ofInt v)
  | .double v => some v
  | _ => none

/-- The function `yarg_true` of the interpreter: whether a scalar number is
nonzero, or a scalar string is not the null string. -/
def yarg_true : YVal → Bool
  | .long v => decide (v ≠ 0)
  | .double v => decide (v ≠ .finite 0)
  | .string s => s.isSome
  | _ => false

/-- The body of the first loop of `Y_sox_open_write`, for one argument: a
`template` keyword copies the signal, without its length, the encoding and
the file type of the template stream. -/
def templateStep (s : OpenLocals) : OpenArg → OpenLocals × Option OpenError
  | .positional _ => (s, none)
  | .keyword index value =>
    if index = s.statics.template then
      match value with
      | .stream (some ft) =>
        ({ s with signal := { ft.signal with length := SOX_UNKNOWN_LEN },
                  encodinginfo := ft.encoding,
                  filetype := ft.filetype }, none)
      | .stream none => (s, some .templateClosed)
      | _ => (s, some .hostTypeError)
    else (s, none)

/-- The body of the second loop of `Y_sox_open_write`, for one argument. The
fields `signal` and `encodinginfo` are not assigned; the value of the keyword
`bits_per_sample` is assigned to the static index of that keyword. -/
def argStep (s : OpenLocals) : OpenArg → OpenLocals × Option OpenError
  | .positional value =>
    match s.path with
    | none =>
      match value with
      | .string p => ({ s with path := p }, none)
      | _ => (s, some .hostTypeError)
    | some _ => (s, some .tooManyArguments)
  | .keyword index value =>
    if index = s.statics.bits_per_sample then
      match value with
      | .long v =>
        if v ≤ 0 ∨ v % 2 ^ 32 ≠ v then
          ({ s with statics := { s.statics with bits_per_sample := v % 2 ^ 32 } },
            some .illegalBitsPerSample)
        else ({ s with statics := { s.statics with bits_per_sample := v % 2 ^ 32 } }, none)
      | _ => (s, some .hostTypeError)
    else if index = s.statics.channels then
      match value with
      | .long v =>
        if v ≤ 0 ∨ v % 2 ^ 32 ≠ v then
          ({ s with channels := v % 2 ^ 32 }, some .illegalChannels)
        else ({ s with channels := v % 2 ^ 32 }, none)
      | _ => (s, some .hostTypeError)
    else if index = s.statics.compression then
      match ygets_d value with
      | some d =>
        if Double.le d (.finite 0) then ({ s with compression := d }, some .illegalCompression)
        else ({ s with compression := d }, none)
      | none => (s, some .hostTypeError)
    else if index = s.statics.encoding then
      match value with
      | .long v =>
        if v ≤ 0 ∨ wrapSigned 32 v ≠ v then
          ({ s with encoding := wrapSigned 32 v }, some .illegalEncoding)
        else ({ s with encoding := wrapSigned 32 v }, none)
      | _ => (s, some .hostTypeError)
    else if index = s.statics.filetype then
      match value with
      | .string t => ({ s with filetype := t }, none)
      | _ => (s, some .hostTypeError)
    else if index = s.statics.overwrite then
      ({ s with overwrite := yarg_true value }, none)
    else if index = s.statics.precision then
      match value with
      | .long v =>
        if v ≤ 0 ∨ v % 2 ^ 32 ≠ v then
          ({ s with precision := v % 2 ^ 32 }, some .illegalPrecision)
        else ({ s with precision := v % 2 ^ 32 }, none)
      | _ => (s, some .hostTypeError)
    else if index = s.statics.rate then
      match ygets_d value with
      | some d =>
        if Double.le d (.finite 0) then ({ s with rate := d }, some .illegalRate)
        else ({ s with rate := d }, none)
      | none => (s, some .hostTypeError)
    else if index ≠ s.statics.template then (s, some .unsupportedKeyword)
    else (s, none)

/-- A loop over the arguments, first to last, that stops at the first error. -/
def runArgs (step : OpenLocals → OpenArg → OpenLocals × Option OpenError) :
    OpenLocals → List OpenArg → OpenLocals × Option OpenError
  | s, [] => (s, none)
  | s, a :: rest =>
    match step s a with
    | (s1, none) => runArgs step s1 rest
    | (s1, some e) => (s1, some e)

/-- The arguments of the call `sox_open_write(path, &signal, &encodinginfo,
filetype, NULL, overwrite ? overwrite_permitted : overwrite_forbidden)`. -/
structure OpenWriteCall where
  path : String
  signal : sox_signalinfo_t
  encoding : sox_encodinginfo_t
  filetype : Option String
  overwrite : Bool
  deriving DecidableEq

/-- What `Y_sox_open_write` leaves behind: the static indexes, the call made
to the backend, if any, the session it returns, and the error raised, if
any. -/
structure OpenOutcome where
  statics : KeywordIndexes
  call : Option OpenWriteCall
  obj : Option ysox_t
  error : Option OpenError
  deriving DecidableEq

/-- The values of the local variables of `Y_sox_open_write` before its first
loop: the defaults, and the two structures filled from them. -/
def openDefaults (statics : KeywordIndexes) : OpenLocals :=
  { signal := ⟨SOX_DEFAULT_RATE, SOX_DEFAULT_CHANNELS, SOX_DEFAULT_PRECISION,
      SOX_UNKNOWN_LEN, none⟩,
    encodinginfo := ⟨SOX_DEFAULT_ENCODING, SOX_UNSPEC, .finite 1⟩,
    rate := SOX_DEFAULT_RATE,
    compression := .posInf,
    path := none,
    filetype := none,
    bits_per_sample := SOX_UNSPEC,
    precision := SOX_DEFAULT_PRECISION,
    channels := SOX_DEFAULT_CHANNELS,
    encoding := SOX_DEFAULT_ENCODING,
    overwrite := false,
    statics := statics }

/-- The function `Y_sox_open_write`, called with the arguments `args`, first
to last. `statics` holds the static indexes at the call (-1 before the first
call), `globals` the indexes of the nine keyword names in the table of global
symbols, and `opened` is the answer of the backend to `sox_open_write`, if
the call is made: the handle, or `none` for `NULL`. The path is handed over
as given, its expansion by `p_native` is not modelled. -/
def Y_sox_open_write (statics globals : KeywordIndexes) (args : List OpenArg)
    (opened : Option sox_format_t) : OpenOutcome :=
  match runArgs templateStep (openDefaults (initIndexes statics globals)) args with
  | (s1, some e) => ⟨s1.statics, none, none, some e⟩
  | (s1, none) =>
    match runArgs argStep s1 args with
    | (s2, some e) => ⟨s2.statics, none, none, some e⟩
    | (s2, none) =>
      match s2.path with
      | none => ⟨s2.statics, none, none, some .pathMissing⟩
      | some path =>
        match opened with
        | none =>
          ⟨s2.statics, some ⟨path, s2.signal, s2.encodinginfo, s2.filetype, s2.overwrite⟩,
            none, some .failedToOpen⟩
        | some ft =>
          ⟨s2.statics, some ⟨path, s2.signal, s2.encodinginfo, s2.filetype, s2.overwrite⟩,
            some ⟨some ft, 0⟩, none⟩

/-- From the specification: a keyword argument in which "a supplied numeric
descriptor is non-positive or does not fit its field": with a keyword other
than `overwrite` and `template`, an integer or a real that is not positive,
or, the keyword being neither `compression` nor `rate`, whose fields are
doubles, an integer of 2^32 or more. `S` holds the indexes of the keywords. -/
def invalidDescriptor (S : KeywordIndexes) : OpenArg → Prop
  | .keyword index (.long v) =>
    index ≠ S.overwrite ∧ index ≠ S.template ∧
      (v ≤ 0 ∨ (2 ^ 32 ≤ v ∧ index ≠ S.compression ∧ index ≠ S.rate))
  | .keyword index (.double d) =>
    index ≠ S.overwrite ∧ index ≠ S.template ∧ Double.le d (.finite 0) = true
  | _ => False

instance (S : KeywordIndexes) (a : OpenArg) : Decidable (invalidDescriptor S a) := by
  unfold invalidDescriptor
  split <;> infer_instance

/-! ## Lemmas on the integer conversions -/

/-- Exclusive or with a bit that is not set adds it. -/
theorem xor_two_pow_of_lt (u k : Nat) (h : u < 2 ^ k) : u ^^^ 2 ^ k = 2 ^ k + u := by
  apply Nat.eq_of_testBit_eq
  intro j
  rw [Nat.testBit_xor]
  rcases Nat.lt_trichotomy j k with hj | hj | hj
  · rw [Nat.testBit_two_pow_add_gt hj, Nat.testBit_two_pow_of_ne (Nat.ne_of_gt hj)]
    simp
  · subst hj
    rw [Nat.testBit_two_pow_add_eq, Nat.testBit_two_pow_self, Nat.testBit_lt_two_pow h]
    rfl
  · have h1 : u < 2 ^ j := lt_trans h (Nat.pow_lt_pow_right (by norm_num) hj)
    have h2 : 2 ^ k + u < 2 ^ j := by
      have : 2 ^ (k + 1) ≤ 2 ^ j := Nat.pow_le_pow_right (by norm_num) hj
      rw [pow_succ] at this
      omega
    rw [Nat.testBit_lt_two_pow h1, Nat.testBit_lt_two_pow h2,
      Nat.testBit_two_pow_of_ne (Nat.ne_of_lt hj)]
    rfl

/-- Flipping the top bit of a `k + 1`-bit pattern adds `2^k` modulo `2^(k+1)`. -/
theorem xor_two_pow (u k : Nat) (h : u < 2 ^ (k + 1)) :
    u ^^^ 2 ^ k = (u + 2 ^ k) % 2 ^ (k + 1) := by
  have hp : 2 ^ (k + 1) = 2 ^ k + 2 ^ k := by rw [pow_succ]; omega
  by_cases hu : u < 2 ^ k
  · rw [xor_two_pow_of_lt u k hu, Nat.mod_eq_of_lt (by omega)]
    omega
  · obtain ⟨v, rfl⟩ : ∃ v, u = 2 ^ k + v := ⟨u - 2 ^ k, by omega⟩
    have hv : v < 2 ^ k := by omega
    rw [← xor_two_pow_of_lt v k hv, Nat.xor_assoc, Nat.xor_self, Nat.xor_zero,
      xor_two_pow_of_lt v k hv]
    have : 2 ^ k + v + 2 ^ k = v + 2 ^ (k + 1) := by omega
    rw [this, Nat.add_mod_right, Nat.mod_eq_of_lt (by omega)]

/-- Exclusive or commutes with taking the low `n` bits. -/
theorem xor_mod_two_pow (a b n : Nat) : (a ^^^ b) % 2 ^ n = (a % 2 ^ n) ^^^ (b % 2 ^ n) := by
  apply Nat.eq_of_testBit_eq
  intro j
  simp only [Nat.testBit_mod_two_pow, Nat.testBit_xor]
  cases decide (j < n) <;> simp

/-- The 8-bit conversion in arithmetic terms. -/
theorem unsigned_to_sample_8 (d : Int) :
    SOX_UNSIGNED_TO_SAMPLE 8 d = wrapSigned 8 (d + 128) * 2 ^ 24 := by
  unfold SOX_UNSIGNED_TO_SAMPLE wrapSigned bitsOf
  have h1 : ∀ P : Nat,
      ((P ^^^ 2 ^ 7) <<< 24) % 2 ^ 32 = ((P % 2 ^ 8 + 2 ^ 7) % 2 ^ 8) * 2 ^ 24 := by
    intro P
    rw [Nat.shiftLeft_eq, show (2:Nat) ^ 32 = 2 ^ 8 * 2 ^ 24 by norm_num, Nat.mul_mod_mul_right,
      xor_mod_two_pow, Nat.mod_eq_of_lt (show 2 ^ 7 < 2 ^ 8 by norm_num),
      xor_two_pow _ 7 (Nat.mod_lt _ (by norm_num))]
  generalize hP : (d % 2 ^ 32).toNat = P
  have hPd : (P : Int) = d % 2 ^ 32 := by
    rw [← hP]; exact Int.toNat_of_nonneg (Int.emod_nonneg _ (by norm_num))
  have h2 := h1 P
  generalize hN : ((P ^^^ 2 ^ (8 - 1)) <<< (32 - 8)) = N at h2 ⊢
  norm_num at h2 hPd ⊢
  omega

/-- The 16-bit conversion in arithmetic terms. -/
theorem unsigned_to_sample_16 (d : Int) :
    SOX_UNSIGNED_TO_SAMPLE 16 d = wrapSigned 16 (d + 32768) * 2 ^ 16 := by
  unfold SOX_UNSIGNED_TO_SAMPLE wrapSigned bitsOf
  have h1 : ∀ P : Nat,
      ((P ^^^ 2 ^ 15) <<< 16) % 2 ^ 32 = ((P % 2 ^ 16 + 2 ^ 15) % 2 ^ 16) * 2 ^ 16 := by
    intro P
    rw [Nat.shiftLeft_eq, show (2:Nat) ^ 32 = 2 ^ 16 * 2 ^ 16 by norm_num, Nat.mul_mod_mul_right,
      xor_mod_two_pow, Nat.mod_eq_of_lt (show 2 ^ 15 < 2 ^ 16 by norm_num),
      xor_two_pow _ 15 (Nat.mod_lt _ (by norm_num))]
  generalize hP : (d % 2 ^ 32).toNat = P
  have hPd : (P : Int) = d % 2 ^ 32 := by
    rw [← hP]; exact Int.toNat_of_nonneg (Int.emod_nonneg _ (by norm_num))
  have h2 := h1 P
  generalize hN : ((P ^^^ 2 ^ (16 - 1)) <<< (32 - 16)) = N at h2 ⊢
  norm_num at h2 hPd ⊢
  omega

/-- The 8-bit loop body on a byte. -/
theorem encode8_eq (x : Int) (h0 : 0 ≤ x) (h1 : x < 2 ^ 8) : encode8 x = (x - 128) * 2 ^ 24 := by
  unfold encode8 readUInt8
  rw [unsigned_to_sample_8]
  unfold wrapSigned
  norm_num at h1 ⊢
  split_ifs <;> omega

/-- The 16-bit loop body on an `int16_t` value. -/
theorem encode16_eq (x : Int) (h0 : -2 ^ 15 ≤ x) (h1 : x < 2 ^ 15) :
    encode16 x = (if x < 0 then x + 32768 else x - 32768) * 2 ^ 16 := by
  unfold encode16 readInt16
  rw [unsigned_to_sample_16]
  unfold wrapSigned
  norm_num at h0 h1 ⊢
  split_ifs <;> omega

/-- The 64-bit loop body on an `int64_t` value. -/
theorem encode64_eq (x : Int) (h0 : -2 ^ 63 ≤ x) (h1 : x < 2 ^ 63) :
    encode64 x = x / 2 ^ 32 := by
  unfold encode64 readInt64
  rw [Int.shiftRight_eq_div_pow]
  unfold wrapSigned
  norm_num at h0 h1 ⊢
  split_ifs <;> omega
/-- The inverse conversion to 8 bits in arithmetic terms. -/
theorem decodeUnsigned_8 (s : Int) :
    (decodeUnsigned 8 s : Int) = ((s + 2 ^ 31) % 2 ^ 32) / 2 ^ 24 := by
  unfold decodeUnsigned bitsOf
  generalize hP : (s % 2 ^ 32).toNat = P
  have hPd : (P : Int) = s % 2 ^ 32 := by
    rw [← hP]; exact Int.toNat_of_nonneg (Int.emod_nonneg _ (by norm_num))
  have hlt : P < 2 ^ (31 + 1) := by
    have := Int.emod_lt_of_pos s (show (0:Int) < 2 ^ 32 by norm_num)
    norm_num at this hPd ⊢
    omega
  rw [xor_two_pow P 31 hlt, Nat.shiftRight_eq_div_pow]
  norm_num at hPd ⊢
  omega

/-- The inverse conversion to 16 bits in arithmetic terms. -/
theorem decodeUnsigned_16 (s : Int) :
    (decodeUnsigned 16 s : Int) = ((s + 2 ^ 31) % 2 ^ 32) / 2 ^ 16 := by
  unfold decodeUnsigned bitsOf
  generalize hP : (s % 2 ^ 32).toNat = P
  have hPd : (P : Int) = s % 2 ^ 32 := by
    rw [← hP]; exact Int.toNat_of_nonneg (Int.emod_nonneg _ (by norm_num))
  have hlt : P < 2 ^ (31 + 1) := by
    have := Int.emod_lt_of_pos s (show (0:Int) < 2 ^ 32 by norm_num)
    norm_num at this hPd ⊢
    omega
  rw [xor_two_pow P 31 hlt, Nat.shiftRight_eq_div_pow]
  norm_num at hPd ⊢
  omega

/-- The bit pattern of `x` as an integer. -/
theorem bitsOf_cast (w : Nat) (x : Int) : ((bitsOf w x : Nat) : Int) = x % 2 ^ w := by
  unfold bitsOf
  exact Int.toNat_of_nonneg (Int.emod_nonneg _ (by positivity))

/-- A write whose conversion block counts no clip leaves the clip count of the
session as it was, whatever the session, the shape of the array and the answer
of the backend. -/
theorem clipCount_write_of_no_clip (obj : ysox_t) (arr : YArray) (n : Int) (tmp : List Int)
    (h : convertSamples arr.data = some (tmp, 0)) :
    clipCount (write_samples obj arr n).obj = clipCount obj := by
  unfold write_samples
  cases hf : obj.format with
  | none => simp [clipCount, hf]
  | some ft =>
    simp only [h]
    split_ifs <;> simp [clipCount, hf, finishWrite]

/-! ## Integer encoding: round trip, order, high word -/

/-- C3: the 8- and 16-bit integer conversions are lossless. For every byte `x`
the inverse conversion to 8 bits applied to the sample of `x` gives `x` back;
for every `int16_t` value `x` the inverse conversion to 16 bits applied to the
sample of `x` gives the 16-bit pattern of `x`, which read as `int16_t` is `x`;
and a write of `char` or `short` data leaves the clip count of the session
unchanged, whatever the session, the shape and the backend's answer. -/
theorem int8_int16_round_trip :
    (∀ x : Int, 0 ≤ x → x < 2 ^ 8 → (decodeUnsigned 8 (encode8 x) : Int) = x) ∧
    (∀ x : Int, -2 ^ 15 ≤ x → x < 2 ^ 15 →
      decodeUnsigned 16 (encode16 x) = bitsOf 16 x ∧
      readInt16 (decodeUnsigned 16 (encode16 x)) = x) ∧
    (∀ (obj : ysox_t) (rank dim1 : Int) (inp : List Int) (n : Int),
      clipCount (write_samples obj ⟨rank, dim1, .chars inp⟩ n).obj = clipCount obj) ∧
    (∀ (obj : ysox_t) (rank dim1 : Int) (inp : List Int) (n : Int),
      clipCount (write_samples obj ⟨rank, dim1, .shorts inp⟩ n).obj = clipCount obj) := by
  refine ⟨?_, ?_, ?_, ?_⟩
  · intro x h0 h1
    rw [decodeUnsigned_8, encode8_eq x h0 h1]
    norm_num at h1 ⊢
    omega
  · intro x h0 h1
    have h : (decodeUnsigned 16 (encode16 x) : Int) = x % 2 ^ 16 := by
      rw [decodeUnsigned_16, encode16_eq x h0 h1]
      norm_num at h0 h1 ⊢
      split_ifs <;> omega
    constructor
    · have := bitsOf_cast 16 x
      omega
    · rw [h]
      unfold readInt16 wrapSigned
      norm_num at h0 h1 ⊢
      split_ifs <;> omega
  · intro obj rank dim1 inp n
    exact clipCount_write_of_no_clip obj _ n (inp.map encode8) rfl
  · intro obj rank dim1 inp n
    exact clipCount_write_of_no_clip obj _ n (inp.map encode16) rfl

/-- C3, at the byte 200 and at the short -1. -/
theorem int8_int16_round_trip_witness :
    (decodeUnsigned 8 (encode8 200) : Int) = 200 ∧
    (decodeUnsigned 16 (encode16 (-1)) = bitsOf 16 (-1) ∧
      readInt16 (decodeUnsigned 16 (encode16 (-1))) = -1) :=
  ⟨int8_int16_round_trip.1 200 (by decide) (by decide),
   int8_int16_round_trip.2.1 (-1) (by decide) (by decide)⟩

/-- C4 as stated fails for shorts: as `int16_t` values `-1 < 0`, but the sample
of `-1` is `0x7fff0000` and the sample of `0` is `-2^31`. -/
theorem int16_order_counterexample :
    -2 ^ 15 ≤ (-1 : Int) ∧ (-1 : Int) < 0 ∧ (0 : Int) < 2 ^ 15 ∧
    encode16 (-1) = 2147418112 ∧ encode16 0 = -2147483648 ∧
    ¬ (encode16 (-1) < encode16 0) := by
  decide

/-- C4, amended: the conversion of bytes preserves their order, and the
conversion of shorts preserves the order of their 16-bit patterns, that is of
the elements taken as unsigned 16-bit values: for `int16_t` values `a`, `b`,
the sample of `a` is below the sample of `b` exactly when the pattern of `a`
is below the pattern of `b`. -/
theorem int_encode_order :
    (∀ a b : Int, 0 ≤ a → a < b → b < 2 ^ 8 → encode8 a < encode8 b) ∧
    (∀ a b : Int, -2 ^ 15 ≤ a → a < 2 ^ 15 → -2 ^ 15 ≤ b → b < 2 ^ 15 →
      (encode16 a < encode16 b ↔ bitsOf 16 a < bitsOf 16 b)) := by
  constructor
  · intro a b h0 h1 h2
    rw [encode8_eq a h0 (by omega), encode8_eq b (by omega) h2]
    omega
  · intro a b h0 h1 h2 h3
    rw [encode16_eq a h0 h1, encode16_eq b h2 h3]
    have ha := bitsOf_cast 16 a
    have hb := bitsOf_cast 16 b
    norm_num at h0 h1 h2 h3 ha hb ⊢
    split_ifs <;> omega

/-- C4 amended, at the bytes 3 < 200 and at the shorts 7 and -1, whose
patterns are 7 < 65535. -/
theorem int_encode_order_witness :
    encode8 3 < encode8 200 ∧ (encode16 7 < encode16 (-1) ↔ bitsOf 16 7 < bitsOf 16 (-1)) :=
  ⟨int_encode_order.1 3 200 (by decide) (by decide) (by decide),
   int_encode_order.2 7 (-1) (by decide) (by decide) (by decide) (by decide)⟩

/-- C5: for every `int64_t` value `x` the sample is the arithmetic right shift
of `x` by 32, that is `floor(x / 2^32)`; it lies between `SOX_SAMPLE_MIN` and
`SOX_SAMPLE_MAX`, so the narrowing to 32 bits changes nothing; and a write of
`long` data leaves the clip count of the session unchanged. -/
theorem int64_high_word :
    (∀ x : Int, -2 ^ 63 ≤ x → x < 2 ^ 63 →
      encode64 x = x >>> (32 : Nat) ∧ encode64 x = ⌊(x : ℚ) / 2 ^ 32⌋ ∧
      SOX_SAMPLE_MIN ≤ encode64 x ∧ encode64 x ≤ SOX_SAMPLE_MAX) ∧
    (∀ (obj : ysox_t) (rank dim1 : Int) (inp : List Int) (n : Int),
      clipCount (write_samples obj ⟨rank, dim1, .longs inp⟩ n).obj = clipCount obj) := by
  constructor
  · intro x h0 h1
    have h := encode64_eq x h0 h1
    refine ⟨?_, ?_, ?_, ?_⟩
    · rw [h, Int.shiftRight_eq_div_pow]; norm_num
    · rw [h]
      have := Rat.floor_intCast_div_natCast x (2 ^ 32)
      norm_num at this
      exact this.symm
    · rw [h]; unfold SOX_SAMPLE_MIN; norm_num at h0 h1 ⊢; omega
    · rw [h]; unfold SOX_SAMPLE_MAX; norm_num at h0 h1 ⊢; omega
  · intro obj rank dim1 inp n
    exact clipCount_write_of_no_clip obj _ n (inp.map encode64) rfl

/-- C5, at `x = -1`, whose high word is `-1`. -/
theorem int64_high_word_witness :
    encode64 (-1) = (-1 : Int) >>> (32 : Nat) ∧ encode64 (-1) = ⌊((-1 : Int) : ℚ) / 2 ^ 32⌋ ∧
    SOX_SAMPLE_MIN ≤ encode64 (-1) ∧ encode64 (-1) ≤ SOX_SAMPLE_MAX :=
  int64_high_word.1 (-1) (by decide) (by decide)

/-! ## Lemmas on `seek_to` -/

/-- A value already in the range of a `long` is its own 64-bit wrap. -/
theorem wrapSigned_64_of_range (x : Int) (h0 : 0 ≤ x) (h1 : x < 2 ^ 63) :
    wrapSigned 64 x = x := by
  unfold wrapSigned
  norm_num at h1 ⊢
  split_ifs <;> omega

/-- The body of `seek_to` on a session open for reading. -/
theorem seek_to_open_read (ft : sox_format_t) (offset0 target : Int) (seekOk : Bool)
    (hmode : ft.mode = 'r') :
    seek_to ⟨some ft, offset0⟩ target seekOk =
      if target < 0 then ⟨⟨some ft, offset0⟩, [], some .offsetNegative⟩
      else if mulLong target (wrapSigned 64 ft.channels) < 0 then
        ⟨⟨some ft, offset0⟩, [], some .integerOverflow⟩
      else if offset0 ≠ (if mulLong target (wrapSigned 64 ft.channels) > wrapSigned 64 ft.length
          then divLong (wrapSigned 64 ft.length) (wrapSigned 64 ft.channels) else target) then
        if seekOk then
          ⟨⟨some ft, if mulLong target (wrapSigned 64 ft.channels) > wrapSigned 64 ft.length
              then divLong (wrapSigned 64 ft.length) (wrapSigned 64 ft.channels) else target⟩,
            [.seek (mulLong (if mulLong target (wrapSigned 64 ft.channels) > wrapSigned 64 ft.length
              then divLong (wrapSigned 64 ft.length) (wrapSigned 64 ft.channels) else target)
              (wrapSigned 64 ft.channels))], none⟩
        else ⟨⟨some ft, offset0⟩,
            [.seek (mulLong (if mulLong target (wrapSigned 64 ft.channels) > wrapSigned 64 ft.length
              then divLong (wrapSigned 64 ft.length) (wrapSigned 64 ft.channels) else target)
              (wrapSigned 64 ft.channels))], some .seekFailed⟩
      else ⟨⟨some ft, offset0⟩, [], none⟩ := by
  simp [seek_to, hmode]

/-- On a session that is not open for reading `seek_to` raises "sound stream
not open for reading" and does nothing else. -/
theorem seek_to_not_open (obj : ysox_t) (target : Int) (seekOk : Bool)
    (h : ∀ ft, obj.format = some ft → ft.mode ≠ 'r') :
    seek_to obj target seekOk = ⟨obj, [], some .notOpenForReading⟩ := by
  unfold seek_to
  cases hf : obj.format with
  | none => rfl
  | some ft => simp [h ft hf]

/-- A seek whose product with the number of channels does not overflow keeps
the offset within `[0, L div channels]`, whether it succeeds, is refused by
the backend or is rejected. -/
theorem seek_to_keeps_offset_in_range (ft : sox_format_t) (offset0 target : Int) (seekOk : Bool)
    (hmode : ft.mode = 'r') (hc : 1 ≤ ft.channels) (hcu : ft.channels < 2 ^ 32)
    (hL : ft.length < 2 ^ 63) (hprod : target * ft.channels < 2 ^ 63)
    (hinv : offsetInRange ft offset0) :
    offsetInRange ft (seek_to ⟨some ft, offset0⟩ target seekOk).obj.offset := by
  by_cases hneg : target < 0
  · rw [seek_to_open_read ft offset0 target seekOk hmode, if_pos hneg]
    exact hinv
  · have ht : 0 ≤ target := not_lt.mp hneg
    have hc0 : (0:Int) < ft.channels := by exact_mod_cast hc
    have hL0 : (0:Int) ≤ ft.length := Int.natCast_nonneg _
    have hcw : wrapSigned 64 ft.channels = ft.channels :=
      wrapSigned_64_of_range _ (le_of_lt hc0) (by norm_num; omega)
    have hLw : wrapSigned 64 ft.length = ft.length :=
      wrapSigned_64_of_range _ hL0 (by exact_mod_cast hL)
    have hP0 : 0 ≤ target * ft.channels := mul_nonneg ht (le_of_lt hc0)
    have hPw : mulLong target ft.channels = target * ft.channels := by
      unfold mulLong; exact wrapSigned_64_of_range _ hP0 hprod
    have hdiv : divLong (ft.length : Int) ft.channels = (ft.length : Int) / ft.channels := by
      unfold divLong; exact Int.tdiv_eq_ediv hL0 (le_of_lt hc0)
    have hq0 : 0 ≤ (ft.length : Int) / ft.channels := Int.ediv_nonneg hL0 (le_of_lt hc0)
    have hcmp : (target * ft.channels > (ft.length : Int)) ↔
        (ft.length : Int) / ft.channels < target :=
      (Int.ediv_lt_iff_lt_mul hc0).symm
    rw [seek_to_open_read ft offset0 target seekOk hmode, hcw, hLw, hPw, hdiv]
    have hneg2 : ¬ target * (ft.channels : Int) < 0 := not_lt.mpr hP0
    simp only [hneg, hneg2, if_false]
    unfold offsetInRange at hinv ⊢
    by_cases hgt : target * ft.channels > (ft.length : Int)
    · simp only [hgt, if_true]
      split_ifs <;> simp_all
    · have h1 : ¬ (ft.length : Int) / ft.channels < target := fun h => hgt (hcmp.mpr h)
      simp only [hgt, if_false]
      split_ifs <;> simp_all

/-! ## Seek -/

/-- C6: on a session open for reading with at least one channel and a length
`L` that fits a `long`, a seek to a target `>= 0` whose product with the
number of channels does not overflow raises neither "offset must be
nonnegative" nor "integer overflow"; it fails only if the backend refuses the
reposition, with "sox_seek failed"; and whenever it does not fail the offset
is `min(target, L div channels)`. -/
theorem seek_clamps (ft : sox_format_t) (offset0 target : Int) (seekOk : Bool)
    (hmode : ft.mode = 'r') (hc : 1 ≤ ft.channels) (hcu : ft.channels < 2 ^ 32)
    (hL : ft.length < 2 ^ 63) (ht : 0 ≤ target) (hprod : target * ft.channels < 2 ^ 63) :
    (seek_to ⟨some ft, offset0⟩ target seekOk).error ≠ some .offsetNegative ∧
    (seek_to ⟨some ft, offset0⟩ target seekOk).error ≠ some .integerOverflow ∧
    ((seek_to ⟨some ft, offset0⟩ target seekOk).error = none ∨
      (seekOk = false ∧ (seek_to ⟨some ft, offset0⟩ target seekOk).error = some .seekFailed)) ∧
    ((seek_to ⟨some ft, offset0⟩ target seekOk).error = none →
      (seek_to ⟨some ft, offset0⟩ target seekOk).obj.offset
        = min target ((ft.length : Int) / ft.channels)) := by
  have hc0 : (0:Int) < ft.channels := by exact_mod_cast hc
  have hL0 : (0:Int) ≤ ft.length := Int.natCast_nonneg _
  have hcw : wrapSigned 64 ft.channels = ft.channels :=
    wrapSigned_64_of_range _ (le_of_lt hc0) (by norm_num; omega)
  have hLw : wrapSigned 64 ft.length = ft.length :=
    wrapSigned_64_of_range _ hL0 (by exact_mod_cast hL)
  have hP0 : 0 ≤ target * ft.channels := mul_nonneg ht (le_of_lt hc0)
  have hPw : mulLong target ft.channels = target * ft.channels := by
    unfold mulLong; exact wrapSigned_64_of_range _ hP0 hprod
  have hdiv : divLong (ft.length : Int) ft.channels = (ft.length : Int) / ft.channels := by
    unfold divLong; exact Int.tdiv_eq_ediv hL0 (le_of_lt hc0)
  have hcmp : (target * ft.channels > (ft.length : Int)) ↔
      (ft.length : Int) / ft.channels < target :=
    (Int.ediv_lt_iff_lt_mul hc0).symm
  rw [seek_to_open_read ft offset0 target seekOk hmode, hcw, hLw, hPw, hdiv]
  have hneg : ¬ target < 0 := not_lt.mpr ht
  have hneg2 : ¬ target * (ft.channels : Int) < 0 := not_lt.mpr hP0
  simp only [hneg, hneg2, if_false]
  by_cases hgt : target * ft.channels > (ft.length : Int)
  · have h1 : (ft.length : Int) / ft.channels < target := hcmp.mp hgt
    simp only [hgt, if_true]
    split_ifs <;> simp_all <;> omega
  · have h1 : ¬ (ft.length : Int) / ft.channels < target := fun h => hgt (hcmp.mpr h)
    simp only [hgt, if_false]
    split_ifs <;> simp_all

/-- C6, on the mono stream of 10 frames at offset 5: `seek(12)` raises no
argument error and leaves the offset at `min(12, 10) = 10`. -/
theorem seek_clamps_witness :
    (seek_to ⟨some ⟨'r', 1, 10, 0⟩, 5⟩ 12 true).error ≠ some .offsetNegative ∧
    (seek_to ⟨some ⟨'r', 1, 10, 0⟩, 5⟩ 12 true).error ≠ some .integerOverflow ∧
    ((seek_to ⟨some ⟨'r', 1, 10, 0⟩, 5⟩ 12 true).error = none ∨
      (true = false ∧ (seek_to ⟨some ⟨'r', 1, 10, 0⟩, 5⟩ 12 true).error = some .seekFailed)) ∧
    ((seek_to ⟨some ⟨'r', 1, 10, 0⟩, 5⟩ 12 true).error = none →
      (seek_to ⟨some ⟨'r', 1, 10, 0⟩, 5⟩ 12 true).obj.offset = min 12 (((10 : Nat) : Int) / (1 : Nat))) :=
  seek_clamps ⟨'r', 1, 10, 0⟩ 5 12 true rfl (by decide) (by decide) (by decide) (by decide) (by decide)

/-- C7, the code on a stream of unknown length: on a mono stream open for
reading whose length the backend reports as 0, at offset 5, `seek(5)` is not a
no-op. The target is clamped to frame 0 before it is compared with the current
offset, the backend is asked to reposition to sample 0, and the offset becomes
0 when the backend accepts; when the backend refuses, the call fails with the
seek error. -/
theorem seek_current_offset_rewinds :
    seek_to ⟨some ⟨'r', 1, 0, 0⟩, 5⟩ 5 true = ⟨⟨some ⟨'r', 1, 0, 0⟩, 0⟩, [.seek 0], none⟩ ∧
    (seek_to ⟨some ⟨'r', 1, 0, 0⟩, 5⟩ 5 true).calls ≠ [] ∧
    (seek_to ⟨some ⟨'r', 1, 0, 0⟩, 5⟩ 5 true).obj.offset ≠ 5 ∧
    seek_to ⟨some ⟨'r', 1, 0, 0⟩, 5⟩ 5 false
      = ⟨⟨some ⟨'r', 1, 0, 0⟩, 5⟩, [.seek 0], some .seekFailed⟩ := by
  decide

/-- Where a seek to the current offset is a no-op: on a session open for
reading whose length fits a `long` and whose current offset, counted in
samples, does not exceed the length the backend reports
(`current_offset * channels <= length`), a seek to the current offset makes no
backend call and leaves the session, its offset included, as it was; it
raises no error when the offset is not negative. -/
theorem seek_current_offset_noop (ft : sox_format_t) (offset0 : Int) (seekOk : Bool)
    (hmode : ft.mode = 'r') (hcu : ft.channels < 2 ^ 32) (hL : ft.length < 2 ^ 63)
    (hle : offset0 * ft.channels ≤ ft.length) :
    (seek_to ⟨some ft, offset0⟩ offset0 seekOk).calls = [] ∧
    (seek_to ⟨some ft, offset0⟩ offset0 seekOk).obj = ⟨some ft, offset0⟩ ∧
    (0 ≤ offset0 → (seek_to ⟨some ft, offset0⟩ offset0 seekOk).error = none) := by
  have hc0 : (0:Int) ≤ ft.channels := Int.natCast_nonneg _
  have hL0 : (0:Int) ≤ ft.length := Int.natCast_nonneg _
  have hcw : wrapSigned 64 ft.channels = ft.channels :=
    wrapSigned_64_of_range _ hc0 (by norm_num; omega)
  have hLw : wrapSigned 64 ft.length = ft.length :=
    wrapSigned_64_of_range _ hL0 (by exact_mod_cast hL)
  rw [seek_to_open_read ft offset0 offset0 seekOk hmode, hcw, hLw]
  by_cases hneg : offset0 < 0
  · simp only [if_pos hneg, true_and]
    intro h0
    omega
  · have hP0 : 0 ≤ offset0 * ft.channels := mul_nonneg (not_lt.mp hneg) hc0
    have hPw : mulLong offset0 ft.channels = offset0 * ft.channels := by
      unfold mulLong
      exact wrapSigned_64_of_range _ hP0 (lt_of_le_of_lt hle (by exact_mod_cast hL))
    rw [hPw]
    have h1 : ¬ offset0 * (ft.channels : Int) < 0 := not_lt.mpr hP0
    have h2 : ¬ offset0 * (ft.channels : Int) > ft.length := not_lt.mpr hle
    simp [hneg, h1, h2]

/-- The no-op on the mono stream of 10 frames at offset 5. -/
theorem seek_current_offset_noop_witness :
    (seek_to ⟨some ⟨'r', 1, 10, 0⟩, 5⟩ 5 true).calls = [] ∧
    (seek_to ⟨some ⟨'r', 1, 10, 0⟩, 5⟩ 5 true).obj = ⟨some ⟨'r', 1, 10, 0⟩, 5⟩ ∧
    ((0 : Int) ≤ 5 → (seek_to ⟨some ⟨'r', 1, 10, 0⟩, 5⟩ 5 true).error = none) :=
  seek_current_offset_noop ⟨'r', 1, 10, 0⟩ 5 true rfl (by decide) (by decide) (by decide)

/-- C8 as stated fails on a session that is not open for reading: on a closed
session, and on a session open for writing, `seek(-1)` raises "sound stream
not open for reading", not "offset must be nonnegative". -/
theorem seek_negative_counterexample :
    (seek_to ⟨none, 0⟩ (-1) true).error = some .notOpenForReading ∧
    (seek_to ⟨none, 0⟩ (-1) true).error ≠ some .offsetNegative ∧
    (seek_to ⟨some ⟨'w', 2, 0, 0⟩, 3⟩ (-1) true).error = some .notOpenForReading ∧
    (seek_to ⟨some ⟨'w', 2, 0, 0⟩, 3⟩ (-1) true).error ≠ some .offsetNegative := by
  decide

/-- C8, amended: a seek to a negative target always fails, makes no backend
call and leaves the session, its offset included, as it was; the error is
"offset must be nonnegative" on a session open for reading and "sound stream
not open for reading" on a closed session and on a session open for writing,
where the state of the stream is tested first. -/
theorem seek_negative_fails (obj : ysox_t) (target : Int) (seekOk : Bool) (hneg : target < 0) :
    (seek_to obj target seekOk).calls = [] ∧
    (seek_to obj target seekOk).obj = obj ∧
    (seek_to obj target seekOk).error ≠ none ∧
    (∀ ft, obj.format = some ft → ft.mode = 'r' →
      (seek_to obj target seekOk).error = some .offsetNegative) ∧
    ((∀ ft, obj.format = some ft → ft.mode ≠ 'r') →
      (seek_to obj target seekOk).error = some .notOpenForReading) := by
  by_cases h : ∃ ft, obj.format = some ft ∧ ft.mode = 'r'
  · obtain ⟨ft, hf, hmode⟩ := h
    have hobj : obj = ⟨some ft, obj.offset⟩ := by rw [← hf]
    have hval : seek_to obj target seekOk = ⟨obj, [], some .offsetNegative⟩ := by
      rw [hobj, seek_to_open_read ft obj.offset target seekOk hmode]
      simp [hneg]
    rw [hval]
    refine ⟨rfl, rfl, by simp, fun _ _ _ => rfl, fun hall => absurd hmode (hall ft hf)⟩
  · have h2 : ∀ ft, obj.format = some ft → ft.mode ≠ 'r' := fun ft hf hm => h ⟨ft, hf, hm⟩
    rw [seek_to_not_open obj target seekOk h2]
    refine ⟨rfl, rfl, by simp, fun ft hf hm => absurd hm (h2 ft hf), fun _ => rfl⟩

/-- C8 amended, on a stereo stream open for reading at offset 3: `seek(-1)`
makes no backend call, leaves the session as it was and raises "offset must be
nonnegative". -/
theorem seek_negative_fails_witness :
    (-1 : Int) < 0 ∧
    (seek_to ⟨some ⟨'r', 2, 20, 0⟩, 3⟩ (-1) true).calls = [] ∧
    (seek_to ⟨some ⟨'r', 2, 20, 0⟩, 3⟩ (-1) true).obj = ⟨some ⟨'r', 2, 20, 0⟩, 3⟩ ∧
    (seek_to ⟨some ⟨'r', 2, 20, 0⟩, 3⟩ (-1) true).error = some .offsetNegative :=
  ⟨by decide,
   (seek_negative_fails ⟨some ⟨'r', 2, 20, 0⟩, 3⟩ (-1) true (by decide)).1,
   (seek_negative_fails ⟨some ⟨'r', 2, 20, 0⟩, 3⟩ (-1) true (by decide)).2.1,
   (seek_negative_fails ⟨some ⟨'r', 2, 20, 0⟩, 3⟩ (-1) true (by decide)).2.2.2.1
     ⟨'r', 2, 20, 0⟩ rfl rfl⟩

/-- C9, the code at the failing input: on a 4-channel stream of 100 samples
open for reading, at offset 0, the target `2^62` has the product
`2^62 * 4 = 2^64`, beyond the largest `long`; modulo `2^64` the product is 0,
the test `offset*channels < 0` does not fire, no error is raised, the backend
is asked to reposition to sample 0 and the offset becomes `2^62`. -/
theorem seek_overflow_undetected :
    (2 ^ 62 : Int) * 4 > 2 ^ 63 - 1 ∧
    mulLong (2 ^ 62) 4 = 0 ∧
    seek_to ⟨some ⟨'r', 4, 100, 0⟩, 0⟩ (2 ^ 62) true
      = ⟨⟨some ⟨'r', 4, 100, 0⟩, 2 ^ 62⟩, [.seek 0], none⟩ := by
  decide

/-- C10, the code at the failing input: on an 8-channel stream of 80 samples
open for reading the offset 0 is in range, and after `seek(2^61)`, whose
product with the number of channels is `2^64` and wraps to 0, the seek has
succeeded and the offset `2^61` is beyond `80 div 8 = 10`. -/
theorem seek_overflow_breaks_offset_range :
    offsetInRange ⟨'r', 8, 80, 0⟩ 0 ∧
    (seek_to ⟨some ⟨'r', 8, 80, 0⟩, 0⟩ (2 ^ 61) true).error = none ∧
    (seek_to ⟨some ⟨'r', 8, 80, 0⟩, 0⟩ (2 ^ 61) true).obj.offset = 2 ^ 61 ∧
    ¬ offsetInRange ⟨'r', 8, 80, 0⟩ (seek_to ⟨some ⟨'r', 8, 80, 0⟩, 0⟩ (2 ^ 61) true).obj.offset := by
  unfold offsetInRange
  decide


/-! ## Lemmas on binary64 rounding -/

/-- The nearest integer of `x` is its floor or the next integer. -/
theorem roundHalfEven_cases (x : ℚ) : roundHalfEven x = ⌊x⌋ ∨
    (roundHalfEven x = ⌊x⌋ + 1 ∧ 1 / 2 ≤ x - ⌊x⌋) := by
  unfold roundHalfEven
  split_ifs with h1 h2 h3
  · left; rfl
  · right; exact ⟨rfl, le_of_lt h2⟩
  · left; rfl
  · right; exact ⟨rfl, not_lt.mp h1⟩

/-- Rounding an integer gives the integer. -/
theorem roundHalfEven_intCast (n : ℤ) : roundHalfEven (n : ℚ) = n := by
  unfold roundHalfEven
  simp

/-- Rounding does not pass an integer above. -/
theorem roundHalfEven_le (x : ℚ) (k : ℤ) (h : x ≤ k) : roundHalfEven x ≤ k := by
  rcases roundHalfEven_cases x with h1 | ⟨h1, h2⟩
  · rw [h1]
    have : (⌊x⌋ : ℚ) ≤ k := le_trans (Int.floor_le x) h
    exact_mod_cast this
  · rw [h1]
    have h3 : (⌊x⌋ : ℚ) < k := by linarith
    have : ⌊x⌋ < k := by exact_mod_cast h3
    omega

/-- Rounding does not pass an integer below. -/
theorem le_roundHalfEven (x : ℚ) (k : ℤ) (h : (k : ℚ) ≤ x) : k ≤ roundHalfEven x := by
  have h0 : k ≤ ⌊x⌋ := Int.le_floor.mpr h
  rcases roundHalfEven_cases x with h1 | ⟨h1, _⟩ <;> rw [h1] <;> omega

/-- The binade of a nonzero rational. -/
theorem log_bounds (x : ℚ) (hx : x ≠ 0) :
    (2 : ℚ) ^ Int.log 2 |x| ≤ |x| ∧ |x| < (2 : ℚ) ^ (Int.log 2 |x| + 1) := by
  have h1 := Int.zpow_log_le_self (b := 2) (r := |x|) (by norm_num) (abs_pos.mpr hx)
  have h2 := Int.lt_zpow_succ_log_self (b := 2) (by norm_num) (|x|)
  exact ⟨by exact_mod_cast h1, by exact_mod_cast h2⟩

/-- Powers of two are positive. -/
theorem two_zpow_pos (e : ℤ) : (0 : ℚ) < 2 ^ e := zpow_pos (by norm_num) e

/-- A power of two with a nonnegative exponent is an integer. -/
theorem two_zpow_eq_cast (e : ℤ) (he : 0 ≤ e) : (2 : ℚ) ^ e = ((2 ^ e.toNat : ℤ) : ℚ) := by
  obtain ⟨n, rfl⟩ := Int.eq_ofNat_of_zero_le he
  simp

/-- The unit in the last place at a representable value divides it. -/
theorem ulpExponent_le (m e : ℤ) (hm : |m| < 2 ^ 53) (he : -1074 ≤ e) (h0 : m ≠ 0) :
    ulpExponent (m * 2 ^ e) ≤ e := by
  unfold ulpExponent
  apply max_le _ he
  have hx : ((m : ℚ) * 2 ^ e) ≠ 0 := mul_ne_zero (by exact_mod_cast h0) (ne_of_gt (two_zpow_pos e))
  have hb := (log_bounds _ hx).1
  have habs : |(m : ℚ) * 2 ^ e| < 2 ^ (53 + e) := by
    rw [abs_mul, abs_of_pos (two_zpow_pos e), zpow_add₀ (by norm_num : (2:ℚ) ≠ 0)]
    apply mul_lt_mul_of_pos_right _ (two_zpow_pos e)
    exact_mod_cast hm
  have hlt : (2 : ℚ) ^ Int.log 2 |(m : ℚ) * 2 ^ e| < 2 ^ (53 + e) := lt_of_le_of_lt hb habs
  have := (zpow_lt_zpow_iff_right₀ (by norm_num : (1 : ℚ) < 2)).mp hlt
  omega

/-- A representable value is a fixed point of the rounding. -/
theorem roundBinary64_of_representable (m e : ℤ) (hm : |m| < 2 ^ 53) (he : -1074 ≤ e) :
    roundBinary64 (m * 2 ^ e) = m * 2 ^ e := by
  by_cases h0 : m = 0
  · subst h0
    unfold roundBinary64
    simp [roundHalfEven]
  · have hp := ulpExponent_le m e hm he h0
    unfold roundBinary64
    generalize ulpExponent (m * 2 ^ e) = p at hp
    have hdiv : (m : ℚ) * 2 ^ e / 2 ^ p = ((m * 2 ^ (e - p).toNat : ℤ) : ℚ) := by
      rw [mul_div_assoc, ← zpow_sub₀ (by norm_num : (2:ℚ) ≠ 0), two_zpow_eq_cast (e - p) (by omega)]
      push_cast
      rfl
    rw [hdiv, roundHalfEven_intCast, ← hdiv]
    field_simp

/-- Zero rounds to zero. -/
theorem roundBinary64_zero : roundBinary64 0 = 0 := by
  unfold roundBinary64
  simp [roundHalfEven]

/-- Magnitude of a representable value. -/
theorem abs_representable_lt (m e : ℤ) (hm : |m| < 2 ^ 53) :
    |(m : ℚ) * 2 ^ e| < 2 ^ (53 + e) := by
  rw [abs_mul, abs_of_pos (two_zpow_pos e), zpow_add₀ (by norm_num : (2:ℚ) ≠ 0)]
  apply mul_lt_mul_of_pos_right _ (two_zpow_pos e)
  exact_mod_cast hm

/-- The quotient of a representable value by a finer unit is an integer. -/
theorem representable_div (m e p : ℤ) (hp : p ≤ e) :
    (m : ℚ) * 2 ^ e / 2 ^ p = ((m * 2 ^ (e - p).toNat : ℤ) : ℚ) := by
  rw [mul_div_assoc, ← zpow_sub₀ (by norm_num : (2:ℚ) ≠ 0), two_zpow_eq_cast (e - p) (by omega)]
  push_cast
  rfl

/-- Rounding does not pass a representable value above. -/
theorem roundBinary64_le (z : ℚ) (m e : ℤ) (hm : |m| < 2 ^ 53) (he : -1074 ≤ e)
    (h : z ≤ m * 2 ^ e) : roundBinary64 z ≤ m * 2 ^ e := by
  by_cases hz : z = 0
  · rw [hz, roundBinary64_zero]; rw [hz] at h; exact h
  have hlog := log_bounds z hz
  unfold roundBinary64
  have hpdef : ulpExponent z = max (Int.log 2 |z| - 52) (-1074) := rfl
  generalize ulpExponent z = p at hpdef
  generalize Int.log 2 |z| = E at hlog hpdef
  have hp2 : (0 : ℚ) < 2 ^ p := two_zpow_pos p
  by_cases hep : p ≤ e
  · have hk := representable_div m e p hep
    have h1 : z / 2 ^ p ≤ ((m * 2 ^ (e - p).toNat : ℤ) : ℚ) := by
      rw [← hk]; exact div_le_div_of_nonneg_right h (le_of_lt hp2)
    have h2 := roundHalfEven_le _ _ h1
    have h3 : ((roundHalfEven (z / 2 ^ p) : ℤ) : ℚ) ≤ ((m * 2 ^ (e - p).toNat : ℤ) : ℚ) := by
      exact_mod_cast h2
    calc (roundHalfEven (z / 2 ^ p) : ℚ) * 2 ^ p
        ≤ ((m * 2 ^ (e - p).toNat : ℤ) : ℚ) * 2 ^ p := mul_le_mul_of_nonneg_right h3 (le_of_lt hp2)
      _ = m * 2 ^ e := by rw [← hk]; field_simp
  · have hpE : p = E - 52 := by
      rcases max_cases (E - 52) (-1074) with ⟨h1, _⟩ | ⟨h1, _⟩ <;> omega
    have hb := abs_representable_lt m e hm
    have hpow : (2 : ℚ) ^ (53 + e) ≤ 2 ^ E :=
      zpow_le_zpow_right₀ (by norm_num) (by omega)
    have hbz : |(m : ℚ) * 2 ^ e| < |z| := lt_of_lt_of_le hb (le_trans hpow hlog.1)
    have hzneg : z < 0 := by
      by_contra hcon
      have h0 : 0 ≤ z := not_lt.mp hcon
      rw [abs_of_nonneg h0, abs_of_nonneg (le_trans h0 h)] at hbz
      linarith
    have hzE : z ≤ -(2 : ℚ) ^ E := by
      have := hlog.1
      rw [abs_of_neg hzneg] at this
      linarith
    have hE : (2 : ℚ) ^ E = 2 ^ (52 : ℤ) * 2 ^ p := by
      rw [← zpow_add₀ (by norm_num : (2:ℚ) ≠ 0)]; congr 1; omega
    have h1 : z / 2 ^ p ≤ ((-(2 ^ 52) : ℤ) : ℚ) := by
      rw [div_le_iff₀ hp2]
      push_cast
      rw [hE] at hzE
      norm_num at hzE ⊢
      linarith
    have h2 := roundHalfEven_le _ _ h1
    have h3 : ((roundHalfEven (z / 2 ^ p) : ℤ) : ℚ) ≤ ((-(2 ^ 52) : ℤ) : ℚ) := by
      exact_mod_cast h2
    have h4 : (roundHalfEven (z / 2 ^ p) : ℚ) * 2 ^ p ≤ -(2 : ℚ) ^ E := by
      have := mul_le_mul_of_nonneg_right h3 (le_of_lt hp2)
      rw [hE]
      push_cast at this
      norm_num at this ⊢
      linarith
    have h5 : -(2 : ℚ) ^ E < m * 2 ^ e := by
      have h6 : |(m : ℚ) * 2 ^ e| < 2 ^ E := lt_of_lt_of_le hb hpow
      have := neg_abs_le ((m : ℚ) * 2 ^ e)
      linarith
    linarith

/-- Rounding does not pass a representable value below. -/
theorem le_roundBinary64 (z : ℚ) (m e : ℤ) (hm : |m| < 2 ^ 53) (he : -1074 ≤ e)
    (h : (m : ℚ) * 2 ^ e ≤ z) : (m : ℚ) * 2 ^ e ≤ roundBinary64 z := by
  by_cases hz : z = 0
  · rw [hz, roundBinary64_zero]; rw [hz] at h; exact h
  have hlog := log_bounds z hz
  unfold roundBinary64
  have hpdef : ulpExponent z = max (Int.log 2 |z| - 52) (-1074) := rfl
  generalize ulpExponent z = p at hpdef
  generalize Int.log 2 |z| = E at hlog hpdef
  have hp2 : (0 : ℚ) < 2 ^ p := two_zpow_pos p
  by_cases hep : p ≤ e
  · have hk := representable_div m e p hep
    have h1 : ((m * 2 ^ (e - p).toNat : ℤ) : ℚ) ≤ z / 2 ^ p := by
      rw [← hk]; exact div_le_div_of_nonneg_right h (le_of_lt hp2)
    have h2 := le_roundHalfEven _ _ h1
    have h3 : ((m * 2 ^ (e - p).toNat : ℤ) : ℚ) ≤ ((roundHalfEven (z / 2 ^ p) : ℤ) : ℚ) := by
      exact_mod_cast h2
    calc (m : ℚ) * 2 ^ e = ((m * 2 ^ (e - p).toNat : ℤ) : ℚ) * 2 ^ p := by rw [← hk]; field_simp
      _ ≤ (roundHalfEven (z / 2 ^ p) : ℚ) * 2 ^ p := mul_le_mul_of_nonneg_right h3 (le_of_lt hp2)
  · have hpE : p = E - 52 := by
      rcases max_cases (E - 52) (-1074) with ⟨h1, _⟩ | ⟨h1, _⟩ <;> omega
    have hb := abs_representable_lt m e hm
    have hpow : (2 : ℚ) ^ (53 + e) ≤ 2 ^ E :=
      zpow_le_zpow_right₀ (by norm_num) (by omega)
    have hbz : |(m : ℚ) * 2 ^ e| < |z| := lt_of_lt_of_le hb (le_trans hpow hlog.1)
    have hzpos : 0 < z := by
      by_contra hcon
      have h0 : z ≤ 0 := not_lt.mp hcon
      rw [abs_of_nonpos h0, abs_of_nonpos (le_trans h h0)] at hbz
      linarith
    have hzE : (2 : ℚ) ^ E ≤ z := by
      have := hlog.1
      rw [abs_of_pos hzpos] at this
      exact this
    have hE : (2 : ℚ) ^ E = 2 ^ (52 : ℤ) * 2 ^ p := by
      rw [← zpow_add₀ (by norm_num : (2:ℚ) ≠ 0)]; congr 1; omega
    have h1 : (((2 ^ 52) : ℤ) : ℚ) ≤ z / 2 ^ p := by
      rw [le_div_iff₀ hp2]
      push_cast
      rw [hE] at hzE
      norm_num at hzE ⊢
      linarith
    have h2 := le_roundHalfEven _ _ h1
    have h3 : (((2 ^ 52) : ℤ) : ℚ) ≤ ((roundHalfEven (z / 2 ^ p) : ℤ) : ℚ) := by
      exact_mod_cast h2
    have h4 : (2 : ℚ) ^ E ≤ (roundHalfEven (z / 2 ^ p) : ℚ) * 2 ^ p := by
      have := mul_le_mul_of_nonneg_right h3 (le_of_lt hp2)
      rw [hE]
      push_cast at this
      norm_num at this ⊢
      linarith
    have h5 : (m : ℚ) * 2 ^ e < (2 : ℚ) ^ E := by
      have h6 : |(m : ℚ) * 2 ^ e| < 2 ^ E := lt_of_lt_of_le hb hpow
      have := le_abs_self ((m : ℚ) * 2 ^ e)
      linarith
    linarith

/-- A representable value within the finite range converts to itself. -/
theorem ofRat_of_representable (x : ℚ) (m e : ℤ) (hm : |m| < 2 ^ 53) (he : -1074 ≤ e)
    (he2 : e ≤ 971) (hx : x = m * 2 ^ e) : Double.ofRat x = Double.finite x := by
  have hr : roundBinary64 x = x := by rw [hx]; exact roundBinary64_of_representable m e hm he
  have hb : |x| < 2 ^ (1024 : ℤ) := by
    rw [hx]
    exact lt_of_lt_of_le (abs_representable_lt m e hm)
      (zpow_le_zpow_right₀ (by norm_num) (by omega))
  have hb' : |x| < 2 ^ 1024 := by
    rwa [show (1024 : ℤ) = ((1024 : ℕ) : ℤ) by rfl, zpow_natCast] at hb
  have h1 := abs_lt.mp hb'
  unfold Double.ofRat
  rw [hr, if_neg (not_le.mpr h1.2), if_neg (not_le.mpr h1.1)]

/-- Addition of finite values rounds the exact sum. -/
theorem add_finite (a b : ℚ) :
    Double.add (Double.finite a) (Double.finite b) = Double.ofRat (a + b) := rfl

/-- Multiplication of finite values rounds the exact product. -/
theorem mul_finite (a b : ℚ) :
    Double.mul (Double.finite a) (Double.finite b) = Double.ofRat (a * b) := rfl

/-- Division of finite values by a nonzero one rounds the exact quotient. -/
theorem div_finite (a b : ℚ) (hb : b ≠ 0) :
    Double.div (Double.finite a) (Double.finite b) = Double.ofRat (a / b) := by
  show (if b = 0 then Double.infOfSign a else Double.ofRat (a / b)) = _
  rw [if_neg hb]

/-- Subtraction of finite values rounds the exact difference. -/
theorem sub_finite (a b : ℚ) :
    Double.sub (Double.finite a) (Double.finite b) = Double.ofRat (a + -b) := rfl

/-- The constant `mult` is `2^31`. -/
theorem mult_eq : mult = Double.finite (2 ^ 31) := by
  unfold mult Double.ofInt SOX_SAMPLE_MAX
  rw [ofRat_of_representable _ (2 ^ 31 - 1) 0 (by norm_num) (by norm_num) (by norm_num)
    (by norm_num)]
  rw [add_finite, ofRat_of_representable _ 1 31 (by norm_num) (by norm_num) (by norm_num) (by norm_num)]
  norm_num

/-- The quotient `bias/mult` is `2^-32`. -/
theorem bias_div_mult : Double.div bias mult = Double.finite (1 / 2 ^ 32) := by
  rw [mult_eq]
  unfold bias
  rw [div_finite _ _ (by norm_num), ofRat_of_representable _ 1 (-32) (by norm_num) (by norm_num) (by norm_num) (by norm_num)]
  norm_num

/-- The constant `cmin` is `-1 - 2^-32`. -/
theorem cmin_eq : cmin = Double.finite (-1 - 1 / 2 ^ 32) := by
  unfold cmin
  rw [bias_div_mult, sub_finite, ofRat_of_representable _ (-(2 ^ 32 + 1)) (-32) (by norm_num) (by norm_num) (by norm_num)
    (by norm_num)]
  norm_num

/-- The constant `cmax` is `1 - 2^-32`. -/
theorem cmax_eq : cmax = Double.finite (1 - 1 / 2 ^ 32) := by
  unfold cmax
  rw [bias_div_mult, sub_finite, ofRat_of_representable _ (2 ^ 32 - 1) (-32) (by norm_num) (by norm_num) (by norm_num)
    (by norm_num)]
  norm_num

/-- The conversion to a sample of an integer within the range of a sample is
that integer. -/
theorem toSample_of_range (n : ℤ) (h0 : -(2 ^ 31) ≤ n) (h1 : n ≤ 2 ^ 31 - 1) :
    Double.toSample (Double.finite n) = n := by
  have ht : Double.truncate (n : ℚ) = n := by
    unfold Double.truncate
    split_ifs <;> simp
  show (if SOX_SAMPLE_MIN ≤ Double.truncate (n : ℚ) ∧ Double.truncate (n : ℚ) ≤ SOX_SAMPLE_MAX
    then Double.truncate (n : ℚ) else SOX_SAMPLE_MIN) = n
  rw [ht, if_pos]
  exact ⟨h0, h1⟩

/-- The floating-point loop body on a finite binary64 value within
`[cmin, cmax)`: nothing is clipped, and the value converted to a sample is the
floor of the rounded sum. -/
theorem encodeFloat_finite (q : ℚ) (hq : isBinary64 q) (hlo : -1 - 1 / 2 ^ 32 ≤ q)
    (hhi : q < 1 - 1 / 2 ^ 32) :
    encodeFloat (Double.finite q) =
      (Double.toSample (Double.finite (⌊roundBinary64 (2 ^ 31 * q + 1 / 2)⌋ : ℤ)), 0) ∧
    -(2 ^ 31 : ℚ) ≤ roundBinary64 (2 ^ 31 * q + 1 / 2) ∧
    roundBinary64 (2 ^ 31 * q + 1 / 2) ≤ 2 ^ 31 := by
  obtain ⟨m, e, hm, he, he2, hqe⟩ := hq
  have hlo' : -(2 ^ 31 : ℚ) ≤ roundBinary64 (2 ^ 31 * q + 1 / 2) := by
    have := le_roundBinary64 (2 ^ 31 * q + 1 / 2) (-1) 31 (by norm_num) (by norm_num)
      (by norm_num; linarith)
    norm_num at this ⊢
    linarith
  have hhi' : roundBinary64 (2 ^ 31 * q + 1 / 2) ≤ 2 ^ 31 := by
    have := roundBinary64_le (2 ^ 31 * q + 1 / 2) 1 31 (by norm_num) (by norm_num)
      (by norm_num; linarith)
    norm_num at this ⊢
    linarith
  refine ⟨?_, hlo', hhi'⟩
  unfold encodeFloat
  rw [cmin_eq, cmax_eq, mult_eq]
  have h1 : Double.lt (Double.finite q) (Double.finite (-1 - 1 / 2 ^ 32)) = false := by
    unfold Double.lt
    exact decide_eq_false (not_lt.mpr hlo)
  have h2 : Double.ge (Double.finite q) (Double.finite (1 - 1 / 2 ^ 32)) = false := by
    unfold Double.ge
    exact decide_eq_false (not_le.mpr hhi)
  rw [h1, h2]
  simp only [Bool.false_eq_true, if_false]
  have hmul : Double.mul (Double.finite (2 ^ 31)) (Double.finite q) = Double.finite (2 ^ 31 * q) := by
    rw [mul_finite]
    by_cases hm0 : m = 0
    · subst hm0
      simp at hqe
      subst hqe
      exact ofRat_of_representable _ 0 0 (by norm_num) (by norm_num) (by norm_num) (by norm_num)
    · have hE : e ≤ 0 := by
        by_contra hcon
        have h1e : (1 : ℚ) ≤ |(m : ℚ)| := by
          have : (1 : ℤ) ≤ |m| := Int.one_le_abs hm0
          exact_mod_cast this
        have h2e : (2 : ℚ) ^ (1 : ℤ) ≤ 2 ^ e := zpow_le_zpow_right₀ (by norm_num) (by omega)
        have h3e : |q| = |(m : ℚ)| * 2 ^ e := by
          rw [hqe, abs_mul, abs_of_pos (two_zpow_pos e)]
        have h4e : |q| < 2 := by
          rw [abs_lt]; constructor <;> norm_num at hlo hhi ⊢ <;> linarith
        have h5e : (2 : ℚ) ≤ |(m : ℚ)| * 2 ^ e := by
          calc (2 : ℚ) = 1 * 2 ^ (1 : ℤ) := by norm_num
            _ ≤ |(m : ℚ)| * 2 ^ e := mul_le_mul h1e h2e (by positivity) (by positivity)
        linarith
      apply ofRat_of_representable _ m (e + 31) hm (by omega) (by omega)
      rw [hqe, zpow_add₀ (by norm_num : (2 : ℚ) ≠ 0)]
      norm_num
      ring
  rw [hmul]
  unfold bias
  rw [add_finite]
  unfold Double.ofRat
  have h3 : ¬ (2 : ℚ) ^ 1024 ≤ roundBinary64 (2 ^ 31 * q + 1 / 2) := by
    have : (2 : ℚ) ^ 31 < 2 ^ 1024 := by norm_num
    intro hcon; linarith
  have h4 : ¬ roundBinary64 (2 ^ 31 * q + 1 / 2) ≤ -(2 : ℚ) ^ 1024 := by
    have : (2 : ℚ) ^ 31 < 2 ^ 1024 := by norm_num
    intro hcon; linarith
  rw [if_neg h3, if_neg h4]
  rfl

/-- Adding one half to a representable value of magnitude between `1/2` and
`2^32` gives a representable value as long as the sum stays below the end of
the binade of the value. -/
theorem add_half_representable (m e : ℤ) (hm : |m| < 2 ^ 53)
    (hy1 : 1 / 2 ≤ |(m : ℚ) * 2 ^ e|) (hy2 : |(m : ℚ) * 2 ^ e| < 2 ^ (32 : ℤ))
    (hz : |(m : ℚ) * 2 ^ e + 1 / 2| < 2 ^ (Int.log 2 |(m : ℚ) * 2 ^ e| + 1)) :
    ∃ M p : ℤ, |M| < 2 ^ 53 ∧ -1074 ≤ p ∧ (m : ℚ) * 2 ^ e + 1 / 2 = M * 2 ^ p := by
  have hy0 : (m : ℚ) * 2 ^ e ≠ 0 := by
    intro h; rw [h] at hy1; norm_num at hy1
  have hlog := log_bounds _ hy0
  have hrep := abs_representable_lt m e hm
  generalize Int.log 2 |(m : ℚ) * 2 ^ e| = E at hlog hz
  have hE1 : -1 ≤ E := by
    have : (2 : ℚ) ^ (-1 : ℤ) < 2 ^ (E + 1) := by
      refine lt_of_le_of_lt ?_ (lt_of_le_of_lt hy1 hlog.2)
      norm_num
    have := (zpow_lt_zpow_iff_right₀ (by norm_num : (1 : ℚ) < 2)).mp this
    omega
  have hE2 : E ≤ 31 := by
    have : (2 : ℚ) ^ E < 2 ^ (32 : ℤ) := lt_of_le_of_lt hlog.1 hy2
    have := (zpow_lt_zpow_iff_right₀ (by norm_num : (1 : ℚ) < 2)).mp this
    omega
  have hE3 : E - 52 ≤ e := by
    have : (2 : ℚ) ^ E < 2 ^ (53 + e) := lt_of_le_of_lt hlog.1 hrep
    have := (zpow_lt_zpow_iff_right₀ (by norm_num : (1 : ℚ) < 2)).mp this
    omega
  have hp2 : (0 : ℚ) < 2 ^ (E - 52) := two_zpow_pos _
  have hk := representable_div m e (E - 52) hE3
  have hhalf : (1 / 2 : ℚ) / 2 ^ (E - 52) = ((2 ^ (-1 - (E - 52)).toNat : ℤ) : ℚ) := by
    rw [show (1 / 2 : ℚ) = 2 ^ (-1 : ℤ) by norm_num, ← zpow_sub₀ (by norm_num : (2:ℚ) ≠ 0),
      two_zpow_eq_cast _ (by omega)]
  refine ⟨m * 2 ^ (e - (E - 52)).toNat + 2 ^ (-1 - (E - 52)).toNat, E - 52, ?_, by omega, ?_⟩
  · have hsum : (m : ℚ) * 2 ^ e + 1 / 2 =
        ((m * 2 ^ (e - (E - 52)).toNat + 2 ^ (-1 - (E - 52)).toNat : ℤ) : ℚ) * 2 ^ (E - 52) := by
      rw [Int.cast_add, ← hk, ← hhalf]
      field_simp
      ring
    rw [hsum, abs_mul, abs_of_pos hp2] at hz
    have hE : (2 : ℚ) ^ (E + 1) = 2 ^ (53 : ℤ) * 2 ^ (E - 52) := by
      rw [← zpow_add₀ (by norm_num : (2:ℚ) ≠ 0)]; congr 1; omega
    rw [hE] at hz
    have := lt_of_mul_lt_mul_right hz (le_of_lt hp2)
    have h53 : (2 : ℚ) ^ (53 : ℤ) = ((2 ^ 53 : ℤ) : ℚ) := by norm_num
    rw [h53, ← Int.cast_abs] at this
    exact_mod_cast this
  · rw [Int.cast_add, ← hk, ← hhalf]
    field_simp
    ring

/-- A positive representable value below `1/2`, other than the largest such
value `1/2 - 2^-54`, is at most `1/2 - 2^-53`. -/
theorem le_pred_half (m e : ℤ) (hm : |m| < 2 ^ 53) (h0 : 0 < (m : ℚ) * 2 ^ e)
    (h1 : (m : ℚ) * 2 ^ e < 1 / 2) (hne : (m : ℚ) * 2 ^ e ≠ 1 / 2 - 1 / 2 ^ 54) :
    (m : ℚ) * 2 ^ e ≤ 1 / 2 - 1 / 2 ^ 53 := by
  have hmpos : 0 < m := by
    have : (0 : ℚ) < m := (mul_pos_iff_of_pos_right (two_zpow_pos e)).mp h0
    exact_mod_cast this
  have hm' : m < 2 ^ 53 := lt_of_le_of_lt (le_abs_self m) hm
  rcases lt_trichotomy e (-54) with he | he | he
  · have h2 : (2 : ℚ) ^ e ≤ 2 ^ (-55 : ℤ) := zpow_le_zpow_right₀ (by norm_num) (by omega)
    have h3 : (m : ℚ) < 2 ^ 53 := by exact_mod_cast hm'
    have h4 : (m : ℚ) * 2 ^ e ≤ 2 ^ 53 * 2 ^ (-55 : ℤ) :=
      mul_le_mul (le_of_lt h3) h2 (le_of_lt (two_zpow_pos e)) (by norm_num)
    norm_num at h4 ⊢
    linarith
  · subst he
    have h2 : m ≠ 2 ^ 53 - 1 := by
      intro h; apply hne; rw [h]; norm_num
    have h3 : m ≤ 2 ^ 53 - 2 := by omega
    have h4 : (m : ℚ) ≤ 2 ^ 53 - 2 := by exact_mod_cast h3
    have h5 : (m : ℚ) * 2 ^ (-54 : ℤ) ≤ (2 ^ 53 - 2) * 2 ^ (-54 : ℤ) :=
      mul_le_mul_of_nonneg_right h4 (le_of_lt (two_zpow_pos _))
    norm_num at h5 ⊢
    linarith
  · have hk := representable_div m e (-53) (by omega)
    have h2 : (m : ℚ) * 2 ^ e / 2 ^ (-53 : ℤ) < ((2 ^ 52 : ℤ) : ℚ) := by
      rw [div_lt_iff₀ (two_zpow_pos _)]
      norm_num
      linarith
    rw [hk] at h2
    have h3 : m * 2 ^ (e - -53).toNat < 2 ^ 52 := by exact_mod_cast h2
    have h4 : m * 2 ^ (e - -53).toNat ≤ 2 ^ 52 - 1 := by omega
    have h5 : ((m * 2 ^ (e - -53).toNat : ℤ) : ℚ) ≤ ((2 ^ 52 - 1 : ℤ) : ℚ) := by exact_mod_cast h4
    rw [← hk, div_le_iff₀ (two_zpow_pos _)] at h5
    norm_num at h5 ⊢
    linarith

/-- Away from the largest binary64 value below `2^-32`, rounding the sum
`2^31 * q + 1/2` to binary64 does not change its floor. -/
theorem floor_roundBinary64 (q : ℚ) (hq : isBinary64 q) (hlo : -1 - 1 / 2 ^ 32 ≤ q)
    (hhi : q < 1 - 1 / 2 ^ 32) (hne : q ≠ 1 / 2 ^ 32 - 1 / 2 ^ 85) :
    ⌊roundBinary64 (2 ^ 31 * q + 1 / 2)⌋ = ⌊2 ^ 31 * q + 1 / 2⌋ := by
  obtain ⟨m, e, hm, he, _, hqe⟩ := hq
  have hy : 2 ^ 31 * q = (m : ℚ) * 2 ^ (e + 31) := by
    rw [hqe, zpow_add₀ (by norm_num : (2 : ℚ) ≠ 0)]
    norm_num
    ring
  generalize hn : ⌊2 ^ 31 * q + 1 / 2⌋ = n
  have hn1 : (n : ℚ) ≤ 2 ^ 31 * q + 1 / 2 := by rw [← hn]; exact Int.floor_le _
  have hn2 : 2 ^ 31 * q + 1 / 2 < n + 1 := by rw [← hn]; exact Int.lt_floor_add_one _
  have hnlo : -(2 ^ 31) ≤ n := by
    have : (-(2 ^ 31) : ℚ) < n + 1 := by norm_num at hlo ⊢; linarith
    have : ((-(2 ^ 31) : ℤ) : ℚ) < ((n + 1 : ℤ) : ℚ) := by push_cast; exact this
    have : -(2 ^ 31) < n + 1 := by exact_mod_cast this
    omega
  have hnhi : n ≤ 2 ^ 31 - 1 := by
    have : (n : ℚ) < 2 ^ 31 := by norm_num at hhi ⊢; linarith
    have : ((n : ℤ) : ℚ) < ((2 ^ 31 : ℤ) : ℚ) := by push_cast; exact this
    have : n < 2 ^ 31 := by exact_mod_cast this
    omega
  -- the floor is representable and below the sum
  have hlow : (n : ℚ) ≤ roundBinary64 (2 ^ 31 * q + 1 / 2) := by
    have := le_roundBinary64 (2 ^ 31 * q + 1 / 2) n 0 (by rw [abs_lt]; constructor <;> omega)
      (by norm_num) (by simpa using hn1)
    simpa using this
  -- a representable value between the sum and the next integer
  have hup : ∃ M p : ℤ, |M| < 2 ^ 53 ∧ -1074 ≤ p ∧ 2 ^ 31 * q + 1 / 2 ≤ (M : ℚ) * 2 ^ p ∧
      (M : ℚ) * 2 ^ p < n + 1 := by
    by_cases hhalf : 2 ^ 31 * q + 1 / 2 ≤ n + 1 / 2
    · refine ⟨2 * n + 1, -1, by rw [abs_lt]; constructor <;> omega, by norm_num, ?_, ?_⟩
      · push_cast; norm_num; linarith
      · push_cast; norm_num; linarith
    · have hyn : (n : ℚ) < 2 ^ 31 * q := by linarith
      have hyn2 : 2 ^ 31 * q < n + 1 / 2 := by linarith
      rcases lt_trichotomy n 0 with hneg | hzero | hpos
      · -- negative side: the sum is smaller in magnitude than the product
        have hn' : (n : ℚ) ≤ -1 := by
          have : n ≤ -1 := by omega
          exact_mod_cast this
        have hyneg : 2 ^ 31 * q < -(1 / 2) := by linarith
        have habs : |(m : ℚ) * 2 ^ (e + 31)| = -(2 ^ 31 * q) := by
          rw [← hy]; exact abs_of_neg (by linarith)
        have hy0 : (m : ℚ) * 2 ^ (e + 31) ≠ 0 := by rw [← hy]; linarith
        have hlog := log_bounds _ hy0
        obtain ⟨M, p, hM, hp, hMp⟩ := add_half_representable m (e + 31) hm
          (by rw [habs]; linarith)
          (by rw [habs]; norm_num at hlo ⊢; linarith)
          (by
            refine lt_trans ?_ hlog.2
            rw [habs, ← hy, abs_of_neg (by linarith)]
            linarith)
        exact ⟨M, p, hM, hp, by rw [← hMp, ← hy], by rw [← hMp, ← hy]; exact hn2⟩
      · -- the sum lies in (1/2, 1)
        subst hzero
        have hy0 : 0 < (m : ℚ) * 2 ^ (e + 31) := by rw [← hy]; simpa using hyn
        have hy1 : (m : ℚ) * 2 ^ (e + 31) < 1 / 2 := by rw [← hy]; simpa using hyn2
        have hyne : (m : ℚ) * 2 ^ (e + 31) ≠ 1 / 2 - 1 / 2 ^ 54 := by
          rw [← hy]
          intro h
          apply hne
          have : q = (1 / 2 - 1 / 2 ^ 54) / 2 ^ 31 := by rw [← h]; field_simp
          rw [this]; norm_num
        have := le_pred_half m (e + 31) hm hy0 hy1 hyne
        rw [← hy] at this
        refine ⟨2 ^ 53 - 1, -53, by norm_num, by norm_num, ?_, ?_⟩
        · push_cast; norm_num at this ⊢; linarith
        · push_cast; norm_num
      · -- positive side: the next integer is within the binade of the product
        have hn' : (1 : ℚ) ≤ n := by
          have : 1 ≤ n := by omega
          exact_mod_cast this
        have hypos : 1 < 2 ^ 31 * q := by linarith
        have habs : |(m : ℚ) * 2 ^ (e + 31)| = 2 ^ 31 * q := by
          rw [← hy]; exact abs_of_pos (by linarith)
        have hy0 : (m : ℚ) * 2 ^ (e + 31) ≠ 0 := by rw [← hy]; linarith
        have hlog := log_bounds _ hy0
        have hE0 : 0 ≤ Int.log 2 |(m : ℚ) * 2 ^ (e + 31)| + 1 := by
          have : (2 : ℚ) ^ (0 : ℤ) < 2 ^ (Int.log 2 |(m : ℚ) * 2 ^ (e + 31)| + 1) := by
            refine lt_trans ?_ hlog.2
            rw [habs]; simpa using hypos
          have := (zpow_lt_zpow_iff_right₀ (by norm_num : (1 : ℚ) < 2)).mp this
          omega
        have hK := two_zpow_eq_cast _ hE0
        have h1 : (n : ℚ) < ((2 ^ (Int.log 2 |(m : ℚ) * 2 ^ (e + 31)| + 1).toNat : ℤ) : ℚ) := by
          rw [← hK]
          refine lt_trans hyn ?_
          rw [← habs]; exact hlog.2
        have h2 : n < 2 ^ (Int.log 2 |(m : ℚ) * 2 ^ (e + 31)| + 1).toNat := by
          exact_mod_cast h1
        have h3 : ((n + 1 : ℤ) : ℚ) ≤
            ((2 ^ (Int.log 2 |(m : ℚ) * 2 ^ (e + 31)| + 1).toNat : ℤ) : ℚ) := by
          exact_mod_cast h2
        have hsum : |(m : ℚ) * 2 ^ (e + 31) + 1 / 2| = 2 ^ 31 * q + 1 / 2 := by
          rw [← hy]; exact abs_of_pos (by linarith)
        obtain ⟨M, p, hM, hp, hMp⟩ := add_half_representable m (e + 31) hm
          (by rw [habs]; linarith)
          (by rw [habs]; norm_num at hhi ⊢; linarith)
          (by
            rw [hsum, hK]
            push_cast at h3 ⊢
            linarith)
        exact ⟨M, p, hM, hp, by rw [← hMp, ← hy], by rw [← hMp, ← hy]; exact hn2⟩
  obtain ⟨M, p, hM, hp, hle, hlt⟩ := hup
  have hhigh := roundBinary64_le _ M p hM hp hle
  rw [Int.floor_eq_iff]
  exact ⟨hlow, lt_of_le_of_lt hhigh hlt⟩

/-- The binade of a positive rational is determined by its bounds. -/
theorem log_eq_of_bounds (x : ℚ) (E : ℤ) (hx : 0 < x) (h1 : (2 : ℚ) ^ E ≤ x)
    (h2 : x < (2 : ℚ) ^ (E + 1)) : Int.log 2 x = E := by
  have a := (Int.zpow_le_iff_le_log (b := 2) (by norm_num) hx).mp (by exact_mod_cast h1)
  have b := (Int.lt_zpow_iff_log_lt (b := 2) (by norm_num) hx).mp (by exact_mod_cast h2)
  omega

/-- The sum at the largest binary64 value below `2^-32` is `1 - 2^-54`, half
way between two neighbours of the grid; it rounds to the even one, `1`. -/
theorem roundBinary64_tie : roundBinary64 (1 - 1 / 2 ^ 54) = 1 := by
  have hlog : Int.log 2 |(1 - 1 / 2 ^ 54 : ℚ)| = -1 := by
    rw [abs_of_pos (by norm_num)]
    exact log_eq_of_bounds _ _ (by norm_num) (by norm_num) (by norm_num)
  have hp : ulpExponent (1 - 1 / 2 ^ 54) = -53 := by
    unfold ulpExponent
    rw [hlog]
    norm_num
  unfold roundBinary64
  rw [hp]
  have hx : (1 - 1 / 2 ^ 54 : ℚ) / 2 ^ (-53 : ℤ) = 2 ^ 53 - 1 / 2 := by norm_num
  have hfl : ⌊(2 ^ 53 - 1 / 2 : ℚ)⌋ = 2 ^ 53 - 1 := by
    rw [Int.floor_eq_iff]
    constructor <;> norm_num
  have hr : roundHalfEven (2 ^ 53 - 1 / 2) = 2 ^ 53 := by
    unfold roundHalfEven
    rw [hfl]
    norm_num
  rw [hx, hr]
  norm_num

/-- Every binary32 value is a binary64 value. -/
theorem isBinary64_of_isBinary32 (q : ℚ) (h : isBinary32 q) : isBinary64 q := by
  obtain ⟨m, e, hm, he, he2, hq⟩ := h
  exact ⟨m, e, lt_trans hm (by norm_num), by omega, by omega, hq⟩

/-- The largest binary64 value below `2^-32` needs a 53-bit significand: it is
not a binary32 value. -/
theorem tie_not_binary32 (q : ℚ) (h : isBinary32 q) : q ≠ 1 / 2 ^ 32 - 1 / 2 ^ 85 := by
  obtain ⟨m, e, hm, he, he2, hq⟩ := h
  intro hcon
  rw [hq] at hcon
  have hm' : |(m : ℚ)| < 2 ^ 24 := by exact_mod_cast hm
  by_cases hk : -85 ≤ e
  · have h1 := representable_div m e (-85) hk
    rw [hcon] at h1
    have h2 : ((2 ^ 53 - 1 : ℤ) : ℚ) = ((m * 2 ^ (e - -85).toNat : ℤ) : ℚ) := by
      rw [← h1]; norm_num
    have h3 : (2 ^ 53 - 1 : ℤ) = m * 2 ^ (e - -85).toNat := by exact_mod_cast h2
    rcases Nat.eq_zero_or_pos (e - -85).toNat with h0 | h0
    · rw [h0] at h3
      have := abs_lt.mp hm
      omega
    · obtain ⟨j, hj⟩ : ∃ j, (e - -85).toNat = j + 1 := ⟨(e - -85).toNat - 1, by omega⟩
      rw [hj, pow_succ (2 : ℤ) j, ← mul_assoc] at h3
      generalize m * 2 ^ j = u at h3
      omega
  · have h1 : (2 : ℚ) ^ e ≤ 2 ^ (-86 : ℤ) := zpow_le_zpow_right₀ (by norm_num) (by omega)
    have h2 : |(m : ℚ) * 2 ^ e| ≤ 2 ^ 24 * 2 ^ (-86 : ℤ) := by
      rw [abs_mul, abs_of_pos (two_zpow_pos e)]
      exact mul_le_mul (le_of_lt hm') h1 (le_of_lt (two_zpow_pos e)) (by norm_num)
    rw [hcon] at h2
    rw [abs_of_pos (by norm_num)] at h2
    norm_num at h2

/-- The floating-point loop body at the largest binary64 value below `2^-32`:
the sample is 1. -/
theorem encodeFloat_tie : encodeFloat (Double.finite (1 / 2 ^ 32 - 1 / 2 ^ 85)) = (1, 0) := by
  have h := (encodeFloat_finite (1 / 2 ^ 32 - 1 / 2 ^ 85)
    ⟨2 ^ 53 - 1, -85, by norm_num, by norm_num, by norm_num, by norm_num⟩
    (by norm_num) (by norm_num)).1
  have hz : (2 ^ 31 * (1 / 2 ^ 32 - 1 / 2 ^ 85) + 1 / 2 : ℚ) = 1 - 1 / 2 ^ 54 := by norm_num
  rw [hz, roundBinary64_tie] at h
  rw [h]
  have : (⌊(1 : ℚ)⌋ : ℤ) = 1 := Int.floor_one
  rw [this]
  rw [toSample_of_range 1 (by norm_num) (by norm_num)]

/-- The floating-point loop body on a clipped value below `cmin`. -/
theorem encodeFloat_below (v : Double) (h : Double.lt v cmin = true) :
    encodeFloat v = (SOX_SAMPLE_MIN, 1) := by
  unfold encodeFloat
  rw [if_pos h]

/-- No value is both below `cmin` and at or above `cmax`. -/
theorem not_lt_cmin_of_ge_cmax (v : Double) (h : Double.ge v cmax = true) :
    Double.lt v cmin = false := by
  rw [cmax_eq] at h
  rw [cmin_eq]
  cases v with
  | finite q =>
    have h1 : (1 - 1 / 2 ^ 32 : ℚ) ≤ q := of_decide_eq_true h
    show decide (q < -1 - 1 / 2 ^ 32) = false
    apply decide_eq_false
    norm_num at h1 ⊢
    linarith
  | posInf => rfl
  | negInf => exact absurd h (by simp [Double.ge])
  | nan => rfl

/-- The floating-point loop body on a clipped value at or above `cmax`. -/
theorem encodeFloat_above (v : Double) (h : Double.ge v cmax = true) :
    encodeFloat v = (SOX_SAMPLE_MAX, 1) := by
  unfold encodeFloat
  rw [not_lt_cmin_of_ge_cmax v h, if_neg (by simp), if_pos h]

/-- The increment of the counter is 1 on a clipped value and 0 otherwise. -/
theorem encodeFloat_count (v : Double) : (encodeFloat v).2 = if clipped v then 1 else 0 := by
  unfold clipped encodeFloat
  cases h1 : Double.lt v cmin <;> cases h2 : Double.ge v cmax <;> simp

/-- The loop converts element by element and counts the clipped elements. -/
theorem encodeFloats_eq (inp : List Double) :
    (encodeFloats inp).1 = inp.map (fun v => (encodeFloat v).1) ∧
    (encodeFloats inp).2 = inp.countP clipped := by
  induction inp with
  | nil => exact ⟨rfl, rfl⟩
  | cons v rest ih =>
    constructor
    · show (encodeFloat v).1 :: (encodeFloats rest).1 = _
      rw [ih.1]; rfl
    · show (encodeFloat v).2 + (encodeFloats rest).2 = _
      rw [ih.2, encodeFloat_count, List.countP_cons]
      cases clipped v <;> simp
      omega

/-- A finite value is clipped exactly when it is outside `[cmin, cmax)`. -/
theorem clipped_finite (q : ℚ) :
    clipped (Double.finite q) = true ↔ ¬ (-1 - 1 / 2 ^ 32 ≤ q ∧ q < 1 - 1 / 2 ^ 32) := by
  unfold clipped
  rw [cmin_eq, cmax_eq]
  show (decide (q < -1 - 1 / 2 ^ 32) || decide (1 - 1 / 2 ^ 32 ≤ q)) = true ↔ _
  rw [Bool.or_eq_true, decide_eq_true_iff, decide_eq_true_iff]
  constructor
  · rintro (h | h) ⟨h1, h2⟩ <;> linarith
  · intro h
    by_cases h1 : q < -1 - 1 / 2 ^ 32
    · left; exact h1
    · right
      by_contra h2
      exact h ⟨not_lt.mp h1, not_le.mp h2⟩

/-- A write of floating-point data that passes the tests on the session and
on the shape hands the converted buffer to the backend and adds the number of
clipped elements to the clip count. -/
theorem write_samples_float (ft : sox_format_t) (offset : Int) (arr : YArray)
    (inp : List Double) (n : Int) (hmode : ft.mode = 'w') (hshape : shapeAccepted ft arr)
    (hdata : arr.data = .floats inp ∨ arr.data = .doubles inp) :
    (write_samples ⟨some ft, offset⟩ arr n).calls =
      [.write (inp.map (fun v => (encodeFloat v).1)) inp.length] ∧
    clipCount (write_samples ⟨some ft, offset⟩ arr n).obj = some (ft.clips + inp.countP clipped) := by
  have he := encodeFloats_eq inp
  rcases hdata with hd | hd <;>
  · unfold write_samples
    simp [hmode, hd, hshape, YData.nbits, YData.integer, convertSamples, finishWrite, clipCount,
      YData.ntot, he.1, he.2]

/-- A write that never reaches the backend leaves the clip count as it was. -/
theorem clipCount_of_rejected (obj : ysox_t) (arr : YArray) (n : Int)
    (h : (write_samples obj arr n).calls = []) :
    clipCount (write_samples obj arr n).obj = clipCount obj := by
  unfold write_samples at h ⊢
  cases hf : obj.format with
  | none => simp [clipCount, hf]
  | some ft =>
    rw [hf] at h
    simp only at h ⊢
    split_ifs at h ⊢
    all_goals first
      | rfl
      | (exfalso; simp [finishWrite] at h; done)
      | (cases hc : convertSamples arr.data with
          | none => rfl
          | some r => rw [hc] at h; simp [finishWrite] at h)

/-- The loop body at `0.0`. -/
theorem encodeFloat_zero : encodeFloat (Double.finite 0) = (0, 0) := by
  have h := (encodeFloat_finite 0 ⟨0, 0, by norm_num, by norm_num, by norm_num, by norm_num⟩
    (by norm_num) (by norm_num)).1
  have hz : (2 ^ 31 * 0 + 1 / 2 : ℚ) = ((1 : ℤ) : ℚ) * 2 ^ (-1 : ℤ) := by norm_num
  rw [hz, roundBinary64_of_representable 1 (-1) (by norm_num) (by norm_num)] at h
  have hfl : ⌊(((1 : ℤ) : ℚ) * 2 ^ (-1 : ℤ))⌋ = 0 := by
    rw [Int.floor_eq_iff]; constructor <;> norm_num
  rw [h, hfl, toSample_of_range 0 (by norm_num) (by norm_num)]

/-! ## Floating-point encoding -/

/-- C1 as stated fails at one binary64 value: `v = 2^-32 - 2^-85`, the largest
`double` below `2^-32`, lies in `[cmin, cmax)`; `MULT*v + 0.5` is `1 - 2^-54`,
whose floor is 0, but that sum is not a `double`: the addition rounds it to
`1.0` and the sample written is 1. -/
theorem float_encode_tie_counterexample :
    isBinary64 (1 / 2 ^ 32 - 1 / 2 ^ 85) ∧
    Double.lt (Double.finite (1 / 2 ^ 32 - 1 / 2 ^ 85)) cmin = false ∧
    Double.ge (Double.finite (1 / 2 ^ 32 - 1 / 2 ^ 85)) cmax = false ∧
    (encodeFloat (Double.finite (1 / 2 ^ 32 - 1 / 2 ^ 85))).1 = 1 ∧
    ⌊(2 ^ 31 * (1 / 2 ^ 32 - 1 / 2 ^ 85) + 1 / 2 : ℚ)⌋ = 0 ∧
    (encodeFloat (Double.finite (1 / 2 ^ 32 - 1 / 2 ^ 85))).1
      ≠ ⌊(2 ^ 31 * (1 / 2 ^ 32 - 1 / 2 ^ 85) + 1 / 2 : ℚ)⌋ := by
  have hfl : ⌊(2 ^ 31 * (1 / 2 ^ 32 - 1 / 2 ^ 85) + 1 / 2 : ℚ)⌋ = 0 := by
    rw [Int.floor_eq_iff]; constructor <;> norm_num
  refine ⟨⟨2 ^ 53 - 1, -85, by norm_num, by norm_num, by norm_num, by norm_num⟩, ?_, ?_, ?_,
    hfl, ?_⟩
  · rw [cmin_eq]
    exact decide_eq_false (by norm_num)
  · rw [cmax_eq]
    exact decide_eq_false (by norm_num)
  · rw [encodeFloat_tie]
  · rw [encodeFloat_tie, hfl]
    norm_num

/-- C1, amended: `mult` is `2^31`, `cmin` is `-1 - 2^-32` and `cmax` is
`1 - 2^-32`; for every binary64 value `v` with `cmin <= v < cmax` other than
`2^-32 - 2^-85` the sample written is `floor(2^31 * v + 1/2)`, no clip is
counted, and the sample lies between `SOX_SAMPLE_MIN` and `SOX_SAMPLE_MAX`;
every `float` element is such a value; and at `v = 2^-32 - 2^-85` the sample
written is 1, also within the range. -/
theorem float_encode_in_range :
    mult = Double.finite (2 ^ 31) ∧
    cmin = Double.finite (-1 - 1 / 2 ^ 32) ∧
    cmax = Double.finite (1 - 1 / 2 ^ 32) ∧
    (∀ q : ℚ, isBinary64 q → -1 - 1 / 2 ^ 32 ≤ q → q < 1 - 1 / 2 ^ 32 →
      q ≠ 1 / 2 ^ 32 - 1 / 2 ^ 85 →
      encodeFloat (Double.finite q) = (⌊2 ^ 31 * q + 1 / 2⌋, 0) ∧
      SOX_SAMPLE_MIN ≤ ⌊2 ^ 31 * q + 1 / 2⌋ ∧ ⌊2 ^ 31 * q + 1 / 2⌋ ≤ SOX_SAMPLE_MAX) ∧
    (∀ q : ℚ, isBinary32 q → isBinary64 q ∧ q ≠ 1 / 2 ^ 32 - 1 / 2 ^ 85) ∧
    encodeFloat (Double.finite (1 / 2 ^ 32 - 1 / 2 ^ 85)) = (1, 0) := by
  refine ⟨mult_eq, cmin_eq, cmax_eq, ?_,
    fun q h => ⟨isBinary64_of_isBinary32 q h, tie_not_binary32 q h⟩, encodeFloat_tie⟩
  intro q hq hlo hhi hne
  have h1 := (encodeFloat_finite q hq hlo hhi).1
  rw [floor_roundBinary64 q hq hlo hhi hne] at h1
  have hn1 : ((⌊2 ^ 31 * q + 1 / 2⌋ : ℤ) : ℚ) ≤ 2 ^ 31 * q + 1 / 2 := Int.floor_le _
  have hn2 : 2 ^ 31 * q + 1 / 2 < ((⌊2 ^ 31 * q + 1 / 2⌋ : ℤ) : ℚ) + 1 := Int.lt_floor_add_one _
  generalize ⌊2 ^ 31 * q + 1 / 2⌋ = n at h1 hn1 hn2
  have hnlo : -(2 ^ 31) ≤ n := by
    have : (-(2 ^ 31) : ℚ) < n + 1 := by norm_num at hlo ⊢; linarith
    have : ((-(2 ^ 31) : ℤ) : ℚ) < ((n + 1 : ℤ) : ℚ) := by push_cast; exact this
    have : -(2 ^ 31) < n + 1 := by exact_mod_cast this
    omega
  have hnhi : n ≤ 2 ^ 31 - 1 := by
    have : (n : ℚ) < 2 ^ 31 := by norm_num at hhi ⊢; linarith
    have : ((n : ℤ) : ℚ) < ((2 ^ 31 : ℤ) : ℚ) := by push_cast; exact this
    have : n < 2 ^ 31 := by exact_mod_cast this
    omega
  rw [toSample_of_range n hnlo hnhi] at h1
  exact ⟨h1, hnlo, hnhi⟩

/-- C1 amended, at `v = 0.25`: the sample is `floor(2^31/4 + 1/2)`. -/
theorem float_encode_in_range_witness :
    encodeFloat (Double.finite (1 / 4)) = (⌊(2 ^ 31 * (1 / 4) + 1 / 2 : ℚ)⌋, 0) ∧
    SOX_SAMPLE_MIN ≤ ⌊(2 ^ 31 * (1 / 4) + 1 / 2 : ℚ)⌋ ∧
    ⌊(2 ^ 31 * (1 / 4) + 1 / 2 : ℚ)⌋ ≤ SOX_SAMPLE_MAX :=
  float_encode_in_range.2.2.2.1 (1 / 4)
    ⟨1, -2, by norm_num, by norm_num, by norm_num, by norm_num⟩
    (by norm_num) (by norm_num) (by norm_num)

/-- C2: every value that compares below `cmin` is written as `SOX_SAMPLE_MIN`
and every value that compares at or above `cmax` as `SOX_SAMPLE_MAX`, each
counting one clip; the loop converts element by element and its counter ends
at the number of clipped elements; a finite value is clipped exactly when it
is outside `[-1 - 2^-32, 1 - 2^-32)`, both infinities are clipped, and a NaN,
which compares false with everything, is not; a write
of `float` or `double` data that passes the tests on the session and on the
shape hands the converted buffer to the backend and adds exactly that number
to the clip count of the session, whatever the backend answers, and a write
that is rejected before the backend is called leaves the clip count as it
was. At `1.0` the sample is `SOX_SAMPLE_MAX` with one clip, at `0.0` it is 0
with none. -/
theorem float_encode_clipping :
    (∀ v : Double, Double.lt v cmin = true → encodeFloat v = (SOX_SAMPLE_MIN, 1)) ∧
    (∀ v : Double, Double.ge v cmax = true → encodeFloat v = (SOX_SAMPLE_MAX, 1)) ∧
    (∀ inp : List Double,
      (encodeFloats inp).1 = inp.map (fun v => (encodeFloat v).1) ∧
      (encodeFloats inp).2 = inp.countP clipped) ∧
    (∀ q : ℚ, clipped (Double.finite q) = true ↔
      ¬ (-1 - 1 / 2 ^ 32 ≤ q ∧ q < 1 - 1 / 2 ^ 32)) ∧
    clipped Double.posInf = true ∧ clipped Double.negInf = true ∧
    clipped Double.nan = false ∧
    (∀ (ft : sox_format_t) (offset : Int) (arr : YArray) (inp : List Double) (n : Int),
      ft.mode = 'w' → shapeAccepted ft arr →
      (arr.data = .floats inp ∨ arr.data = .doubles inp) →
      (write_samples ⟨some ft, offset⟩ arr n).calls =
        [.write (inp.map (fun v => (encodeFloat v).1)) inp.length] ∧
      clipCount (write_samples ⟨some ft, offset⟩ arr n).obj
        = some (ft.clips + inp.countP clipped)) ∧
    (∀ (obj : ysox_t) (arr : YArray) (n : Int), (write_samples obj arr n).calls = [] →
      clipCount (write_samples obj arr n).obj = clipCount obj) ∧
    encodeFloat (Double.finite 1) = (SOX_SAMPLE_MAX, 1) ∧
    encodeFloat (Double.finite 0) = (0, 0) := by
  refine ⟨encodeFloat_below, encodeFloat_above, encodeFloats_eq, clipped_finite, ?_, ?_, ?_,
    write_samples_float, clipCount_of_rejected, ?_, encodeFloat_zero⟩
  · unfold clipped
    rw [cmin_eq, cmax_eq]
    rfl
  · unfold clipped
    rw [cmin_eq, cmax_eq]
    rfl
  · rfl
  · apply encodeFloat_above
    rw [cmax_eq]
    exact decide_eq_true (by norm_num)

/-- C2, at `-2.0`, which is below `cmin`, at `+inf`, which is above `cmax`,
and on a mono stream open for writing with 7 clips counted so far and the flat
array `[1.0, 0.0]`: the buffer handed to the backend is the converted one and
the clip count becomes the former count plus the number of clipped
elements. -/
theorem float_encode_clipping_witness :
    encodeFloat (Double.finite (-2)) = (SOX_SAMPLE_MIN, 1) ∧
    encodeFloat Double.posInf = (SOX_SAMPLE_MAX, 1) ∧
    (write_samples ⟨some ⟨'w', 1, 0, 7⟩, 0⟩
        ⟨1, 2, .doubles [Double.finite 1, Double.finite 0]⟩ 2).calls =
      [.write ([Double.finite 1, Double.finite 0].map (fun v => (encodeFloat v).1))
        ([Double.finite 1, Double.finite 0] : List Double).length] ∧
    clipCount (write_samples ⟨some ⟨'w', 1, 0, 7⟩, 0⟩
        ⟨1, 2, .doubles [Double.finite 1, Double.finite 0]⟩ 2).obj
      = some ((⟨'w', 1, 0, 7⟩ : sox_format_t).clips
          + [Double.finite 1, Double.finite 0].countP clipped) :=
  ⟨float_encode_clipping.1 (Double.finite (-2))
      (by rw [cmin_eq]; exact decide_eq_true (by norm_num)),
   float_encode_clipping.2.1 Double.posInf (by rw [cmax_eq]; rfl),
   float_encode_clipping.2.2.2.2.2.2.2.1 ⟨'w', 1, 0, 7⟩ 0
    ⟨1, 2, .doubles [Double.finite 1, Double.finite 0]⟩ [Double.finite 1, Double.finite 0] 2
    rfl (Or.inr ⟨by decide, by decide⟩) (Or.inr rfl)⟩

/-- The number of channels of an open stream as a `long`. -/
theorem channels_as_long (ft : sox_format_t) (hcu : ft.channels < 2 ^ 32) :
    wrapSigned 64 ft.channels = ft.channels :=
  wrapSigned_64_of_range _ (Int.natCast_nonneg _) (by norm_num; omega)

/-- The body of `read_samples` on a session open for reading, for a positive
count and a nonnegative answer of the backend. -/
theorem read_samples_open (ft : sox_format_t) (offset m n : Int) (buf : List Int)
    (hmode : ft.mode = 'r') (hc : 1 ≤ ft.channels) (hcu : ft.channels < 2 ^ 32)
    (hm : 1 ≤ m) (hn0 : 0 ≤ n) :
    read_samples ⟨some ft, offset⟩ m n buf =
      ⟨⟨some ft, offset + n / ft.channels⟩, [.read (mulLong ft.channels m)], none,
        decide (Int.tmod n ft.channels ≠ 0),
        if n / ft.channels < m then
          if n / (ft.channels : Int) = 0 then .nil
          else .samples ft.channels (n / ft.channels)
            (buf.take ((ft.channels : Int) * (n / ft.channels)).toNat)
        else .samples ft.channels m buf⟩ := by
  have hc0 : (0 : Int) < ft.channels := by exact_mod_cast hc
  have hnp : (if n > 0 then divLong n ft.channels else 0) = n / (ft.channels : Int) := by
    unfold divLong
    split_ifs with h
    · exact Int.tdiv_eq_ediv hn0 (le_of_lt hc0)
    · have : n = 0 := by omega
      simp [this]
  unfold read_samples
  simp only [hmode, channels_as_long ft hcu, hnp]
  have h1 : ¬ m ≤ 0 := by omega
  have h2 : ¬ n < 0 := by omega
  simp only [h1, h2, ne_eq, not_true_eq_false, if_false]
  split_ifs <;> rfl

/-! ## Reading: bookkeeping -/

/-- C11: on a session open for reading with `c >= 1` channels, for a requested
count `m >= 1`, a buffer of `c*m` samples and an answer `n` of the backend
with `0 <= n <= c*m`, the read raises no error, makes the one backend call
`sox_read`, returns `n div c` frames and adds `n div c` to the offset; the
result is nil when `n div c = 0` and otherwise an array of `c` by `n div c`
samples holding exactly `c*(n div c)` values, the first `c*(n div c)` of the
`n` values the backend delivered, in order. -/
theorem read_bookkeeping (ft : sox_format_t) (offset m n : Int) (buf : List Int)
    (hmode : ft.mode = 'r') (hc : 1 ≤ ft.channels) (hcu : ft.channels < 2 ^ 32)
    (hm : 1 ≤ m) (hn0 : 0 ≤ n) (hn : n ≤ ft.channels * m)
    (hbuf : (buf.length : Int) = ft.channels * m) :
    (read_samples ⟨some ft, offset⟩ m n buf).error = none ∧
    (read_samples ⟨some ft, offset⟩ m n buf).calls = [.read (mulLong ft.channels m)] ∧
    (read_samples ⟨some ft, offset⟩ m n buf).frames = n / ft.channels ∧
    (read_samples ⟨some ft, offset⟩ m n buf).obj = ⟨some ft, offset + n / ft.channels⟩ ∧
    (n / (ft.channels : Int) = 0 → (read_samples ⟨some ft, offset⟩ m n buf).value = .nil) ∧
    (n / (ft.channels : Int) ≠ 0 →
      (read_samples ⟨some ft, offset⟩ m n buf).value =
        .samples ft.channels (n / ft.channels)
          ((buf.take n.toNat).take ((ft.channels : Int) * (n / ft.channels)).toNat) ∧
      (((buf.take n.toNat).take ((ft.channels : Int) * (n / ft.channels)).toNat).length : Int)
        = ft.channels * (n / ft.channels)) := by
  have hc0 : (0 : Int) < ft.channels := by exact_mod_cast hc
  have hq0 : 0 ≤ n / (ft.channels : Int) := Int.ediv_nonneg hn0 (le_of_lt hc0)
  have hqn : (ft.channels : Int) * (n / ft.channels) ≤ n := Int.mul_ediv_self_le (ne_of_gt hc0)
  have hqm : n / (ft.channels : Int) ≤ m := by
    have : n / (ft.channels : Int) ≤ (ft.channels * m) / (ft.channels : Int) :=
      Int.ediv_le_ediv hc0 hn
    rwa [Int.mul_ediv_cancel_left _ (ne_of_gt hc0)] at this
  have hcq0 : 0 ≤ (ft.channels : Int) * (n / ft.channels) := mul_nonneg (le_of_lt hc0) hq0
  have hcqm : (ft.channels : Int) * (n / ft.channels) ≤ ft.channels * m :=
    mul_le_mul_of_nonneg_left hqm (le_of_lt hc0)
  have htake : (buf.take n.toNat).take ((ft.channels : Int) * (n / ft.channels)).toNat
      = buf.take ((ft.channels : Int) * (n / ft.channels)).toNat := by
    rw [List.take_take, min_eq_left (Int.toNat_le_toNat hqn)]
  have hlen : ((buf.take ((ft.channels : Int) * (n / ft.channels)).toNat).length : Int)
      = ft.channels * (n / ft.channels) := by
    rw [List.length_take, Nat.cast_min, Int.toNat_of_nonneg hcq0, hbuf]
    exact min_eq_left hcqm
  rw [read_samples_open ft offset m n buf hmode hc hcu hm hn0]
  refine ⟨rfl, rfl, ?_, rfl, ?_, ?_⟩
  · unfold ReadOutcome.frames
    by_cases h1 : n / (ft.channels : Int) < m
    · by_cases h2 : n / (ft.channels : Int) = 0
      · simp only [if_pos h1, if_pos h2]; exact h2.symm
      · simp only [if_pos h1, if_neg h2]
    · have : n / (ft.channels : Int) = m := by omega
      simp only [if_neg h1]; exact this.symm
  · intro h0
    have h1 : n / (ft.channels : Int) < m := by omega
    simp only [if_pos h1, if_pos h0]
  · intro h0
    rw [htake]
    refine ⟨?_, hlen⟩
    by_cases h1 : n / (ft.channels : Int) < m
    · simp only [if_pos h1, if_neg h0]
    · have hqe : n / (ft.channels : Int) = m := by omega
      have hfull : buf.take ((ft.channels : Int) * m).toNat = buf := by
        apply List.take_of_length_le
        have : (buf.length : Int) ≤ (((ft.channels : Int) * m).toNat : Int) := by
          rw [Int.toNat_of_nonneg (by rw [← hqe]; exact hcq0), hbuf]
        exact_mod_cast this
      simp only [hqe, lt_self_iff_false, if_false, hfull]

/-- C11, on a stereo stream at offset 3: of the 4 frames requested the backend
delivers 5 samples; the read returns the 2 whole frames, the first 4 samples,
and the offset becomes 5. -/
theorem read_bookkeeping_witness :
    (read_samples ⟨some ⟨'r', 2, 100, 0⟩, 3⟩ 4 5 [11, 12, 13, 14, 15, 0, 0, 0]).error = none ∧
    (read_samples ⟨some ⟨'r', 2, 100, 0⟩, 3⟩ 4 5 [11, 12, 13, 14, 15, 0, 0, 0]).calls
      = [.read (mulLong ((2 : Nat) : Int) 4)] ∧
    (read_samples ⟨some ⟨'r', 2, 100, 0⟩, 3⟩ 4 5 [11, 12, 13, 14, 15, 0, 0, 0]).frames
      = 5 / ((2 : Nat) : Int) ∧
    (read_samples ⟨some ⟨'r', 2, 100, 0⟩, 3⟩ 4 5 [11, 12, 13, 14, 15, 0, 0, 0]).value
      = .samples 2 2 [11, 12, 13, 14] :=
  ⟨(read_bookkeeping ⟨'r', 2, 100, 0⟩ 3 4 5 [11, 12, 13, 14, 15, 0, 0, 0] rfl (by decide)
      (by decide) (by decide) (by decide) (by decide) (by decide)).1,
   (read_bookkeeping ⟨'r', 2, 100, 0⟩ 3 4 5 [11, 12, 13, 14, 15, 0, 0, 0] rfl (by decide)
      (by decide) (by decide) (by decide) (by decide) (by decide)).2.1,
   (read_bookkeeping ⟨'r', 2, 100, 0⟩ 3 4 5 [11, 12, 13, 14, 15, 0, 0, 0] rfl (by decide)
      (by decide) (by decide) (by decide) (by decide) (by decide)).2.2.1,
   ((read_bookkeeping ⟨'r', 2, 100, 0⟩ 3 4 5 [11, 12, 13, 14, 15, 0, 0, 0] rfl (by decide)
      (by decide) (by decide) (by decide) (by decide) (by decide)).2.2.2.2.2 (by decide)).1⟩

/-- The loop over an array of floating-point values converts element by
element. -/
theorem canonicalValues_length (data : YData) (h : data.nbits ≠ 0) :
    ((canonicalValues data).length : Int) = data.ntot := by
  cases data <;> simp [canonicalValues, YData.ntot, YData.nbits] at h ⊢

/-- The buffer `write_samples` hands to the backend. -/
theorem write_samples_open (ft : sox_format_t) (offset : Int) (arr : YArray) (n : Int)
    (hmode : ft.mode = 'w') (hkind : arr.data.nbits ≠ 0) (hshape : shapeAccepted ft arr) :
    write_samples ⟨some ft, offset⟩ arr n =
      ⟨⟨some { ft with clips := ft.clips +
            (match convertSamples arr.data with | some r => r.2 | none => 0) },
          offset + (if n > 0 then divLong n (wrapSigned 64 ft.channels) else 0)⟩,
        [.write (canonicalValues arr.data) arr.data.ntot],
        if n ≠ arr.data.ntot then some .writeError else none⟩ := by
  unfold write_samples
  simp only [hmode, hkind, hshape, ne_eq, not_true_eq_false, if_false]
  cases hd : arr.data with
  | other k => rw [hd] at hkind; simp [YData.nbits] at hkind
  | chars inp => simp [YData.integer, YData.nbits, SOX_SAMPLE_PRECISION, convertSamples, finishWrite, canonicalValues, YData.ntot]
  | shorts inp => simp [YData.integer, YData.nbits, SOX_SAMPLE_PRECISION, convertSamples, finishWrite, canonicalValues, YData.ntot]
  | ints inp =>
    simp [YData.integer, YData.nbits, SOX_SAMPLE_PRECISION, convertSamples, finishWrite,
      canonicalValues, YData.ntot, rawSamples]
    cases ft
    simp_all
  | longs inp => simp [YData.integer, YData.nbits, SOX_SAMPLE_PRECISION, convertSamples, finishWrite, canonicalValues, YData.ntot]
  | floats inp => simp [YData.integer, YData.nbits, SOX_SAMPLE_PRECISION, convertSamples, finishWrite, canonicalValues, YData.ntot, (encodeFloats_eq inp).1]
  | doubles inp => simp [YData.integer, YData.nbits, SOX_SAMPLE_PRECISION, convertSamples, finishWrite, canonicalValues, YData.ntot, (encodeFloats_eq inp).1]

/-! ## Writing: bookkeeping -/

/-- C13: on a session open for writing with `c` channels, a write of a
well-formed array of a supported element type and accepted shape, holding `T`
elements, hands exactly `T` canonical values to the backend, one per element
and in order, with `T = c * (T div c)` and `c >= 1`; for the answer `n` of the
backend the offset grows by `n div c`, by 0 when `n <= 0`; and the call raises
the write error exactly when `n` is not `T`, and no error otherwise. -/
theorem write_bookkeeping (ft : sox_format_t) (offset : Int) (arr : YArray) (n : Int)
    (hmode : ft.mode = 'w') (hcu : ft.channels < 2 ^ 32) (hkind : arr.data.nbits ≠ 0)
    (hshape : shapeAccepted ft arr) (hwf : arr.wellFormed) :
    (write_samples ⟨some ft, offset⟩ arr n).calls
      = [.write (canonicalValues arr.data) arr.data.ntot] ∧
    ((canonicalValues arr.data).length : Int) = arr.data.ntot ∧
    1 ≤ ft.channels ∧
    arr.data.ntot = ft.channels * (arr.data.ntot / ft.channels) ∧
    (write_samples ⟨some ft, offset⟩ arr n).obj.offset
      = offset + (if n ≤ 0 then 0 else n / ft.channels) ∧
    ((write_samples ⟨some ft, offset⟩ arr n).error = some .writeError ↔ n ≠ arr.data.ntot) ∧
    ((write_samples ⟨some ft, offset⟩ arr n).error = none ↔ n = arr.data.ntot) := by
  have hcw := channels_as_long ft hcu
  obtain ⟨hr0, hscalar, hdims⟩ := hwf
  have hs : ((arr.rank = 1 ∨ arr.rank = 2) ∧ arr.dim1 = wrapSigned 64 ft.channels)
      ∨ (wrapSigned 64 ft.channels = 1 ∧ arr.rank ≤ 1) := hshape
  rw [hcw] at hs
  have hc1 : (1 : Int) ≤ ft.channels := by
    rcases hs with ⟨hr, hd⟩ | ⟨h1, _⟩
    · have := (hdims (by omega)).1
      omega
    · omega
  have hdvd : (ft.channels : Int) ∣ arr.data.ntot := by
    rcases hs with ⟨hr, hd⟩ | ⟨h1, _⟩
    · rw [← hd]; exact (hdims (by omega)).2
    · rw [h1]; exact one_dvd _
  rw [write_samples_open ft offset arr n hmode hkind hshape, hcw]
  refine ⟨rfl, canonicalValues_length _ hkind, by exact_mod_cast hc1,
    (Int.mul_ediv_cancel' hdvd).symm, ?_, ?_, ?_⟩
  · show offset + (if n > 0 then divLong n ft.channels else 0) = _
    by_cases hn : n ≤ 0
    · rw [if_pos hn, if_neg (by omega)]
    · rw [if_neg hn, if_pos (by omega)]
      unfold divLong
      rw [Int.tdiv_eq_ediv (by omega) (by omega)]
  · show (if n ≠ arr.data.ntot then some YError.writeError else none) = some .writeError ↔ _
    by_cases hn : n = arr.data.ntot <;> simp [hn]
  · show (if n ≠ arr.data.ntot then some YError.writeError else none) = none ↔ _
    by_cases hn : n = arr.data.ntot <;> simp [hn]

/-- C13, on a stereo stream at offset 5 and a 2-by-3 array of 64-bit integers:
the six high words are handed to the backend and, the backend accepting all
six, the offset grows by 3 and no error is raised. -/
theorem write_bookkeeping_witness :
    (write_samples ⟨some ⟨'w', 2, 0, 0⟩, 5⟩
        ⟨2, 2, .longs [4294967296, -1, 0, 8589934592, 12884901888, 5]⟩ 6).calls
      = [.write (canonicalValues (.longs [4294967296, -1, 0, 8589934592, 12884901888, 5]))
          (YData.longs [4294967296, -1, 0, 8589934592, 12884901888, 5]).ntot] ∧
    canonicalValues (.longs [4294967296, -1, 0, 8589934592, 12884901888, 5])
      = [1, -1, 0, 2, 3, 0] ∧
    (write_samples ⟨some ⟨'w', 2, 0, 0⟩, 5⟩
        ⟨2, 2, .longs [4294967296, -1, 0, 8589934592, 12884901888, 5]⟩ 6).obj.offset
      = 5 + (if (6 : Int) ≤ 0 then 0 else 6 / ((2 : Nat) : Int)) ∧
    (write_samples ⟨some ⟨'w', 2, 0, 0⟩, 5⟩
        ⟨2, 2, .longs [4294967296, -1, 0, 8589934592, 12884901888, 5]⟩ 6).error = none :=
  ⟨(write_bookkeeping ⟨'w', 2, 0, 0⟩ 5
      ⟨2, 2, .longs [4294967296, -1, 0, 8589934592, 12884901888, 5]⟩ 6 rfl (by decide)
      (by decide) (by decide) (by decide)).1,
   by decide,
   (write_bookkeeping ⟨'w', 2, 0, 0⟩ 5
      ⟨2, 2, .longs [4294967296, -1, 0, 8589934592, 12884901888, 5]⟩ 6 rfl (by decide)
      (by decide) (by decide) (by decide)).2.2.2.2.1,
   (write_bookkeeping ⟨'w', 2, 0, 0⟩ 5
      ⟨2, 2, .longs [4294967296, -1, 0, 8589934592, 12884901888, 5]⟩ 6 rfl (by decide)
      (by decide) (by decide) (by decide)).2.2.2.2.2.2.mpr (by decide)⟩

/-- The range of a 64-bit wrap. -/
theorem wrapSigned_64_range (x : Int) : -2 ^ 63 ≤ wrapSigned 64 x ∧ wrapSigned 64 x < 2 ^ 63 := by
  unfold wrapSigned
  norm_num
  split_ifs <;> omega

/-- A value in the range of a `long` is its own 64-bit wrap. -/
theorem wrapSigned_64_of_long (x : Int) (h0 : -2 ^ 63 ≤ x) (h1 : x < 2 ^ 63) :
    wrapSigned 64 x = x := by
  unfold wrapSigned
  norm_num at h0 h1 ⊢
  split_ifs <;> omega

/-- An invalid-argument error of `read_samples` is raised before the backend
is called and leaves the session as it was. -/
theorem read_samples_invalid (obj : ysox_t) (samples n : Int) (buf : List Int) (e : YError)
    (he : (read_samples obj samples n buf).error = some e) (hinv : e.isInvalidArgument = true) :
    (read_samples obj samples n buf).calls = [] ∧ (read_samples obj samples n buf).obj = obj := by
  unfold read_samples at he ⊢
  cases hf : obj.format with
  | none => simp
  | some ft =>
    rw [hf] at he
    simp only at he ⊢
    split_ifs at he ⊢ <;> first
      | exact ⟨rfl, rfl⟩
      | (simp at he; subst he; simp [YError.isInvalidArgument] at hinv)

/-- With a nonnegative count, `read_samples` raises no invalid-argument
error. -/
theorem read_samples_no_invalid (obj : ysox_t) (samples n : Int) (buf : List Int) (e : YError)
    (hs : 0 ≤ samples) (he : (read_samples obj samples n buf).error = some e) :
    e.isInvalidArgument = false := by
  unfold read_samples at he
  cases hf : obj.format with
  | none => rw [hf] at he; simp at he; subst he; rfl
  | some ft =>
    rw [hf] at he
    simp only at he
    split_ifs at he <;> first
      | omega
      | (simp at he; subst he; rfl)

/-- An invalid-argument error of `seek_to` is raised before the backend is
called and leaves the session as it was. -/
theorem seek_to_invalid (obj : ysox_t) (target : Int) (seekOk : Bool) (e : YError)
    (he : (seek_to obj target seekOk).error = some e) (hinv : e.isInvalidArgument = true) :
    (seek_to obj target seekOk).calls = [] ∧ (seek_to obj target seekOk).obj = obj := by
  unfold seek_to at he ⊢
  cases hf : obj.format with
  | none => simp
  | some ft =>
    rw [hf] at he
    simp only at he ⊢
    split_ifs at he ⊢ <;> first
      | exact ⟨rfl, rfl⟩
      | (simp at he; subst he; simp [YError.isInvalidArgument] at hinv)

/-- The only error of the end of `write_samples` is the write error. -/
theorem finishWrite_error (ft : sox_format_t) (offset : Int) (buf : List Int) (ntot n : Int)
    (e : YError) (he : (finishWrite ft offset buf ntot n).error = some e) :
    e = .writeError := by
  unfold finishWrite at he
  simp only at he
  split_ifs at he
  exact (Option.some.inj he).symm

/-- An invalid-argument error of `write_samples` is raised before the backend
is called and leaves the session as it was. -/
theorem write_samples_invalid (obj : ysox_t) (arr : YArray) (n : Int) (e : YError)
    (he : (write_samples obj arr n).error = some e) (hinv : e.isInvalidArgument = true) :
    (write_samples obj arr n).calls = [] ∧ (write_samples obj arr n).obj = obj := by
  unfold write_samples at he ⊢
  cases hf : obj.format with
  | none => exact ⟨rfl, rfl⟩
  | some ft =>
    rw [hf] at he
    simp only at he ⊢
    by_cases h1 : ft.mode ≠ 'w'
    · rw [if_pos h1]; exact ⟨rfl, rfl⟩
    · rw [if_neg h1] at he ⊢
      by_cases h2 : arr.data.nbits = 0
      · rw [if_pos h2]; exact ⟨rfl, rfl⟩
      · rw [if_neg h2] at he ⊢
        by_cases h3 : ¬shapeAccepted ft arr
        · rw [if_pos h3]; exact ⟨rfl, rfl⟩
        · rw [if_neg h3] at he ⊢
          by_cases h4 : ¬arr.data.integer ∨ arr.data.nbits ≠ SOX_SAMPLE_PRECISION
          · rw [if_pos h4] at he ⊢
            cases hc : convertSamples arr.data with
            | none => exact ⟨rfl, rfl⟩
            | some r =>
              rw [hc] at he
              have := finishWrite_error _ _ _ _ _ _ he
              rw [this] at hinv
              exact absurd hinv (by decide)
          · rw [if_neg h4] at he
            have := finishWrite_error _ _ _ _ _ _ he
            rw [this] at hinv
            exact absurd hinv (by decide)

/-- The accepted case of a range `min:max:step`: the resolved bounds satisfy
`1 <= imin <= imax <= ntot`, and the selection is the frames from `imin - 1`,
`imax - imin + 1` of them. -/
theorem select_minmax (current ntot : Int) (minDflt maxDflt : Bool) (min max step : Int) :
    selectFrames current ntot (.range (.minmax minDflt maxDflt) min max step) =
      if step ≠ 1 then .error .unsupportedStride
      else if (if (if minDflt then addLong current 1 else min) ≤ 0
            then addLong (if minDflt then addLong current 1 else min) ntot
            else (if minDflt then addLong current 1 else min))
          > (if (if maxDflt then ntot else max) ≤ 0
            then addLong (if maxDflt then ntot else max) ntot
            else (if maxDflt then ntot else max))
          ∨ (if (if minDflt then addLong current 1 else min) ≤ 0
            then addLong (if minDflt then addLong current 1 else min) ntot
            else (if minDflt then addLong current 1 else min)) ≤ 0
          ∨ (if (if maxDflt then ntot else max) ≤ 0
            then addLong (if maxDflt then ntot else max) ntot
            else (if maxDflt then ntot else max)) > ntot
        then .error .invalidRange
      else .frames
        (subLong (if (if minDflt then addLong current 1 else min) ≤ 0
            then addLong (if minDflt then addLong current 1 else min) ntot
            else (if minDflt then addLong current 1 else min)) 1)
        (addLong (subLong
          (if (if maxDflt then ntot else max) ≤ 0
            then addLong (if maxDflt then ntot else max) ntot
            else (if maxDflt then ntot else max))
          (if (if minDflt then addLong current 1 else min) ≤ 0
            then addLong (if minDflt then addLong current 1 else min) ntot
            else (if minDflt then addLong current 1 else min))) 1) := by
  rfl

/-- Frames selected away from the current offset are at least zero in number
when the stream has a number of frames that fits a `long`. -/
theorem selectFrames_samples (current ntot : Int) (arg : YArg) (offset samples : Int)
    (h : selectFrames current ntot arg = .frames offset samples) (hne : offset ≠ current)
    (hn0 : 0 ≤ ntot) (hn1 : ntot < 2 ^ 63) : 0 ≤ samples := by
  by_cases hmm : ∃ minDflt maxDflt min max step,
      arg = .range (.minmax minDflt maxDflt) min max step
  · obtain ⟨minDflt, maxDflt, min, max, step, rfl⟩ := hmm
    rw [select_minmax] at h
    generalize (if (if minDflt = true then addLong current 1 else min) ≤ 0
      then addLong (if minDflt = true then addLong current 1 else min) ntot
      else (if minDflt = true then addLong current 1 else min)) = a at h
    generalize (if (if maxDflt = true then ntot else max) ≤ 0
      then addLong (if maxDflt = true then ntot else max) ntot
      else (if maxDflt = true then ntot else max)) = b at h
    split_ifs at h with h1 h2
    simp only [Selection.frames.injEq] at h
    have h3 : subLong b a = b - a := by
      unfold subLong
      exact wrapSigned_64_of_long _ (by norm_num at hn1 ⊢; omega) (by norm_num at hn1 ⊢; omega)
    have h4 : addLong (b - a) 1 = b - a + 1 := by
      unfold addLong
      exact wrapSigned_64_of_long _ (by norm_num at hn1 ⊢; omega) (by norm_num at hn1 ⊢; omega)
    rw [h3, h4] at h
    omega
  · unfold selectFrames at h
    cases hs : scalarIndex arg with
    | some i =>
      rw [hs] at h
      simp only [Selection.frames.injEq] at h
      omega
    | none =>
      rw [hs] at h
      simp only at h
      cases arg with
      | array arr => simp at h
      | void =>
        simp only [Selection.frames.injEq] at h
        exact absurd h.1.symm hne
      | other => simp at h
      | range kind min max step =>
        cases kind with
        | mmmark => simp at h
        | pseudo => simp at h
        | rubber => simp at h
        | nuller => simp at h
        | rubber1 =>
          simp only [Selection.frames.injEq] at h
          omega
        | minmax minDflt maxDflt => exact absurd ⟨minDflt, maxDflt, min, max, step, rfl⟩ hmm

/-- The number of frames `ntot` of a stream whose length fits a `long`. -/
theorem ntot_eq (ft : sox_format_t) (hL : ft.length < 2 ^ 63) :
    wrapSigned 64 ((ft.length / ft.channels : Nat) : Int) = ((ft.length / ft.channels : Nat) : Int) := by
  apply wrapSigned_64_of_range _ (Int.natCast_nonneg _)
  have : ft.length / ft.channels ≤ ft.length := Nat.div_le_self _ _
  have h2 : ft.length / ft.channels < 2 ^ 63 := lt_of_le_of_lt this hL
  exact_mod_cast h2

/-- An invalid-argument error of `ysox_eval` is raised before the backend is
called and leaves the session as it was. -/
theorem ysox_eval_invalid (obj : ysox_t) (argc : Int) (arg : YArg) (seekOk : Bool) (n : Int)
    (buf : List Int) (e : YError) (hL : ∀ ft, obj.format = some ft → ft.length < 2 ^ 63)
    (he : (ysox_eval obj argc arg seekOk n buf).error = some e)
    (hinv : e.isInvalidArgument = true) :
    (ysox_eval obj argc arg seekOk n buf).calls = [] ∧
    (ysox_eval obj argc arg seekOk n buf).obj = obj := by
  unfold ysox_eval at he ⊢
  by_cases h0 : argc ≠ 1
  · rw [if_pos h0]; exact ⟨rfl, rfl⟩
  · rw [if_neg h0] at he ⊢
    cases hf : obj.format with
    | none => exact ⟨rfl, rfl⟩
    | some ft =>
      rw [hf] at he
      simp only at he ⊢
      by_cases hr : ft.mode = 'r'
      · rw [if_pos hr] at he ⊢
        have hnt := ntot_eq ft (hL ft hf)
        cases hsel : selectFrames obj.offset
            (wrapSigned 64 ((ft.length / ft.channels : Nat) : Int)) arg with
        | error e' => exact ⟨rfl, rfl⟩
        | nil => exact ⟨rfl, rfl⟩
        | frames offset samples =>
          rw [hsel] at he
          simp only at he ⊢
          by_cases hne : offset ≠ obj.offset
          · rw [if_pos hne] at he ⊢
            cases hse : (seek_to obj offset seekOk).error with
            | some e' =>
              rw [hse] at he
              simp only at he ⊢
              have hee : e' = e := Option.some.inj he
              rw [hee] at hse
              exact seek_to_invalid obj offset seekOk e hse hinv
            | none =>
              rw [hse] at he
              simp only at he
              have hs0 : 0 ≤ samples :=
                selectFrames_samples _ _ _ _ _ hsel hne (by rw [hnt]; exact Int.natCast_nonneg _)
                  (wrapSigned_64_range _).2
              have := read_samples_no_invalid _ samples n buf e hs0 he
              rw [this] at hinv
              exact absurd hinv (by decide)
          · rw [if_neg hne] at he ⊢
            exact read_samples_invalid obj samples n buf e he hinv
      · rw [if_neg hr] at he ⊢
        by_cases hw : ft.mode = 'w'
        · rw [if_pos hw] at he ⊢
          cases arg with
          | array arr =>
            simp only at he ⊢
            exact write_samples_invalid obj arr n e he hinv
          | void => exact ⟨rfl, rfl⟩
          | range kind min max step => exact ⟨rfl, rfl⟩
          | other => exact ⟨rfl, rfl⟩
        · rw [if_neg hw]; exact ⟨rfl, rfl⟩

/-! ## Errors and the closed state -/

/-- C14: whenever `read_samples`, `seek_to`, `write_samples` or a stream used
as a function (`ysox_eval`, on a stream whose length fits a `long`) fails with
an invalid-argument error (negative count, negative or overflowing target,
stride other than 1, invalid range, malformed argument, unsupported element
type, wrong shape), no backend call was made during the call and the session
is as it was before, its offset and its clip count included. -/
theorem invalid_argument_before_any_effect :
    (∀ (obj : ysox_t) (samples n : Int) (buf : List Int) (e : YError),
      (read_samples obj samples n buf).error = some e → e.isInvalidArgument = true →
      (read_samples obj samples n buf).calls = [] ∧ (read_samples obj samples n buf).obj = obj) ∧
    (∀ (obj : ysox_t) (target : Int) (seekOk : Bool) (e : YError),
      (seek_to obj target seekOk).error = some e → e.isInvalidArgument = true →
      (seek_to obj target seekOk).calls = [] ∧ (seek_to obj target seekOk).obj = obj) ∧
    (∀ (obj : ysox_t) (arr : YArray) (n : Int) (e : YError),
      (write_samples obj arr n).error = some e → e.isInvalidArgument = true →
      (write_samples obj arr n).calls = [] ∧ (write_samples obj arr n).obj = obj) ∧
    (∀ (obj : ysox_t) (argc : Int) (arg : YArg) (seekOk : Bool) (n : Int) (buf : List Int)
      (e : YError), (∀ ft, obj.format = some ft → ft.length < 2 ^ 63) →
      (ysox_eval obj argc arg seekOk n buf).error = some e → e.isInvalidArgument = true →
      (ysox_eval obj argc arg seekOk n buf).calls = [] ∧
      (ysox_eval obj argc arg seekOk n buf).obj = obj) :=
  ⟨read_samples_invalid, seek_to_invalid, write_samples_invalid,
    fun obj argc arg seekOk n buf e hL he hinv =>
      ysox_eval_invalid obj argc arg seekOk n buf e hL he hinv⟩

/-- C14, on a stereo stream open for reading at offset 3 with 7 clips counted:
a read of -1 frames, a seek to -4, and the ranges `1:9:2` (stride 2) and `5:2`
(inverted); and on a mono stream open for writing, a 3-by-2 array (wrong
shape). -/
theorem invalid_argument_before_any_effect_witness :
    ((read_samples ⟨some ⟨'r', 2, 20, 7⟩, 3⟩ (-1) 0 []).calls = [] ∧
      (read_samples ⟨some ⟨'r', 2, 20, 7⟩, 3⟩ (-1) 0 []).obj = ⟨some ⟨'r', 2, 20, 7⟩, 3⟩) ∧
    ((seek_to ⟨some ⟨'r', 2, 20, 7⟩, 3⟩ (-4) true).calls = [] ∧
      (seek_to ⟨some ⟨'r', 2, 20, 7⟩, 3⟩ (-4) true).obj = ⟨some ⟨'r', 2, 20, 7⟩, 3⟩) ∧
    ((write_samples ⟨some ⟨'w', 1, 0, 7⟩, 3⟩ ⟨2, 3, .ints [1, 2, 3, 4, 5, 6]⟩ 6).calls = [] ∧
      (write_samples ⟨some ⟨'w', 1, 0, 7⟩, 3⟩ ⟨2, 3, .ints [1, 2, 3, 4, 5, 6]⟩ 6).obj
        = ⟨some ⟨'w', 1, 0, 7⟩, 3⟩) ∧
    ((ysox_eval ⟨some ⟨'r', 2, 20, 7⟩, 3⟩ 1 (.range (.minmax false false) 1 9 2) true 0 []).calls
        = [] ∧
      (ysox_eval ⟨some ⟨'r', 2, 20, 7⟩, 3⟩ 1 (.range (.minmax false false) 1 9 2) true 0 []).obj
        = ⟨some ⟨'r', 2, 20, 7⟩, 3⟩) ∧
    ((ysox_eval ⟨some ⟨'r', 2, 20, 7⟩, 3⟩ 1 (.range (.minmax false false) 5 2 1) true 0 []).calls
        = [] ∧
      (ysox_eval ⟨some ⟨'r', 2, 20, 7⟩, 3⟩ 1 (.range (.minmax false false) 5 2 1) true 0 []).obj
        = ⟨some ⟨'r', 2, 20, 7⟩, 3⟩) :=
  ⟨invalid_argument_before_any_effect.1 ⟨some ⟨'r', 2, 20, 7⟩, 3⟩ (-1) 0 []
      .invalidNumberOfSamples (by decide) rfl,
   invalid_argument_before_any_effect.2.1 ⟨some ⟨'r', 2, 20, 7⟩, 3⟩ (-4) true
      .offsetNegative (by decide) rfl,
   invalid_argument_before_any_effect.2.2.1 ⟨some ⟨'w', 1, 0, 7⟩, 3⟩
      ⟨2, 3, .ints [1, 2, 3, 4, 5, 6]⟩ 6 .badShape (by decide) rfl,
   invalid_argument_before_any_effect.2.2.2 ⟨some ⟨'r', 2, 20, 7⟩, 3⟩ 1
      (.range (.minmax false false) 1 9 2) true 0 [] .unsupportedStride
      (by intro ft h; cases h; decide) (by decide) rfl,
   invalid_argument_before_any_effect.2.2.2 ⟨some ⟨'r', 2, 20, 7⟩, 3⟩ 1
      (.range (.minmax false false) 5 2 1) true 0 [] .invalidRange
      (by intro ft h; cases h; decide) (by decide) rfl⟩

/-- C15: closing an open session calls `sox_close`, releases the handle and
sets the offset to 0; closing a closed session makes no call and changes
nothing, so that a close after a close changes nothing; and on a closed
session every read, seek, write and use as a function raises an error, makes
no backend call and leaves the session as it was, closed and, after a close,
with offset 0. -/
theorem closed_is_terminal :
    (∀ (ft : sox_format_t) (offset : Int),
      Y_sox_close ⟨some ft, offset⟩ = ⟨⟨none, 0⟩, [.close], none⟩) ∧
    (∀ offset : Int, Y_sox_close ⟨none, offset⟩ = ⟨⟨none, offset⟩, [], none⟩) ∧
    (∀ obj : ysox_t, (Y_sox_close obj).obj.format = none ∧
      Y_sox_close (Y_sox_close obj).obj = ⟨(Y_sox_close obj).obj, [], none⟩) ∧
    (∀ (offset samples n : Int) (buf : List Int),
      read_samples ⟨none, offset⟩ samples n buf
        = ⟨⟨none, offset⟩, [], some .notOpenForReading, false, .nil⟩) ∧
    (∀ (offset target : Int) (seekOk : Bool),
      seek_to ⟨none, offset⟩ target seekOk = ⟨⟨none, offset⟩, [], some .notOpenForReading⟩) ∧
    (∀ (offset : Int) (arr : YArray) (n : Int),
      write_samples ⟨none, offset⟩ arr n = ⟨⟨none, offset⟩, [], some .notOpenForWriting⟩) ∧
    (∀ (offset argc : Int) (arg : YArg) (seekOk : Bool) (n : Int) (buf : List Int),
      (ysox_eval ⟨none, offset⟩ argc arg seekOk n buf).error ≠ none ∧
      (ysox_eval ⟨none, offset⟩ argc arg seekOk n buf).calls = [] ∧
      (ysox_eval ⟨none, offset⟩ argc arg seekOk n buf).obj = ⟨none, offset⟩) := by
  refine ⟨fun _ _ => rfl, fun _ => rfl, ?_, fun _ _ _ _ => rfl, fun _ _ _ => rfl,
    fun _ _ _ => rfl, ?_⟩
  · intro obj
    cases obj with
    | mk format offset =>
      cases format with
      | none => exact ⟨rfl, rfl⟩
      | some ft => exact ⟨rfl, rfl⟩
  · intro offset argc arg seekOk n buf
    unfold ysox_eval
    by_cases h : argc ≠ 1
    · rw [if_pos h]; exact ⟨by simp, rfl, rfl⟩
    · rw [if_neg h]; exact ⟨by simp, rfl, rfl⟩

/-- The read branch of `ysox_eval` on a stream open for reading, called with
one argument. -/
theorem ysox_eval_read (ft : sox_format_t) (o : Int) (arg : YArg) (seekOk : Bool) (n : Int)
    (buf : List Int) (hmode : ft.mode = 'r') (hL : ft.length < 2 ^ 63) :
    ysox_eval ⟨some ft, o⟩ 1 arg seekOk n buf =
      match selectFrames o (frameCount ft) arg with
      | .error e => ⟨⟨some ft, o⟩, [], some e, false, .nil⟩
      | .nil => ⟨⟨some ft, o⟩, [], none, false, .nil⟩
      | .frames offset samples =>
        if offset ≠ o then
          match (seek_to ⟨some ft, o⟩ offset seekOk).error with
          | some e => ⟨(seek_to ⟨some ft, o⟩ offset seekOk).obj,
              (seek_to ⟨some ft, o⟩ offset seekOk).calls, some e, false, .nil⟩
          | none =>
            { read_samples (seek_to ⟨some ft, o⟩ offset seekOk).obj samples n buf with
              calls := (seek_to ⟨some ft, o⟩ offset seekOk).calls
                ++ (read_samples (seek_to ⟨some ft, o⟩ offset seekOk).obj samples n buf).calls }
        else read_samples ⟨some ft, o⟩ samples n buf := by
  unfold ysox_eval frameCount
  simp only [hmode, ntot_eq ft hL, ne_eq, not_true_eq_false, if_false, if_true]

/-- The frames of a stream fit in its length. -/
theorem frameCount_mul_le (ft : sox_format_t) :
    frameCount ft * ft.channels ≤ ft.length := by
  unfold frameCount
  have := Nat.div_mul_le_self ft.length ft.channels
  exact_mod_cast this

/-- A seek to a frame of the stream, away from the current offset: the
backend is asked to reposition to the first sample of the frame. -/
theorem seek_to_frame (ft : sox_format_t) (o target : Int) (seekOk : Bool)
    (hmode : ft.mode = 'r') (hcu : ft.channels < 2 ^ 32) (hL : ft.length < 2 ^ 63)
    (h0 : 0 ≤ target) (h1 : target ≤ frameCount ft) (hne : target ≠ o) :
    seek_to ⟨some ft, o⟩ target seekOk =
      if seekOk then ⟨⟨some ft, target⟩, [.seek (target * ft.channels)], none⟩
      else ⟨⟨some ft, o⟩, [.seek (target * ft.channels)], some .seekFailed⟩ := by
  have hc0 : (0 : Int) ≤ ft.channels := Int.natCast_nonneg _
  have hP0 : 0 ≤ target * ft.channels := mul_nonneg h0 hc0
  have hPL : target * ft.channels ≤ ft.length :=
    le_trans (mul_le_mul_of_nonneg_right h1 hc0) (frameCount_mul_le ft)
  have hLi : (ft.length : Int) < 2 ^ 63 := by exact_mod_cast hL
  have hPw : mulLong target ft.channels = target * ft.channels := by
    unfold mulLong; exact wrapSigned_64_of_range _ hP0 (lt_of_le_of_lt hPL hLi)
  have hLw : wrapSigned 64 ft.length = ft.length :=
    wrapSigned_64_of_range _ (Int.natCast_nonneg _) hLi
  rw [seek_to_open_read ft o target seekOk hmode, channels_as_long ft hcu, hLw, hPw]
  have hn1 : ¬ target < 0 := by omega
  have hn2 : ¬ target * (ft.channels : Int) < 0 := by omega
  have hn3 : ¬ target * (ft.channels : Int) > ft.length := by omega
  simp only [hn1, hn2, hn3, if_false, ne_eq, hne.symm, not_false_eq_true, if_true, hPw]

/-- The number of frames of a stream whose length fits a `long`. -/
theorem frameCount_range (ft : sox_format_t) (hL : ft.length < 2 ^ 63) :
    0 ≤ frameCount ft ∧ frameCount ft < 2 ^ 63 := by
  unfold frameCount
  refine ⟨Int.natCast_nonneg _, ?_⟩
  have : ft.length / ft.channels ≤ ft.length := Nat.div_le_self _ _
  have h2 : ft.length / ft.channels < 2 ^ 63 := lt_of_le_of_lt this hL
  exact_mod_cast h2

/-- The code's resolution of a bound is the one of the specification. -/
theorem resolve_eq (N x : Int) (hN0 : 0 ≤ N) (hN1 : N < 2 ^ 63) (hx0 : -2 ^ 63 ≤ x)
    (hx1 : x < 2 ^ 63) : (if x ≤ 0 then addLong x N else x) = resolveBound N x := by
  unfold resolveBound addLong
  split_ifs with h
  · exact wrapSigned_64_of_long _ (by omega) (by omega)
  · rfl

/-- The selection of a range `min:max:step` in the terms of the
specification. -/
theorem select_range (ft : sox_format_t) (o : Int) (minDflt maxDflt : Bool) (lo hi stride : Int)
    (hL : ft.length < 2 ^ 63) (ho0 : 0 ≤ o) (ho1 : o < 2 ^ 63 - 1)
    (hlo0 : -2 ^ 63 ≤ lo) (hlo1 : lo < 2 ^ 63) (hhi0 : -2 ^ 63 ≤ hi) (hhi1 : hi < 2 ^ 63) :
    selectFrames o (frameCount ft) (.range (.minmax minDflt maxDflt) lo hi stride) =
      if stride ≠ 1 then .error .unsupportedStride
      else if rangeLow ft o minDflt lo > rangeHigh ft maxDflt hi ∨ rangeLow ft o minDflt lo ≤ 0
          ∨ rangeHigh ft maxDflt hi > frameCount ft then .error .invalidRange
      else .frames (rangeLow ft o minDflt lo - 1)
        (rangeHigh ft maxDflt hi - rangeLow ft o minDflt lo + 1) := by
  obtain ⟨hN0, hN1⟩ := frameCount_range ft hL
  have ha : addLong o 1 = o + 1 := by
    unfold addLong
    exact wrapSigned_64_of_long _ (by omega) (by omega)
  have hmin : (if (if minDflt = true then addLong o 1 else lo) ≤ 0
      then addLong (if minDflt = true then addLong o 1 else lo) (frameCount ft)
      else (if minDflt = true then addLong o 1 else lo)) = rangeLow ft o minDflt lo := by
    rw [ha]
    unfold rangeLow
    apply resolve_eq _ _ hN0 hN1 <;> split_ifs <;> omega
  have hmax : (if (if maxDflt = true then frameCount ft else hi) ≤ 0
      then addLong (if maxDflt = true then frameCount ft else hi) (frameCount ft)
      else (if maxDflt = true then frameCount ft else hi)) = rangeHigh ft maxDflt hi := by
    unfold rangeHigh
    apply resolve_eq _ _ hN0 hN1 <;> split_ifs <;> omega
  rw [select_minmax, hmin, hmax]
  by_cases hs : stride ≠ 1
  · rw [if_pos hs, if_pos hs]
  · rw [if_neg hs, if_neg hs]
    by_cases hr : rangeLow ft o minDflt lo > rangeHigh ft maxDflt hi ∨ rangeLow ft o minDflt lo ≤ 0
        ∨ rangeHigh ft maxDflt hi > frameCount ft
    · rw [if_pos hr, if_pos hr]
    · rw [if_neg hr, if_neg hr]
      have h1 : subLong (rangeLow ft o minDflt lo) 1 = rangeLow ft o minDflt lo - 1 := by
        unfold subLong
        exact wrapSigned_64_of_long _ (by omega) (by omega)
      have h2 : subLong (rangeHigh ft maxDflt hi) (rangeLow ft o minDflt lo)
          = rangeHigh ft maxDflt hi - rangeLow ft o minDflt lo := by
        unfold subLong
        exact wrapSigned_64_of_long _ (by omega) (by omega)
      have h3 : addLong (rangeHigh ft maxDflt hi - rangeLow ft o minDflt lo) 1
          = rangeHigh ft maxDflt hi - rangeLow ft o minDflt lo + 1 := by
        unfold addLong
        exact wrapSigned_64_of_long _ (by omega) (by omega)
      rw [h1, h2, h3]

/-! ## Reading by range and by index -/

/-- C16: on a stream open for reading with `ntot` frames, at offset `o`, a
range `lo:hi:stride` (either bound possibly left out) resolves to `lo'` and
`hi'` as the specification says. A stride other than 1 is rejected before any
effect; with stride 1 the call raises "invalid range" exactly when
`lo' > hi'` or `lo' <= 0` or `hi' > ntot`; and when the range is accepted the
frames selected are the `hi' - lo' + 1 >= 1` frames from offset `lo' - 1`, all
within `[0, ntot)`: unless the backend refuses the reposition, the call is the
read of `hi' - lo' + 1` frames on the session positioned at `lo' - 1`, after a
backend seek to the sample `(lo' - 1) * channels` when that is not the current
offset, and the read asks the backend for `channels * (hi' - lo' + 1)`
samples. -/
theorem range_read_resolution (ft : sox_format_t) (o : Int) (minDflt maxDflt : Bool)
    (lo hi stride : Int) (seekOk : Bool) (n : Int) (buf : List Int)
    (hmode : ft.mode = 'r') (hc : 1 ≤ ft.channels) (hcu : ft.channels < 2 ^ 32)
    (hL : ft.length < 2 ^ 63) (ho0 : 0 ≤ o) (ho1 : o < 2 ^ 63 - 1)
    (hlo0 : -2 ^ 63 ≤ lo) (hlo1 : lo < 2 ^ 63) (hhi0 : -2 ^ 63 ≤ hi) (hhi1 : hi < 2 ^ 63) :
    (stride ≠ 1 →
      ysox_eval ⟨some ft, o⟩ 1 (.range (.minmax minDflt maxDflt) lo hi stride) seekOk n buf
        = ⟨⟨some ft, o⟩, [], some .unsupportedStride, false, .nil⟩) ∧
    (stride = 1 →
      ((ysox_eval ⟨some ft, o⟩ 1 (.range (.minmax minDflt maxDflt) lo hi stride) seekOk n buf).error
          = some .invalidRange ↔
        (rangeLow ft o minDflt lo > rangeHigh ft maxDflt hi ∨ rangeLow ft o minDflt lo ≤ 0
          ∨ rangeHigh ft maxDflt hi > frameCount ft))) ∧
    (stride = 1 →
      ¬(rangeLow ft o minDflt lo > rangeHigh ft maxDflt hi ∨ rangeLow ft o minDflt lo ≤ 0
          ∨ rangeHigh ft maxDflt hi > frameCount ft) →
      selectFrames o (frameCount ft) (.range (.minmax minDflt maxDflt) lo hi stride)
        = .frames (rangeLow ft o minDflt lo - 1)
            (rangeHigh ft maxDflt hi - rangeLow ft o minDflt lo + 1) ∧
      0 ≤ rangeLow ft o minDflt lo - 1 ∧
      1 ≤ rangeHigh ft maxDflt hi - rangeLow ft o minDflt lo + 1 ∧
      (rangeLow ft o minDflt lo - 1) + (rangeHigh ft maxDflt hi - rangeLow ft o minDflt lo + 1)
        ≤ frameCount ft ∧
      (read_samples ⟨some ft, rangeLow ft o minDflt lo - 1⟩
          (rangeHigh ft maxDflt hi - rangeLow ft o minDflt lo + 1) n buf).calls
        = [.read (ft.channels * (rangeHigh ft maxDflt hi - rangeLow ft o minDflt lo + 1))] ∧
      (seekOk = true ∨ rangeLow ft o minDflt lo - 1 = o →
        ysox_eval ⟨some ft, o⟩ 1 (.range (.minmax minDflt maxDflt) lo hi stride) seekOk n buf
          = { read_samples ⟨some ft, rangeLow ft o minDflt lo - 1⟩
                (rangeHigh ft maxDflt hi - rangeLow ft o minDflt lo + 1) n buf with
              calls :=
                (if rangeLow ft o minDflt lo - 1 ≠ o
                  then [.seek ((rangeLow ft o minDflt lo - 1) * ft.channels)] else [])
                ++ [.read (ft.channels *
                    (rangeHigh ft maxDflt hi - rangeLow ft o minDflt lo + 1))] })) := by
  have hsel := select_range ft o minDflt maxDflt lo hi stride hL ho0 ho1 hlo0 hlo1 hhi0 hhi1
  have heval := ysox_eval_read ft o (.range (.minmax minDflt maxDflt) lo hi stride) seekOk n buf
    hmode hL
  obtain ⟨hN0, hN1⟩ := frameCount_range ft hL
  generalize rangeLow ft o minDflt lo = a at hsel ⊢
  generalize rangeHigh ft maxDflt hi = b at hsel ⊢
  refine ⟨?_, ?_, ?_⟩
  · intro hs
    rw [if_pos hs] at hsel
    rw [heval, hsel]
  · intro hs
    have hs' : ¬ stride ≠ 1 := by simp [hs]
    rw [if_neg hs'] at hsel
    by_cases hr : a > b ∨ a ≤ 0 ∨ b > frameCount ft
    · rw [if_pos hr] at hsel
      rw [heval, hsel]
      simp [hr]
    · rw [if_neg hr] at hsel
      rw [heval, hsel]
      simp only [hr, iff_false]
      intro herr
      by_cases hne : a - 1 ≠ o
      · rw [if_pos hne] at herr
        rw [seek_to_frame ft o (a - 1) seekOk hmode hcu hL (by omega) (by omega) hne] at herr
        cases seekOk with
        | false => simp at herr
        | true =>
          simp only [if_true] at herr
          have := read_samples_no_invalid _ _ n buf .invalidRange (by omega) herr
          exact absurd this (by decide)
      · rw [if_neg hne] at herr
        have := read_samples_no_invalid _ _ n buf .invalidRange (by omega) herr
        exact absurd this (by decide)
  · intro hs hr
    have hs' : ¬ stride ≠ 1 := by simp [hs]
    rw [if_neg hs', if_neg hr] at hsel
    have hc0 : (0 : Int) < ft.channels := by exact_mod_cast hc
    have hcalls : (read_samples ⟨some ft, a - 1⟩ (b - a + 1) n buf).calls
        = [.read (ft.channels * (b - a + 1))] := by
      have hmul : mulLong ft.channels (b - a + 1) = ft.channels * (b - a + 1) := by
        unfold mulLong
        apply wrapSigned_64_of_range _ (mul_nonneg (le_of_lt hc0) (by omega))
        have h1 : (ft.channels : Int) * (b - a + 1) ≤ ft.channels * frameCount ft :=
          mul_le_mul_of_nonneg_left (by omega) (le_of_lt hc0)
        have h2 := frameCount_mul_le ft
        have hLi : (ft.length : Int) < 2 ^ 63 := by exact_mod_cast hL
        rw [mul_comm] at h2
        omega
      unfold read_samples
      have hm1 : ¬ (b - a + 1 ≤ 0) := by omega
      simp only [hmode, channels_as_long ft hcu, hm1, hmul, ne_eq, not_true_eq_false, if_false]
      split_ifs <;> rfl
    refine ⟨hsel, by omega, by omega, by omega, hcalls, ?_⟩
    intro hok
    rw [heval, hsel]
    simp only
    by_cases hne : a - 1 ≠ o
    · rw [if_pos hne, if_pos hne]
      have hso : seekOk = true := by
        rcases hok with h | h
        · exact h
        · exact absurd h hne
      rw [seek_to_frame ft o (a - 1) seekOk hmode hcu hL (by omega) (by omega) hne, hso]
      simp only [if_true, hcalls]
    · rw [if_neg hne, if_neg hne]
      have hao : a - 1 = o := by
        by_contra h; exact hne h
      rw [hao] at hcalls ⊢
      cases hrd : read_samples ⟨some ft, o⟩ (b - a + 1) n buf with
      | mk obj calls error warning value =>
        rw [hrd] at hcalls
        simp only at hcalls
        rw [hcalls]
        rfl

/-- C16, on a mono stream of 10 frames at offset 0 and the range `3:5`: the
backend is asked to reposition to sample 2 and then for 3 samples. -/
theorem range_read_resolution_witness :
    selectFrames 0 (frameCount ⟨'r', 1, 10, 0⟩) (.range (.minmax false false) 3 5 1)
      = .frames (rangeLow ⟨'r', 1, 10, 0⟩ 0 false 3 - 1)
          (rangeHigh ⟨'r', 1, 10, 0⟩ false 5 - rangeLow ⟨'r', 1, 10, 0⟩ 0 false 3 + 1) ∧
    rangeLow ⟨'r', 1, 10, 0⟩ 0 false 3 = 3 ∧ rangeHigh ⟨'r', 1, 10, 0⟩ false 5 = 5 ∧
    (ysox_eval ⟨some ⟨'r', 1, 10, 0⟩, 0⟩ 1 (.range (.minmax false false) 3 5 1) true 3
        [30, 40, 50]).calls = [.seek 2, .read 3] ∧
    (ysox_eval ⟨some ⟨'r', 1, 10, 0⟩, 0⟩ 1 (.range (.minmax false false) 3 5 1) true 3
        [30, 40, 50]).value = .samples 1 3 [30, 40, 50] :=
  ⟨((range_read_resolution ⟨'r', 1, 10, 0⟩ 0 false false 3 5 1 true 3 [30, 40, 50] rfl
      (by decide) (by decide) (by decide) (by decide) (by decide) (by decide) (by decide)
      (by decide) (by decide)).2.2 rfl (by decide)).1,
   by decide, by decide, by decide, by decide⟩

/-- The selection of a scalar index: the index itself when it is positive, the
index plus the number of frames otherwise; one frame, with no test of the
resolved index against the number of frames. -/
theorem select_scalar (current ntot i : Int) (arg : YArg) (h : scalarIndex arg = some i) :
    selectFrames current ntot arg =
      .frames (subLong (if i ≤ 0 then addLong i ntot else i) 1) 1 := by
  unfold selectFrames
  simp only [h]

/-- C17, the code at the index 12 on a mono stream of 10 frames, open for
reading at offset 0, with a backend whose read delivers nothing at the end of
the stream: the index resolves outside 1..10 and is not rejected; the stream
is positioned at the end, sample offset 10, one frame is requested, and the
read returns nil with no error, the offset being 10. -/
theorem scalar_index_past_end_not_rejected :
    ysox_eval ⟨some ⟨'r', 1, 10, 0⟩, 0⟩ 1 (.array ⟨0, 0, .longs [12]⟩) true 0 [0]
      = ⟨⟨some ⟨'r', 1, 10, 0⟩, 10⟩, [.seek 10, .read 1], none, false, .nil⟩ ∧
    selectFrames 0 10 (.array ⟨0, 0, .longs [12]⟩) = .frames 11 1 := by
  decide

/-- A read of `m >= 1` frames by a session open for reading over a backend
that holds `F` whole frames and stands where the session does, at the frame
`o`: with `k = min m (F - o)`, the read raises no error, returns `k`
frames, nil when `k = 0`, and moves session and backend by `k` frames. -/
theorem readFrom_open (ft : sox_format_t) (b : Backend) (o F : Nat) (m : Int)
    (hmode : ft.mode = 'r') (hc : 1 ≤ ft.channels) (hcu : ft.channels < 2 ^ 32)
    (hlen : b.samples.length = ft.channels * F) (hpos : b.pos = ft.channels * o)
    (hm : 1 ≤ m) (hbuf : (ft.channels : Int) * m < 2 ^ 63) :
    (readFrom ⟨some ft, o⟩ b m).1.error = none ∧
    (readFrom ⟨some ft, o⟩ b m).1.frames = ((min m.toNat (F - o) : Nat) : Int) ∧
    (readFrom ⟨some ft, o⟩ b m).1.obj = ⟨some ft, ((o + min m.toNat (F - o) : Nat) : Int)⟩ ∧
    (min m.toNat (F - o) = 0 → (readFrom ⟨some ft, o⟩ b m).1.value = .nil) ∧
    (readFrom ⟨some ft, o⟩ b m).2 =
      ⟨b.samples, ft.channels * (o + min m.toNat (F - o))⟩ := by
  have hc0 : (0 : Int) < ft.channels := by exact_mod_cast hc
  obtain ⟨M, rfl⟩ : ∃ M : Nat, m = M := ⟨m.toNat, (Int.toNat_of_nonneg (by omega)).symm⟩
  have hM : 1 ≤ M := by exact_mod_cast hm
  have hlenv : mulLong (wrapSigned 64 ft.channels) (M : Int) = ((ft.channels * M : Nat) : Int) := by
    rw [channels_as_long ft hcu]
    unfold mulLong
    rw [wrapSigned_64_of_range _ (mul_nonneg (le_of_lt hc0) (by omega)) hbuf]
    push_cast; rfl
  have hbits : bitsOf 64 ((ft.channels * M : Nat) : Int) = ft.channels * M := by
    unfold bitsOf
    have h2 : ((ft.channels * M : Nat) : Int) < 2 ^ 64 := by
      have : ((ft.channels * M : Nat) : Int) < 2 ^ 63 := by push_cast; exact hbuf
      omega
    rw [Int.emod_eq_of_lt (Int.natCast_nonneg _) h2, Int.toNat_natCast]
  have hrd : (b.read ((ft.channels * M : Nat) : Int)).length
      = ft.channels * min M (F - o) := by
    unfold Backend.read
    rw [hbits, List.length_take, List.length_drop, hlen, hpos, ← Nat.mul_sub, Nat.mul_min_mul_left]
  simp only [Int.toNat_natCast]
  generalize hk : min M (F - o) = k at hrd ⊢
  have hkM : k ≤ M := by rw [← hk]; exact min_le_left _ _
  have hdiv : (((ft.channels * k : Nat) : Int)) / (ft.channels : Int) = (k : Int) := by
    push_cast
    exact Int.mul_ediv_cancel_left _ (ne_of_gt hc0)
  have hmain : readFrom ⟨some ft, o⟩ b (M : Int) =
      (read_samples ⟨some ft, o⟩ M ((ft.channels * k : Nat) : Int)
        (b.read ((ft.channels * M : Nat) : Int) ++
          List.replicate (ft.channels * M - ft.channels * k) 0),
       if (read_samples ⟨some ft, o⟩ M ((ft.channels * k : Nat) : Int)
        (b.read ((ft.channels * M : Nat) : Int) ++
          List.replicate (ft.channels * M - ft.channels * k) 0)).calls = [] then b
       else { b with pos := b.pos + ft.channels * k }) := by
    unfold readFrom
    simp only [hlenv, hbits, hrd]
  rw [hmain, read_samples_open ft o M _ _ hmode hc hcu hm (Int.natCast_nonneg _), hdiv]
  refine ⟨rfl, ?_, ?_, ?_, ?_⟩
  · unfold ReadOutcome.frames
    by_cases h1 : (k : Int) < M
    · by_cases h2 : (k : Int) = 0
      · simp only [if_pos h1, if_pos h2]; exact h2.symm
      · simp only [if_pos h1, if_neg h2]
    · have : (k : Int) = M := by omega
      simp only [if_neg h1]; exact this.symm
  · show (⟨some ft, (o : Int) + (k : Int)⟩ : ysox_t) = _
    push_cast; rfl
  · intro h0
    have h1 : ((k : Nat) : Int) < M := by omega
    have h2 : ((k : Nat) : Int) = 0 := by omega
    simp only [if_pos h1, if_pos h2]
  · simp only [List.cons_ne_self, if_false, reduceCtorEq]
    rw [hpos, Nat.mul_add]

/-! ## Reading: the end of the stream -/

/-- A short read where the session and the backend are in step: on a session
open for reading with `c >= 1` channels over a backend that holds exactly `F`
whole frames and stands where the session does, at the frame `o <= F`, a read
of `m >= 1` frames whose buffer of `c*m` samples exists raises no error and
returns `min m (F - o)` frames; when it returns fewer than `m` frames, the
offset of the session is `F` afterwards, and a following read of 1 frame
raises no error, returns zero frames, the value nil, and leaves the offset
unchanged. -/
theorem short_read_end_of_stream (ft : sox_format_t) (b : Backend) (o F : Nat) (m : Int)
    (hmode : ft.mode = 'r') (hc : 1 ≤ ft.channels) (hcu : ft.channels < 2 ^ 32)
    (hlen : b.samples.length = ft.channels * F) (hpos : b.pos = ft.channels * o) (ho : o ≤ F)
    (hm : 1 ≤ m) (hbuf : (ft.channels : Int) * m < 2 ^ 63) :
    (readFrom ⟨some ft, o⟩ b m).1.error = none ∧
    (readFrom ⟨some ft, o⟩ b m).1.frames = min m ((F : Int) - o) ∧
    ((readFrom ⟨some ft, o⟩ b m).1.frames < m →
      (readFrom ⟨some ft, o⟩ b m).1.obj.offset = F ∧
      (readFrom (readFrom ⟨some ft, o⟩ b m).1.obj (readFrom ⟨some ft, o⟩ b m).2 1).1.error
        = none ∧
      (readFrom (readFrom ⟨some ft, o⟩ b m).1.obj (readFrom ⟨some ft, o⟩ b m).2 1).1.frames
        = 0 ∧
      (readFrom (readFrom ⟨some ft, o⟩ b m).1.obj (readFrom ⟨some ft, o⟩ b m).2 1).1.value
        = .nil ∧
      (readFrom (readFrom ⟨some ft, o⟩ b m).1.obj (readFrom ⟨some ft, o⟩ b m).2 1).1.obj.offset
        = (readFrom ⟨some ft, o⟩ b m).1.obj.offset) := by
  obtain ⟨he, hf, hobj, -, hb⟩ := readFrom_open ft b o F m hmode hc hcu hlen hpos hm hbuf
  have hmin : ((min m.toNat (F - o) : Nat) : Int) = min m ((F : Int) - o) := by
    rw [Nat.cast_min, Int.toNat_of_nonneg (by omega), Nat.cast_sub ho]
  refine ⟨he, hf.trans hmin, ?_⟩
  intro hshort
  rw [hf] at hshort
  have hk : min m.toNat (F - o) = F - o := by
    rcases le_total m.toNat (F - o) with h | h
    · rw [min_eq_left h] at hshort
      rw [Int.toNat_of_nonneg (by omega)] at hshort
      omega
    · exact min_eq_right h
  have hoF : o + min m.toNat (F - o) = F := by rw [hk]; omega
  rw [hoF] at hobj hb
  rw [hobj, hb]
  have hc1 : (ft.channels : Int) * 1 < 2 ^ 63 := by
    have : (ft.channels : Int) < 2 ^ 32 := by exact_mod_cast hcu
    omega
  obtain ⟨he2, hf2, hobj2, hv2, -⟩ :=
    readFrom_open ft ⟨b.samples, ft.channels * F⟩ F F 1 hmode hc hcu hlen rfl le_rfl hc1
  have hz : min (1 : Int).toNat (F - F) = 0 := by simp
  rw [hz] at hf2 hobj2
  exact ⟨rfl, he2, hf2, hv2 hz, by rw [hobj2]; simp⟩

/-- The short read on a mono stream of 10 frames: at offset 7 a read of 5
frames returns 3 frames and ends at offset 10, where a read of 1 frame returns
nil; and from offset 0, a read of 5 frames returns 5 frames and ends at offset
5, a seek to 12 ends at offset 10, and a read of 1 frame returns zero frames
there. -/
theorem short_read_end_of_stream_witness :
    (readFrom ⟨some ⟨'r', 1, 10, 0⟩, 7⟩ ⟨[0, 1, 2, 3, 4, 5, 6, 7, 8, 9], 7⟩ 5).1.frames = 3 ∧
    (readFrom ⟨some ⟨'r', 1, 10, 0⟩, 7⟩ ⟨[0, 1, 2, 3, 4, 5, 6, 7, 8, 9], 7⟩ 5).1.obj.offset = 10 ∧
    (readFrom (readFrom ⟨some ⟨'r', 1, 10, 0⟩, 7⟩ ⟨[0, 1, 2, 3, 4, 5, 6, 7, 8, 9], 7⟩ 5).1.obj
      (readFrom ⟨some ⟨'r', 1, 10, 0⟩, 7⟩ ⟨[0, 1, 2, 3, 4, 5, 6, 7, 8, 9], 7⟩ 5).2 1).1.value
        = .nil ∧
    readFrom ⟨some ⟨'r', 1, 10, 0⟩, 0⟩ ⟨[0, 1, 2, 3, 4, 5, 6, 7, 8, 9], 0⟩ 5
      = (⟨⟨some ⟨'r', 1, 10, 0⟩, 5⟩, [.read 5], none, false, .samples 1 5 [0, 1, 2, 3, 4]⟩,
         ⟨[0, 1, 2, 3, 4, 5, 6, 7, 8, 9], 5⟩) ∧
    seekOn ⟨some ⟨'r', 1, 10, 0⟩, 5⟩ ⟨[0, 1, 2, 3, 4, 5, 6, 7, 8, 9], 5⟩ 12
      = (⟨⟨some ⟨'r', 1, 10, 0⟩, 10⟩, [.seek 10], none⟩,
         ⟨[0, 1, 2, 3, 4, 5, 6, 7, 8, 9], 10⟩) ∧
    readFrom ⟨some ⟨'r', 1, 10, 0⟩, 10⟩ ⟨[0, 1, 2, 3, 4, 5, 6, 7, 8, 9], 10⟩ 1
      = (⟨⟨some ⟨'r', 1, 10, 0⟩, 10⟩, [.read 1], none, false, .nil⟩,
         ⟨[0, 1, 2, 3, 4, 5, 6, 7, 8, 9], 10⟩) :=
  ⟨(short_read_end_of_stream ⟨'r', 1, 10, 0⟩ ⟨[0, 1, 2, 3, 4, 5, 6, 7, 8, 9], 7⟩ 7 10 5 rfl
      (by decide) (by decide) (by decide) (by decide) (by decide) (by decide) (by decide)).2.1,
   ((short_read_end_of_stream ⟨'r', 1, 10, 0⟩ ⟨[0, 1, 2, 3, 4, 5, 6, 7, 8, 9], 7⟩ 7 10 5 rfl
      (by decide) (by decide) (by decide) (by decide) (by decide) (by decide) (by decide)).2.2
      (by decide)).1,
   ((short_read_end_of_stream ⟨'r', 1, 10, 0⟩ ⟨[0, 1, 2, 3, 4, 5, 6, 7, 8, 9], 7⟩ 7 10 5 rfl
      (by decide) (by decide) (by decide) (by decide) (by decide) (by decide) (by decide)).2.2
      (by decide)).2.2.2.1,
   by decide, by decide, by decide⟩

/-- A seek whose sample offset does not overflow keeps the session and the
backend at the same frame: on a session open for reading at the frame `o`,
over a backend that holds the `F` whole frames the session declares and
stands at the frame `o`, a seek to `target >= 0` with
`target * channels < 2^63` raises no error and leaves both at the frame
`min target F`. -/
theorem seekOn_in_step (ft : sox_format_t) (b : Backend) (o F : Nat) (target : Int)
    (hmode : ft.mode = 'r') (hc : 1 ≤ ft.channels) (hcu : ft.channels < 2 ^ 32)
    (hL : ft.length = ft.channels * F) (hL63 : ft.length < 2 ^ 63)
    (hlen : b.samples.length = ft.channels * F) (hpos : b.pos = ft.channels * o)
    (ht0 : 0 ≤ target) (htc : target * ft.channels < 2 ^ 63) :
    (seekOn ⟨some ft, o⟩ b target).1.error = none ∧
    (seekOn ⟨some ft, o⟩ b target).1.obj = ⟨some ft, min target F⟩ ∧
    ((seekOn ⟨some ft, o⟩ b target).2.pos : Int) = ft.channels * min target F ∧
    (seekOn ⟨some ft, o⟩ b target).2.samples = b.samples := by
  have hc0 : (0 : Int) < ft.channels := by exact_mod_cast hc
  have hLi : (ft.length : Int) < 2 ^ 63 := by exact_mod_cast hL63
  have hLc : (ft.length : Int) = ft.channels * F := by exact_mod_cast hL
  have hLw : wrapSigned 64 ft.length = ft.length :=
    wrapSigned_64_of_range _ (Int.natCast_nonneg _) hLi
  have hPw : mulLong target ft.channels = target * ft.channels := by
    unfold mulLong
    exact wrapSigned_64_of_range _ (mul_nonneg ht0 (le_of_lt hc0)) htc
  have hdiv : divLong (ft.length : Int) ft.channels = F := by
    unfold divLong
    rw [Int.tdiv_eq_ediv (Int.natCast_nonneg _) (le_of_lt hc0), hLc]
    exact Int.mul_ediv_cancel_left _ (ne_of_gt hc0)
  have hclamp : (if target * (ft.channels : Int) > ft.length then (F : Int) else target)
      = min target F := by
    rw [hLc, mul_comm target]
    split_ifs with h
    · have : (F : Int) < target := lt_of_mul_lt_mul_left h (le_of_lt hc0)
      exact (min_eq_right (le_of_lt this)).symm
    · have : target ≤ F := by
        by_contra hlt
        exact h (mul_lt_mul_of_pos_left (not_le.mp hlt) hc0)
      exact (min_eq_left this).symm
  have hm0 : 0 ≤ min target (F : Int) := le_min ht0 (Int.natCast_nonneg _)
  have hmF : min target (F : Int) ≤ F := min_le_right _ _
  have hMw : mulLong (min target (F : Int)) ft.channels = ft.channels * min target (F : Int) := by
    unfold mulLong
    rw [mul_comm]
    apply wrapSigned_64_of_range _ (mul_nonneg (le_of_lt hc0) hm0)
    have : (ft.channels : Int) * min target (F : Int) ≤ ft.channels * F :=
      mul_le_mul_of_nonneg_left hmF (le_of_lt hc0)
    omega
  have hseek : ∀ seekOk : Bool, seek_to ⟨some ft, o⟩ target seekOk =
      if (o : Int) ≠ min target F then
        if seekOk then ⟨⟨some ft, min target F⟩, [.seek (ft.channels * min target F)], none⟩
        else ⟨⟨some ft, o⟩, [.seek (ft.channels * min target F)], some .seekFailed⟩
      else ⟨⟨some ft, o⟩, [], none⟩ := by
    intro seekOk
    rw [seek_to_open_read ft o target seekOk hmode, channels_as_long ft hcu, hLw, hPw, hdiv,
      hclamp, hMw]
    have hn1 : ¬ target < 0 := by omega
    have hn2 : ¬ target * (ft.channels : Int) < 0 := by
      have := mul_nonneg ht0 (le_of_lt hc0)
      omega
    simp only [hn1, hn2, if_false]
  unfold seekOn
  by_cases hne : (o : Int) ≠ min target F
  · have hin : 0 ≤ (ft.channels : Int) * min target (F : Int) ∧
        (ft.channels : Int) * min target (F : Int) ≤ (b.samples.length : Int) := by
      refine ⟨mul_nonneg (le_of_lt hc0) hm0, ?_⟩
      rw [hlen]
      push_cast
      exact mul_le_mul_of_nonneg_left hmF (le_of_lt hc0)
    simp only [hseek, if_pos hne, if_true, if_pos hin, true_and, and_true]
    exact Int.toNat_of_nonneg hin.1
  · have hoe : (o : Int) = min target F := by
      by_contra h; exact hne h
    simp only [hseek, if_neg hne, true_and, and_true]
    refine ⟨by rw [hoe], ?_⟩
    rw [← hoe, hpos]
    push_cast
    rfl

/-- C12, the code after a seek whose sample offset overflows: on a stream of 4
channels and 2 frames, open for reading at offset 0, over a backend that holds
the 8 samples, `seek(2^62)` raises no error, repositions the backend to sample
0 and sets the offset to `2^62`; the read of 3 frames that follows returns 2
frames, fewer than requested, and leaves the offset at `2^62 + 2`, which is
not the number of frames, 2; a read of 1 frame then returns nil. -/
theorem short_read_after_wrapped_seek :
    seekOn ⟨some ⟨'r', 4, 8, 0⟩, 0⟩ ⟨[1, 2, 3, 4, 5, 6, 7, 8], 0⟩ (2 ^ 62)
      = (⟨⟨some ⟨'r', 4, 8, 0⟩, 2 ^ 62⟩, [.seek 0], none⟩, ⟨[1, 2, 3, 4, 5, 6, 7, 8], 0⟩) ∧
    readFrom ⟨some ⟨'r', 4, 8, 0⟩, 2 ^ 62⟩ ⟨[1, 2, 3, 4, 5, 6, 7, 8], 0⟩ 3
      = (⟨⟨some ⟨'r', 4, 8, 0⟩, 2 ^ 62 + 2⟩, [.read 12], none, false,
          .samples 4 2 [1, 2, 3, 4, 5, 6, 7, 8]⟩, ⟨[1, 2, 3, 4, 5, 6, 7, 8], 8⟩) ∧
    (readFrom ⟨some ⟨'r', 4, 8, 0⟩, 2 ^ 62⟩ ⟨[1, 2, 3, 4, 5, 6, 7, 8], 0⟩ 3).1.frames = 2 ∧
    (readFrom ⟨some ⟨'r', 4, 8, 0⟩, 2 ^ 62⟩ ⟨[1, 2, 3, 4, 5, 6, 7, 8], 0⟩ 3).1.obj.offset
      ≠ frameCount ⟨'r', 4, 8, 0⟩ ∧
    frameCount ⟨'r', 4, 8, 0⟩ = 2 ∧
    readFrom ⟨some ⟨'r', 4, 8, 0⟩, 2 ^ 62 + 2⟩ ⟨[1, 2, 3, 4, 5, 6, 7, 8], 8⟩ 1
      = (⟨⟨some ⟨'r', 4, 8, 0⟩, 2 ^ 62 + 2⟩, [.read 4], none, false, .nil⟩,
          ⟨[1, 2, 3, 4, 5, 6, 7, 8], 8⟩) := by
  decide

/-- The second loop of `Y_sox_open_write` assigns neither `signal` nor
`encodinginfo`, at any argument, and of the static indexes it assigns none
but that of `bits_per_sample`. -/
theorem argStep_keeps (s : OpenLocals) (a : OpenArg) :
    (argStep s a).1.signal = s.signal ∧ (argStep s a).1.encodinginfo = s.encodinginfo ∧
    (argStep s a).1.statics.compression = s.statics.compression ∧
    (argStep s a).1.statics.rate = s.statics.rate ∧
    (argStep s a).1.statics.overwrite = s.statics.overwrite ∧
    (argStep s a).1.statics.template = s.statics.template := by
  cases a with
  | positional value =>
    unfold argStep
    cases hp : s.path <;> cases value <;> exact ⟨rfl, rfl, rfl, rfl, rfl, rfl⟩
  | keyword index value =>
    by_cases h1 : index = s.statics.bits_per_sample
    · simp only [argStep, if_pos h1]
      cases value <;> first | exact ⟨rfl, rfl, rfl, rfl, rfl, rfl⟩ | (simp only []; split_ifs <;> exact ⟨rfl, rfl, rfl, rfl, rfl, rfl⟩)
    by_cases h2 : index = s.statics.channels
    · simp only [argStep, if_neg h1, if_pos h2]
      cases value <;> first | exact ⟨rfl, rfl, rfl, rfl, rfl, rfl⟩ | (simp only []; split_ifs <;> exact ⟨rfl, rfl, rfl, rfl, rfl, rfl⟩)
    by_cases h3 : index = s.statics.compression
    · simp only [argStep, if_neg h1, if_neg h2, if_pos h3]
      cases ygets_d value <;> first | exact ⟨rfl, rfl, rfl, rfl, rfl, rfl⟩ | (simp only []; split_ifs <;> exact ⟨rfl, rfl, rfl, rfl, rfl, rfl⟩)
    by_cases h4 : index = s.statics.encoding
    · simp only [argStep, if_neg h1, if_neg h2, if_neg h3, if_pos h4]
      cases value <;> first | exact ⟨rfl, rfl, rfl, rfl, rfl, rfl⟩ | (simp only []; split_ifs <;> exact ⟨rfl, rfl, rfl, rfl, rfl, rfl⟩)
    by_cases h5 : index = s.statics.filetype
    · simp only [argStep, if_neg h1, if_neg h2, if_neg h3, if_neg h4, if_pos h5]
      cases value <;> exact ⟨rfl, rfl, rfl, rfl, rfl, rfl⟩
    by_cases h6 : index = s.statics.overwrite
    · have hstep : argStep s (.keyword index value)
          = ({ s with overwrite := yarg_true value }, none) := by
        simp only [argStep, if_neg h1, if_neg h2, if_neg h3, if_neg h4, if_neg h5, if_pos h6]
      rw [hstep]
      exact ⟨rfl, rfl, rfl, rfl, rfl, rfl⟩
    by_cases h7 : index = s.statics.precision
    · simp only [argStep, if_neg h1, if_neg h2, if_neg h3, if_neg h4, if_neg h5, if_neg h6,
        if_pos h7]
      cases value <;> first | exact ⟨rfl, rfl, rfl, rfl, rfl, rfl⟩ | (simp only []; split_ifs <;> exact ⟨rfl, rfl, rfl, rfl, rfl, rfl⟩)
    by_cases h8 : index = s.statics.rate
    · simp only [argStep, if_neg h1, if_neg h2, if_neg h3, if_neg h4, if_neg h5, if_neg h6,
        if_neg h7, if_pos h8]
      cases ygets_d value <;> first | exact ⟨rfl, rfl, rfl, rfl, rfl, rfl⟩ | (simp only []; split_ifs <;> exact ⟨rfl, rfl, rfl, rfl, rfl, rfl⟩)
    simp only [argStep, if_neg h1, if_neg h2, if_neg h3, if_neg h4, if_neg h5, if_neg h6,
        if_neg h7, if_neg h8]
    split_ifs <;> exact ⟨rfl, rfl, rfl, rfl, rfl, rfl⟩

/-- The second loop of `Y_sox_open_write` leaves `signal` and `encodinginfo`
as it finds them, whatever the arguments. -/
theorem runArgs_argStep_descriptors (args : List OpenArg) (s : OpenLocals) :
    (runArgs argStep s args).1.signal = s.signal ∧
    (runArgs argStep s args).1.encodinginfo = s.encodinginfo := by
  induction args generalizing s with
  | nil => exact ⟨rfl, rfl⟩
  | cons a rest ih =>
    have h : (argStep s a).1.signal = s.signal ∧
        (argStep s a).1.encodinginfo = s.encodinginfo :=
      ⟨(argStep_keeps s a).1, (argStep_keeps s a).2.1⟩
    unfold runArgs
    rcases hstep : argStep s a with ⟨s1, _ | e⟩
    · rw [hstep] at h
      simp only
      rw [(ih s1).1, (ih s1).2]
      exact h
    · rw [hstep] at h
      exact h

/-- The first loop of `Y_sox_open_write` changes nothing when no argument is
a `template` keyword. -/
theorem runArgs_templateStep_none (args : List OpenArg) (s : OpenLocals)
    (h : ∀ value, OpenArg.keyword s.statics.template value ∉ args) :
    runArgs templateStep s args = (s, none) := by
  induction args with
  | nil => rfl
  | cons a rest ih =>
    have hstep : templateStep s a = (s, none) := by
      cases a with
      | positional value => rfl
      | keyword index value =>
        have hne : index ≠ s.statics.template := by
          intro heq
          exact h value (by rw [heq]; exact List.mem_cons_self _ _)
        simp only [templateStep, if_neg hne]
    unfold runArgs
    rw [hstep]
    exact ih (fun value hmem => h value (List.mem_cons_of_mem _ hmem))

/-- Without a `template` keyword, the descriptors of every call that
`Y_sox_open_write` makes to the backend are the defaults, whatever the values
supplied by the other keywords. -/
theorem open_write_descriptors_default (statics globals : KeywordIndexes)
    (args : List OpenArg) (opened : Option sox_format_t) (c : OpenWriteCall)
    (h : ∀ value, OpenArg.keyword (initIndexes statics globals).template value ∉ args)
    (hc : (Y_sox_open_write statics globals args opened).call = some c) :
    c.signal = ⟨SOX_DEFAULT_RATE, SOX_DEFAULT_CHANNELS, SOX_DEFAULT_PRECISION,
      SOX_UNKNOWN_LEN, none⟩ ∧
    c.encoding = ⟨SOX_DEFAULT_ENCODING, SOX_UNSPEC, .finite 1⟩ := by
  have h1 := runArgs_templateStep_none args (openDefaults (initIndexes statics globals)) h
  have h2 := runArgs_argStep_descriptors args (openDefaults (initIndexes statics globals))
  unfold Y_sox_open_write at hc
  rw [h1] at hc
  simp only at hc
  rcases hrun : runArgs argStep (openDefaults (initIndexes statics globals)) args
    with ⟨s2, _ | e⟩
  · rw [hrun] at hc h2
    simp only at hc h2
    cases hp : s2.path with
    | none => rw [hp] at hc; simp at hc
    | some path =>
      rw [hp] at hc
      cases opened with
      | none =>
        simp only [Option.some.injEq] at hc
        rw [← hc]
        exact h2
      | some ft =>
        simp only [Option.some.injEq] at hc
        rw [← hc]
        exact h2
  · rw [hrun] at hc
    simp at hc

/-! ## Opening for writing -/

/-- C18, the code at a first call, without a template, that supplies the path
"out.wav" and the keywords channels = 1, precision = 24, bits_per_sample = 24
and encoding = 2, all of which pass validation, the nine keyword names having
the indexes 100 to 108 in the table of global symbols: the backend open is
called with the default descriptors, rate 48000, 2 channels, precision 16,
unknown length, encoding 1, bits per sample unspecified and compression 1,
not with the supplied values; and the static index of the keyword
`bits_per_sample` is left at 24. -/
theorem open_write_ignores_supplied_descriptors :
    Y_sox_open_write ⟨-1, -1, -1, -1, -1, -1, -1, -1, -1⟩
        ⟨100, 101, 102, 103, 104, 105, 106, 107, 108⟩
        [.positional (.string (some "out.wav")), .keyword 101 (.long 1),
         .keyword 106 (.long 24), .keyword 100 (.long 24), .keyword 103 (.long 2)]
        (some ⟨'w', 2, 0, 0⟩)
      = ⟨⟨24, 101, 102, 103, 104, 105, 106, 107, 108⟩,
         some ⟨"out.wav", ⟨.finite 48000, 2, 16, 2 ^ 64 - 1, none⟩, ⟨1, 0, .finite 1⟩,
           none, false⟩,
         some ⟨some ⟨'w', 2, 0, 0⟩, 0⟩, none⟩ := by
  decide

/-- An integer that is not positive converts to a `double` that is not
positive. -/
theorem ofInt_nonpos (v : Int) (h : v ≤ 0) : Double.le (Double.ofInt v) (.finite 0) = true := by
  have hr : roundBinary64 (v : ℚ) ≤ 0 := by
    have := roundBinary64_le (v : ℚ) 0 0 (by norm_num) (by norm_num)
      (by simp only [Int.cast_zero, zero_mul]; exact_mod_cast h)
    simpa using this
  unfold Double.ofInt Double.ofRat
  have h1 : ¬ ((2 : ℚ) ^ 1024 ≤ roundBinary64 (v : ℚ)) := by
    intro h2
    have : (0 : ℚ) < 2 ^ 1024 := by positivity
    linarith
  rw [if_neg h1]
  split_ifs
  · rfl
  · simp only [Double.le, decide_eq_true_eq]
    exact hr

/-- The first loop of `Y_sox_open_write` assigns no static index. -/
theorem runArgs_templateStep_statics (args : List OpenArg) (s : OpenLocals) :
    (runArgs templateStep s args).1.statics = s.statics := by
  induction args generalizing s with
  | nil => rfl
  | cons a rest ih =>
    have hstep : (templateStep s a).1.statics = s.statics := by
      cases a with
      | positional value => rfl
      | keyword index value =>
        simp only [templateStep]
        split_ifs
        · split <;> rfl
        · rfl
    unfold runArgs
    rcases hs : templateStep s a with ⟨s1, _ | e⟩
    · rw [hs] at hstep
      simp only
      rw [ih s1]
      exact hstep
    · rw [hs] at hstep
      exact hstep

/-- A loop over the arguments raises an error when one of the arguments is
rejected in every state that the loop can be in. -/
theorem runArgs_error (step : OpenLocals → OpenArg → OpenLocals × Option OpenError)
    (P : OpenLocals → Prop) (a : OpenArg)
    (hP : ∀ s b, P s → P (step s b).1) (ha : ∀ s, P s → (step s a).2 ≠ none)
    (args : List OpenArg) (s : OpenLocals) (hmem : a ∈ args) (hs : P s) :
    (runArgs step s args).2 ≠ none := by
  induction args generalizing s with
  | nil => simp at hmem
  | cons b rest ih =>
    unfold runArgs
    rcases hstep : step s b with ⟨s1, _ | e⟩
    · simp only
      rcases List.mem_cons.mp hmem with hab | hrest
      · have := ha s hs
        rw [hab, hstep] at this
        exact absurd rfl this
      · have hs1 := hP s b hs
        rw [hstep] at hs1
        exact ih s1 hrest hs1
    · simp

/-- The second loop of `Y_sox_open_write` raises an error at a keyword
argument whose numeric value is not positive or does not fit, in every state
whose static indexes of `compression`, `rate`, `overwrite` and `template` are
those of `S`. -/
theorem argStep_rejects (S : KeywordIndexes) (s : OpenLocals) (a : OpenArg)
    (hinv : invalidDescriptor S a)
    (hs : s.statics.compression = S.compression ∧ s.statics.rate = S.rate ∧
      s.statics.overwrite = S.overwrite ∧ s.statics.template = S.template) :
    (argStep s a).2 ≠ none := by
  obtain ⟨hsc, hsr, hso, hst⟩ := hs
  cases a with
  | positional value => exact absurd hinv (by simp [invalidDescriptor])
  | keyword index value =>
    have hval : (∃ v, value = .long v ∧ (v ≤ 0 ∨ (2 ^ 32 ≤ v ∧ index ≠ s.statics.compression ∧
          index ≠ s.statics.rate))) ∨
        (∃ d, value = .double d ∧ Double.le d (.finite 0) = true) := by
      cases value with
      | long v => exact Or.inl ⟨v, rfl, by rw [hsc, hsr]; exact hinv.2.2⟩
      | double d => exact Or.inr ⟨d, rfl, hinv.2.2⟩
      | string p => exact absurd hinv (by simp [invalidDescriptor])
      | stream f => exact absurd hinv (by simp [invalidDescriptor])
      | other => exact absurd hinv (by simp [invalidDescriptor])
    have h6 : index ≠ s.statics.overwrite := by
      rw [hso]
      rcases hval with ⟨v, rfl, _⟩ | ⟨d, rfl, _⟩ <;> exact hinv.1
    have h9 : index ≠ s.statics.template := by
      rw [hst]
      rcases hval with ⟨v, rfl, _⟩ | ⟨d, rfl, _⟩ <;> exact hinv.2.1
    have hunsigned : ∀ v : Int, (v ≤ 0 ∨ (2 ^ 32 ≤ v ∧ index ≠ s.statics.compression ∧
        index ≠ s.statics.rate)) → (v ≤ 0 ∨ v % 2 ^ 32 ≠ v) := by
      intro v hv
      rcases hv with h | ⟨h, -, -⟩
      · exact Or.inl h
      · right
        intro heq
        have : v % 2 ^ 32 < 2 ^ 32 := Int.emod_lt_of_pos v (by norm_num)
        omega
    by_cases h1 : index = s.statics.bits_per_sample
    · simp only [argStep, if_pos h1]
      rcases hval with ⟨v, rfl, hv⟩ | ⟨d, rfl, hd⟩
      · simp only [if_pos (hunsigned v hv)]
        simp
      · simp
    by_cases h2 : index = s.statics.channels
    · simp only [argStep, if_neg h1, if_pos h2]
      rcases hval with ⟨v, rfl, hv⟩ | ⟨d, rfl, hd⟩
      · simp only [if_pos (hunsigned v hv)]
        simp
      · simp
    by_cases h3 : index = s.statics.compression
    · simp only [argStep, if_neg h1, if_neg h2, if_pos h3]
      rcases hval with ⟨v, rfl, hv⟩ | ⟨d, rfl, hd⟩
      · have hv0 : v ≤ 0 := by
          rcases hv with h | ⟨-, h, -⟩
          · exact h
          · exact absurd h3 h
        simp only [ygets_d, if_pos (ofInt_nonpos v hv0)]
        simp
      · simp only [ygets_d, if_pos hd]
        simp
    by_cases h4 : index = s.statics.encoding
    · simp only [argStep, if_neg h1, if_neg h2, if_neg h3, if_pos h4]
      rcases hval with ⟨v, rfl, hv⟩ | ⟨d, rfl, hd⟩
      · have hw : v ≤ 0 ∨ wrapSigned 32 v ≠ v := by
          rcases hv with h | ⟨h, -, -⟩
          · exact Or.inl h
          · right
            intro heq
            have hlt : v % 2 ^ 32 < 2 ^ 32 := Int.emod_lt_of_pos v (by norm_num)
            unfold wrapSigned at heq
            split_ifs at heq <;> omega
        simp only [if_pos hw]
        simp
      · simp
    by_cases h5 : index = s.statics.filetype
    · simp only [argStep, if_neg h1, if_neg h2, if_neg h3, if_neg h4, if_pos h5]
      rcases hval with ⟨v, rfl, hv⟩ | ⟨d, rfl, hd⟩ <;> simp
    by_cases h7 : index = s.statics.precision
    · simp only [argStep, if_neg h1, if_neg h2, if_neg h3, if_neg h4, if_neg h5, if_neg h6,
        if_pos h7]
      rcases hval with ⟨v, rfl, hv⟩ | ⟨d, rfl, hd⟩
      · simp only [if_pos (hunsigned v hv)]
        simp
      · simp
    by_cases h8 : index = s.statics.rate
    · simp only [argStep, if_neg h1, if_neg h2, if_neg h3, if_neg h4, if_neg h5, if_neg h6,
        if_neg h7, if_pos h8]
      rcases hval with ⟨v, rfl, hv⟩ | ⟨d, rfl, hd⟩
      · have hv0 : v ≤ 0 := by
          rcases hv with h | ⟨-, -, h⟩
          · exact h
          · exact absurd h8 h
        simp only [ygets_d, if_pos (ofInt_nonpos v hv0)]
        simp
      · simp only [ygets_d, if_pos hd]
        simp
    simp only [argStep, if_neg h1, if_neg h2, if_neg h3, if_neg h4, if_neg h5, if_neg h6,
        if_neg h7, if_neg h8]
    simp [h9]

/-- A call of `Y_sox_open_write` in which a keyword argument supplies a
numeric value that is not positive or does not fit fails, and fails before
the backend open: no call is made and no session is returned. -/
theorem open_write_rejects_invalid (statics globals : KeywordIndexes) (args : List OpenArg)
    (opened : Option sox_format_t) (a : OpenArg) (hmem : a ∈ args)
    (hinv : invalidDescriptor (initIndexes statics globals) a) :
    (Y_sox_open_write statics globals args opened).error ≠ none ∧
    (Y_sox_open_write statics globals args opened).call = none ∧
    (Y_sox_open_write statics globals args opened).obj = none := by
  unfold Y_sox_open_write
  have hst := runArgs_templateStep_statics args (openDefaults (initIndexes statics globals))
  rcases h1 : runArgs templateStep (openDefaults (initIndexes statics globals)) args
    with ⟨s1, _ | e⟩
  · rw [h1] at hst
    have hs1 : s1.statics = initIndexes statics globals := hst
    have herr := runArgs_error argStep
      (fun s => s.statics.compression = (initIndexes statics globals).compression ∧
        s.statics.rate = (initIndexes statics globals).rate ∧
        s.statics.overwrite = (initIndexes statics globals).overwrite ∧
        s.statics.template = (initIndexes statics globals).template) a
      (fun s b hs => by
        obtain ⟨-, -, k3, k4, k5, k6⟩ := argStep_keeps s b
        exact ⟨k3.trans hs.1, k4.trans hs.2.1, k5.trans hs.2.2.1, k6.trans hs.2.2.2⟩)
      (fun s hs => argStep_rejects _ s a hinv hs)
      args s1 hmem (by simp only [hs1, and_self])
    rcases h2 : runArgs argStep s1 args with ⟨s2, _ | e⟩
    · rw [h2] at herr
      exact absurd rfl herr
    · simp [h2]
  · simp

/-- A scalar index beyond the last frame is not rejected: on a stream open for
reading with `ntot` frames, at an offset within the stream, an index
`i > ntot` whose sample offset fits a `long` positions the session at the end
of the stream, with a backend seek to the sample `ntot * channels` unless the
session is there already, and then reads 1 frame there; no invalid-argument
error is raised. -/
theorem scalar_index_past_end (ft : sox_format_t) (o i : Int) (arg : YArg) (n : Int)
    (buf : List Int) (hmode : ft.mode = 'r') (hc : 1 ≤ ft.channels) (hcu : ft.channels < 2 ^ 32)
    (hL : ft.length < 2 ^ 63) (ho1 : o ≤ frameCount ft)
    (harg : scalarIndex arg = some i) (hi : frameCount ft < i) (hiL : i * ft.channels < 2 ^ 63) :
    ysox_eval ⟨some ft, o⟩ 1 arg true n buf =
        { read_samples ⟨some ft, frameCount ft⟩ 1 n buf with
          calls := (if frameCount ft ≠ o then [.seek (frameCount ft * ft.channels)] else [])
            ++ (read_samples ⟨some ft, frameCount ft⟩ 1 n buf).calls } ∧
    ∀ e, (ysox_eval ⟨some ft, o⟩ 1 arg true n buf).error = some e →
      e.isInvalidArgument = false := by
  obtain ⟨hN0, hN1⟩ := frameCount_range ft hL
  have hc0 : (0 : Int) < ft.channels := by exact_mod_cast hc
  have hLi : (ft.length : Int) < 2 ^ 63 := by exact_mod_cast hL
  have hi63 : i < 2 ^ 63 := by nlinarith
  have hsel : selectFrames o (frameCount ft) arg = .frames (i - 1) 1 := by
    rw [select_scalar o (frameCount ft) i arg harg, if_neg (by omega)]
    unfold subLong
    rw [wrapSigned_64_of_long _ (by omega) (by omega)]
  have hLw : wrapSigned 64 ft.length = ft.length :=
    wrapSigned_64_of_range _ (Int.natCast_nonneg _) hLi
  have hPw : mulLong (i - 1) ft.channels = (i - 1) * ft.channels := by
    unfold mulLong
    exact wrapSigned_64_of_range _ (mul_nonneg (by omega) (le_of_lt hc0)) (by nlinarith)
  have hdiv : divLong (ft.length : Int) ft.channels = frameCount ft := by
    unfold divLong frameCount
    rw [Int.tdiv_eq_ediv (Int.natCast_nonneg _) (le_of_lt hc0)]
    exact (Int.natCast_div _ _).symm
  have hFl := frameCount_mul_le ft
  have hclamp : (if (i - 1) * (ft.channels : Int) > ft.length then frameCount ft else i - 1)
      = frameCount ft := by
    split_ifs with h
    · rfl
    · have : (i - 1) * (ft.channels : Int) ≤ ft.length := by omega
      by_contra hne
      have h2 : frameCount ft + 1 ≤ i - 1 := by omega
      have h3 : (frameCount ft + 1) * ft.channels ≤ (i - 1) * ft.channels :=
        mul_le_mul_of_nonneg_right h2 (le_of_lt hc0)
      have h4 : (ft.length : Int) < (frameCount ft + 1) * ft.channels := by
        unfold frameCount
        have hnat : ft.length < (ft.length / ft.channels + 1) * ft.channels := by
          rw [mul_comm]
          exact Nat.lt_mul_div_succ ft.length (by omega)
        exact_mod_cast hnat
      omega
  have heval := ysox_eval_read ft o arg true n buf hmode hL
  rw [hsel] at heval
  simp only at heval
  have hseek : seek_to ⟨some ft, o⟩ (i - 1) true =
      if o ≠ frameCount ft then
        ⟨⟨some ft, frameCount ft⟩, [.seek (frameCount ft * ft.channels)], none⟩
      else ⟨⟨some ft, o⟩, [], none⟩ := by
    rw [seek_to_open_read ft o (i - 1) true hmode, channels_as_long ft hcu, hLw, hPw, hdiv,
      hclamp]
    have hn1 : ¬ i - 1 < 0 := by omega
    have hn2 : ¬ (i - 1) * (ft.channels : Int) < 0 := by
      have := mul_nonneg (show (0 : Int) ≤ i - 1 by omega) (le_of_lt hc0)
      omega
    have hFw : mulLong (frameCount ft) ft.channels = frameCount ft * ft.channels := by
      unfold mulLong
      exact wrapSigned_64_of_range _ (mul_nonneg hN0 (le_of_lt hc0)) (by omega)
    simp only [hn1, hn2, if_false, if_true, hFw]
  have hmain : ysox_eval ⟨some ft, o⟩ 1 arg true n buf =
      { read_samples ⟨some ft, frameCount ft⟩ 1 n buf with
        calls := (if frameCount ft ≠ o then [.seek (frameCount ft * ft.channels)] else [])
          ++ (read_samples ⟨some ft, frameCount ft⟩ 1 n buf).calls } := by
    rw [heval]
    by_cases hio : i - 1 ≠ o
    · rw [if_pos hio, hseek]
      by_cases hoN : o ≠ frameCount ft
      · rw [if_pos hoN, if_pos (Ne.symm hoN)]
      · have hoe : o = frameCount ft := by
          by_contra h; exact hoN h
        rw [if_neg hoN, if_neg (by rw [hoe]; simp)]
        simp only [List.nil_append, hoe]
    · have hoe : o = frameCount ft := by omega
      rw [if_neg hio, if_neg (by rw [hoe]; simp)]
      simp only [List.nil_append, hoe]
  refine ⟨hmain, ?_⟩
  intro e he
  rw [hmain] at he
  exact read_samples_no_invalid _ _ n buf e (by norm_num) he

/-- The selection of a scalar index in the terms of the specification: one
frame, at the offset of the resolved index less one. -/
theorem select_scalar_resolved (ft : sox_format_t) (o i : Int) (arg : YArg)
    (hL : ft.length < 2 ^ 63) (harg : scalarIndex arg = some i)
    (hi0 : -2 ^ 63 < i) (hi1 : i < 2 ^ 63) :
    selectFrames o (frameCount ft) arg = .frames (resolveBound (frameCount ft) i - 1) 1 := by
  obtain ⟨hN0, hN1⟩ := frameCount_range ft hL
  rw [select_scalar o (frameCount ft) i arg harg, resolve_eq _ _ hN0 hN1 (by omega) hi1]
  unfold subLong
  rw [wrapSigned_64_of_long _ (by unfold resolveBound; split_ifs <;> omega)
    (by unfold resolveBound; split_ifs <;> omega)]

/-- A scalar index that resolves to zero or less is rejected before any
effect, with the error "offset must be nonnegative" of the seek. -/
theorem scalar_index_before_start (ft : sox_format_t) (o i : Int) (arg : YArg) (seekOk : Bool)
    (n : Int) (buf : List Int) (hmode : ft.mode = 'r') (hL : ft.length < 2 ^ 63) (ho0 : 0 ≤ o)
    (harg : scalarIndex arg = some i) (hi0 : -2 ^ 63 < i) (hi1 : i < 2 ^ 63)
    (hr : resolveBound (frameCount ft) i ≤ 0) :
    ysox_eval ⟨some ft, o⟩ 1 arg seekOk n buf
      = ⟨⟨some ft, o⟩, [], some .offsetNegative, false, .nil⟩ := by
  have heval := ysox_eval_read ft o arg seekOk n buf hmode hL
  rw [select_scalar_resolved ft o i arg hL harg hi0 hi1] at heval
  simp only at heval
  have hne : resolveBound (frameCount ft) i - 1 ≠ o := by omega
  have hseek : seek_to ⟨some ft, o⟩ (resolveBound (frameCount ft) i - 1) seekOk
      = ⟨⟨some ft, o⟩, [], some .offsetNegative⟩ := by
    rw [seek_to_open_read ft o _ seekOk hmode, if_pos (by omega)]
  rw [heval, if_pos hne, hseek]

end YSoX
